import Mathlib

/-!
# Verification of the CLIF interpreter / tracer / constant-folder core

A shallow embedding, in Lean 4, of the interpretation, tracing and
constant-folding core of this repository:

* `cranelift/interpreter/src/interpreter.rs` — the CLIF interpreter,
* `cranelift/interpreter/src/tracing.rs` — trace recording and the trace store,
* `cranelift/filetests/src/function_runner.rs` — the native function runner,
* `cranelift/preopt/src/constant_folding.rs` — the SCCP constant folder,
* `cranelift/reader/src/run_command.rs` — the `DataValue` data model.

Rust `panic!` / `unimplemented!` / failed `expect`/`assert` sites are modelled
as an explicit `panic` error channel distinct from the typed `Trap` errors.
External collaborators that the core merely calls (the native code generator
behind `Context::compile`, i.e. everything after the calling-convention check
of `FunctionRunner::compile`, and the reconstruct-and-compile step at
`trace_end`) are taken as oracle parameters, as the specification declares
them out of scope.
-/

namespace Clif

/-! ## DataValue (`cranelift/reader/src/run_command.rs`, lines 112–122)

`DataValue` is a tagged variant over booleans, signed integers of widths
8/16/32/64, floats of widths 32/64 (IEEE-754 bit patterns, kept as raw
`Nat` bit patterns here) and a 128-bit vector of 16 raw bytes.

Rust derives `PartialEq` for `DataValue`; on the float payloads that is
IEEE-754 equality of `f32`/`f64` (all NaNs unequal to everything, the two
zeros equal), which we reproduce on bit patterns below. -/

inductive DataValue : Type
  | B (b : Bool)
  | I8 (i : Int)
  | I16 (i : Int)
  | I32 (i : Int)
  | I64 (i : Int)
  | F32 (bits : Nat)
  | F64 (bits : Nat)
  | V128 (bytes : List Nat)
  deriving DecidableEq, Repr

/-- Is a 32-bit pattern a NaN: exponent all ones, mantissa nonzero. -/
def isNaN32 (x : Nat) : Bool :=
  (x / 2 ^ 23) % 2 ^ 8 = 255 && x % 2 ^ 23 ≠ 0

/-- Is a 32-bit pattern one of the two zeros (ignoring the sign bit). -/
def isZero32 (x : Nat) : Bool := x % 2 ^ 31 = 0

/-- Canonicalize a 32-bit pattern: the two zeros collapse to `+0`. -/
def canon32 (x : Nat) : Nat := if x % 2 ^ 31 = 0 then 0 else x

/-- IEEE-754 equality on 32-bit patterns: NaN is unequal to everything;
-0.0 equals +0.0; otherwise distinct patterns are distinct values. -/
def f32Eq (x y : Nat) : Bool :=
  if isNaN32 x || isNaN32 y then false else canon32 x = canon32 y

/-- Is a 64-bit pattern a NaN. -/
def isNaN64 (x : Nat) : Bool :=
  (x / 2 ^ 52) % 2 ^ 11 = 2047 && x % 2 ^ 52 ≠ 0

/-- Canonicalize a 64-bit pattern: the two zeros collapse to `+0`. -/
def canon64 (x : Nat) : Nat := if x % 2 ^ 63 = 0 then 0 else x

/-- IEEE-754 equality on 64-bit patterns. -/
def f64Eq (x y : Nat) : Bool :=
  if isNaN64 x || isNaN64 y then false else canon64 x = canon64 y

/-- The derived Rust `PartialEq` on `DataValue`: componentwise equality,
with IEEE-754 equality on the float payloads. -/
def dvBeq : DataValue → DataValue → Bool
  | .B a, .B b => a = b
  | .I8 a, .I8 b => a = b
  | .I16 a, .I16 b => a = b
  | .I32 a, .I32 b => a = b
  | .I64 a, .I64 b => a = b
  | .F32 a, .F32 b => f32Eq a b
  | .F64 a, .F64 b => f64Eq a b
  | .V128 a, .V128 b => a = b
  | _, _ => false

theorem f32Eq_symm (x y : Nat) : f32Eq x y = f32Eq y x := by
  unfold f32Eq
  rw [Bool.or_comm]
  by_cases h : (isNaN32 y || isNaN32 x) = true
  · rw [if_pos h, if_pos h]
  · rw [if_neg h, if_neg h]
    exact decide_eq_decide.mpr ⟨Eq.symm, Eq.symm⟩

theorem f32Eq_trans {x y z : Nat} (h1 : f32Eq x y = true) (h2 : f32Eq y z = true) :
    f32Eq x z = true := by
  simp only [f32Eq] at *
  by_cases hx : isNaN32 x = true <;> by_cases hy : isNaN32 y = true <;>
    by_cases hz : isNaN32 z = true <;> simp_all

theorem f64Eq_symm (x y : Nat) : f64Eq x y = f64Eq y x := by
  unfold f64Eq
  rw [Bool.or_comm]
  by_cases h : (isNaN64 y || isNaN64 x) = true
  · rw [if_pos h, if_pos h]
  · rw [if_neg h, if_neg h]
    exact decide_eq_decide.mpr ⟨Eq.symm, Eq.symm⟩

theorem f64Eq_trans {x y z : Nat} (h1 : f64Eq x y = true) (h2 : f64Eq y z = true) :
    f64Eq x z = true := by
  simp only [f64Eq] at *
  by_cases hx : isNaN64 x = true <;> by_cases hy : isNaN64 y = true <;>
    by_cases hz : isNaN64 z = true <;> simp_all

theorem dvBeq_symm (a b : DataValue) : dvBeq a b = dvBeq b a := by
  cases a <;> cases b <;> simp [dvBeq, eq_comm, f32Eq_symm, f64Eq_symm]

theorem dvBeq_trans {a b c : DataValue} (h1 : dvBeq a b = true) (h2 : dvBeq b c = true) :
    dvBeq a c = true := by
  cases a <;> cases b <;> cases c <;> simp_all [dvBeq]
  · exact f32Eq_trans h1 h2
  · exact f64Eq_trans h1 h2

/-! ## LatticeValue and meet (`cranelift/preopt/src/constant_folding.rs`, lines 382–408) -/

/-- The three-point semilattice driving the constant folder. -/
inductive LatticeValue : Type
  | top
  | constant (d : DataValue)
  | bottom
  deriving DecidableEq, Repr

/-- `LatticeValue::meet` from the source: `(Top, x) | (x, Top) => x`,
Bottom absorbs, equal constants survive, unequal constants fall to Bottom.
The constant comparison `a == b` is the derived Rust `PartialEq`. -/
def LatticeValue.meet : LatticeValue → LatticeValue → LatticeValue
  | .top, x => x
  | x, .top => x
  | .bottom, _ => .bottom
  | _, .bottom => .bottom
  | .constant a, .constant b => if dvBeq a b then .constant a else .bottom

/-- The derived Rust `PartialEq` on `LatticeValue` (uses `dvBeq` on constants). -/
def latBeq : LatticeValue → LatticeValue → Bool
  | .top, .top => true
  | .bottom, .bottom => true
  | .constant a, .constant b => dvBeq a b
  | _, _ => false

/-- Two lattice values that Rust's `==` cannot distinguish: either structurally
equal, or equal under the derived `PartialEq` (which differs from structural
equality only on float payloads: ±0.0 are `==`-equal but distinct patterns,
NaN is `==`-unequal to itself). -/
def latEquiv (x y : LatticeValue) : Prop := x = y ∨ latBeq x y = true

theorem meet_top (x : LatticeValue) : LatticeValue.meet .top x = x := by
  cases x <;> rfl

theorem meet_bottom (x : LatticeValue) : LatticeValue.meet .bottom x = .bottom := by
  cases x <;> rfl

theorem meet_const (a b : DataValue) :
    LatticeValue.meet (.constant a) (.constant b) =
      if dvBeq a b then .constant a else .bottom := rfl

theorem meet_comm (x y : LatticeValue) :
    latEquiv (LatticeValue.meet x y) (LatticeValue.meet y x) := by
  cases x <;> cases y <;> try exact Or.inl rfl
  case constant.constant a b =>
    by_cases h : dvBeq a b = true
    · have h' : dvBeq b a = true := by rw [dvBeq_symm]; exact h
      exact Or.inr (by simp [LatticeValue.meet, h, h', latBeq])
    · have h' : ¬ dvBeq b a = true := by rw [dvBeq_symm]; exact h
      exact Or.inl (by simp [LatticeValue.meet, h, h'])

theorem meet_assoc (x y z : LatticeValue) :
    LatticeValue.meet (LatticeValue.meet x y) z =
      LatticeValue.meet x (LatticeValue.meet y z) := by
  cases x <;> cases y <;> cases z <;>
    simp only [LatticeValue.meet, meet_bottom] <;> try rfl
  case constant.constant.constant a b c =>
    by_cases hab : dvBeq a b = true <;> by_cases hbc : dvBeq b c = true
    · have hac : dvBeq a c = true := dvBeq_trans hab hbc
      simp [LatticeValue.meet, hab, hbc, hac]
    · have hac : ¬ dvBeq a c = true := fun hac =>
        hbc (dvBeq_trans (dvBeq_symm a b ▸ hab) hac)
      simp [LatticeValue.meet, hab, hbc, hac]
    · simp [LatticeValue.meet, hab, hbc]
    · simp [LatticeValue.meet, hab, hbc]
  all_goals
    first
    | rfl
    | (rename_i a b; by_cases hab : dvBeq a b = true <;> simp [LatticeValue.meet, hab])

/-- **C4.** The lattice meet operation satisfies, for all lattice values
`x`, `a`, `b`: `meet(Top, x) = x`; `meet(Bottom, x) = Bottom`;
`meet(Constant(a), Constant(b)) = Constant(a)` when `a == b` and `Bottom`
otherwise; and meet is commutative and associative.  Commutativity is stated
up to `latEquiv`, i.e. up to the derived Rust `PartialEq` used by the source
to compare lattice values (for `meet(Constant a, Constant b)` with `a == b`
the two orders return `Constant a` and `Constant b` respectively, which Rust's
`==` — and hence the source algorithm — cannot tell apart); associativity
holds up to structural equality. -/
theorem meet_laws_C4 :
    (∀ x, LatticeValue.meet .top x = x) ∧
    (∀ x, LatticeValue.meet .bottom x = .bottom) ∧
    (∀ a b, LatticeValue.meet (.constant a) (.constant b) =
      if dvBeq a b then .constant a else .bottom) ∧
    (∀ x y, latEquiv (LatticeValue.meet x y) (LatticeValue.meet y x)) ∧
    (∀ x y z, LatticeValue.meet (LatticeValue.meet x y) z =
      LatticeValue.meet x (LatticeValue.meet y z)) :=
  ⟨meet_top, meet_bottom, meet_const, meet_comm, meet_assoc⟩

/-! ## Interpreter data model (`cranelift/interpreter/src/interpreter.rs`) -/

/-- Modelled from the spec: the interpreter's runtime value type
(`cranelift_value::Value`, a crate not under src/).  §4.1 describes the
value layer as a tagged variant over booleans, integers and floats;
`interpreter.rs` constructs only `Value::Int(i64)` and `Value::Bool(bool)`
and the commented-out `value.rs` shows integer `Add`/`Sub` arms with all
other combinations `unimplemented!()`. -/
inductive Value : Type
  | int (i : Int)
  | bool (b : Bool)
  | float (bits : Nat)
  deriving DecidableEq, Repr

/-- Integer addition on `Value`; any other combination panics
(`unimplemented!()` in the commented `value.rs` `Add` impl). -/
def Value.add : Value → Value → Option Value
  | .int a, .int b => some (.int (a + b))
  | _, _ => none

/-- Integer subtraction on `Value`; any other combination panics. -/
def Value.sub : Value → Value → Option Value
  | .int a, .int b => some (.int (a - b))
  | _, _ => none

/-- SSA value reference (`ir::Value` / `ValueRef`): an index. -/
abbrev VRef := Nat
/-- Block reference (`ir::Block`): an index into the layout's block list. -/
abbrev BlockId := Nat
/-- Function reference into the `Environment` (`ir::FuncRef`). -/
abbrev FuncRefId := Nat

/-- The integer condition codes the interpreter implements
(`IntCC::UnsignedLessThanOrEqual`, `IntCC::Equal`); all others are
`unimplemented!()`. -/
inductive IntCC : Type
  | unsignedLessThanOrEqual
  | equal
  deriving DecidableEq, Repr

/-- The instruction forms `Interpreter::inst` implements, i.e. the
`(InstructionData, Opcode)` pairs of its `match`; each carries the operand
data the source reads.  `unimplementedOp` stands for every other pair, all
of which hit an `unimplemented!()` arm. -/
inductive InstData : Type
  | iadd (a b : VRef)
  | isub (a b : VRef)
  | irsubImm (arg : VRef) (imm : Int)
  | brnz (args : List VRef) (dest : BlockId)
  | call (funcRef : Nat) (args : List VRef)
  | jump (dest : BlockId) (args : List VRef)
  | fallthrough (dest : BlockId) (args : List VRef)
  | icmpImm (cond : IntCC) (arg : VRef) (imm : Int)
  | ret (args : List VRef)
  | traceStart (imm : Int) (args : List VRef)
  | nop
  | iconst (imm : Int)
  | traceEnd (imm : Int)
  | bconst (imm : Bool)
  | unimplementedOp
  deriving DecidableEq, Repr

/-- An instruction: its `InstructionData` together with its result list
(`dfg.inst_results`), which in the source lives in the data-flow graph. -/
structure Inst : Type where
  data : InstData
  results : List VRef
  deriving DecidableEq, Repr

/-- A block of the layout: its parameter list (`dfg.block_params`) and its
instruction sequence (`layout.block_insts`). -/
structure BlockData : Type where
  params : List VRef
  insts : List Inst
  deriving DecidableEq, Repr

/-- A CLIF function as the interpreter consumes it: the layout's blocks in
order (entry block first) and the external-function table
(`dfg.ext_funcs`, mapping a `FuncRef` to a printable name). -/
structure Func : Type where
  name : String
  blocks : List BlockData
  extFuncs : List String
  deriving DecidableEq, Repr

/-- Modelled from the spec: `Environment` (§4.2; `environment.rs` is not
under src/): an insertion-ordered mapping from function name to function,
with `FuncRef` handles being positions in insertion order. -/
structure Environment : Type where
  functions : List (String × Func)
  deriving Repr

def Environment.getFuncRefByName (env : Environment) (name : String) : Option FuncRefId :=
  env.functions.findIdx? (fun p => p.1 = name)

def Environment.getByFuncRef (env : Environment) (fr : FuncRefId) : Option Func :=
  (env.functions.get? fr).map (·.2)

/-- Modelled from the spec: `Frame` (§4.3; `frame.rs` is not under src/):
the owning `FuncRef`, the function, and a mapping `ValueRef → Value`.
The mapping is an association list where the most recent binding wins. -/
structure Frame : Type where
  funcRef : FuncRefId
  func : Func
  registers : List (VRef × Value)
  deriving Repr

/-- `Frame::get`: `none` models the fatal unbound-value panic. -/
def Frame.get (f : Frame) (v : VRef) : Option Value :=
  (f.registers.find? (fun p => p.1 = v)).map (·.2)

def Frame.set (f : Frame) (v : VRef) (val : Value) : Frame :=
  { f with registers := (v, val) :: f.registers }

/-- `Frame::with_parameters`: positional binding; fails (panics) if the
lengths differ. -/
def Frame.withParameters (f : Frame) (params : List VRef) (vals : List Value) :
    Option Frame :=
  if params.length = vals.length then
    some ((params.zip vals).foldl (fun fr pv => fr.set pv.1 pv.2) f)
  else none

/-- `Frame::get_all` / `Frame::get_list`: read every reference; any unbound
read is the fatal panic. -/
def Frame.getAll (f : Frame) (vs : List VRef) : Option (List Value) :=
  vs.mapM f.get

/-- `Frame::set_all`: positional bulk write. -/
def Frame.setAll (f : Frame) (refs : List VRef) (vals : List Value) : Frame :=
  (refs.zip vals).foldl (fun fr pv => fr.set pv.1 pv.2) f

/-- `Frame::rename` (spec §4.3): bulk rebinding on block transfer — all old
values are read first, then bound to the new names; the lengths must agree. -/
def Frame.rename (f : Frame) (olds news : List VRef) : Option Frame :=
  if olds.length = news.length then
    (f.getAll olds).map (f.setAll news)
  else none

/-! ## Trace recording (`cranelift/interpreter/src/tracing.rs`) -/

/-- `TracedInstruction` (tracing.rs lines 48–62).  Where the source stores a
dfg index `Inst`, the embedding stores the instruction itself. -/
inductive TracedInstruction : Type
  | startInFunction (f : FuncRefId)
  | enterFunction (f : FuncRefId)
  | exitFunction
  | instruction (i : Inst)
  | guard (i : Inst)
  deriving DecidableEq, Repr

/-- `Trace` (tracing.rs lines 64–68): the optional active id and the
append-only observation list. -/
structure Trace : Type where
  tracing : Option Int := none
  observed : List TracedInstruction := []
  deriving DecidableEq, Repr

/-- `Trace::start`: asserts that no trace is active (`none` models the
assertion panic), then marks the id active and appends `StartInFunction`. -/
def Trace.start (t : Trace) (id : Int) (fr : FuncRefId) : Option Trace :=
  match t.tracing with
  | some _ => none
  | none => some { tracing := some id, observed := t.observed ++ [.startInFunction fr] }

/-- `Trace::end`: consumes the active id (`none` models the `expect` panic
when no trace is active). -/
def Trace.finish (t : Trace) : Option (Int × Trace) :=
  t.tracing.map (fun id => (id, { t with tracing := none }))

/-- `Trace::observe`: append only while a trace is active. -/
def Trace.observe (t : Trace) (obs : TracedInstruction) : Trace :=
  if t.tracing.isSome then { t with observed := t.observed ++ [obs] } else t

/-- `Trace::remove_last`: pop the most recent observation. -/
def Trace.removeLast (t : Trace) : Trace :=
  { t with observed := t.observed.dropLast }

/-- `CompiledCode` (function_runner.rs lines 13–27): an owned executable
region, observable as its byte contents (`as_slice`). -/
structure CompiledCode : Type where
  bytes : List Nat
  deriving DecidableEq, Repr

/-- `TraceError` (tracing.rs lines 40–46). -/
inductive TraceError : Type
  | compilationFailed (s : String)
  | executionFailed (s : String)
  deriving DecidableEq, Repr

/-- `TraceStore` (tracing.rs lines 492–511): a map from trace id to compiled
code, here an association list where insertion shadows. -/
structure TraceStore : Type where
  entries : List (Int × CompiledCode) := []
  deriving Repr

def TraceStore.find (ts : TraceStore) (id : Int) : Option CompiledCode :=
  (ts.entries.find? (fun p => p.1 = id)).map (·.2)

/-- `TraceStore::contains`. -/
def TraceStore.contains (ts : TraceStore) (id : Int) : Bool :=
  (ts.find id).isSome

/-- `TraceStore::insert`. -/
def TraceStore.insert (ts : TraceStore) (id : Int) (code : CompiledCode) : TraceStore :=
  { entries := (id, code) :: ts.entries }

/-! ## Errors (`Trap`, interpreter.rs lines 29–45) -/

inductive Trap : Type
  | unknown
  | invalidType (expected : String) (v : VRef)
  | unreachable
  | invalidControlFlow (msg : String)
  | invalidFunctionReference (f : FuncRefId)
  | invalidFunctionName (name : String)
  | traceError (e : TraceError)
  deriving DecidableEq, Repr

/-- How an interpreter step can fail: a typed `Trap` returned as `Err`, a
Rust panic (`unimplemented!()`, failed `expect`/`assert!`, out-of-bounds
index), or exhaustion of the embedding's recursion fuel (an artifact of the
shallow embedding, not a behavior of the source). -/
inductive RunErr : Type
  | trap (t : Trap)
  | panic (msg : String)
  | fuel
  deriving DecidableEq, Repr

/-- `FunctionRunner::execute` (function_runner.rs lines 98–116): dispatch by
argument arity to `execute0` / `execute1`; every arm — including the
catch-all — is `unimplemented!()` and therefore panics unconditionally. -/
def FunctionRunner.execute (code : List Nat) (args : List Value) :
    Except RunErr (Except String Value) :=
  match code, args.length with
  | _, 0 => .error (.panic "not implemented")
  | _, 1 => .error (.panic "not implemented")
  | _, _ => .error (.panic "not implemented")

/-- `TraceStore::execute` (tracing.rs lines 507–511): look up the code (the
`expect` panics when absent) and dispatch it through
`FunctionRunner::execute`, mapping a returned error to `ExecutionFailed`. -/
def TraceStore.execute (ts : TraceStore) (id : Int) (args : List Value) :
    Except RunErr (Except TraceError Value) :=
  match ts.find id with
  | none => .error (.panic "trace must exist")
  | some code =>
    match FunctionRunner.execute code.bytes args with
    | .error p => .error p
    | .ok r => .ok (r.mapError TraceError.executionFailed)

/-! ## The interpreter (`Interpreter`, interpreter.rs lines 49–324) -/

/-- `ControlFlow` (interpreter.rs lines 22–26). -/
inductive ControlFlow : Type
  | Continue
  | ContinueAt (b : BlockId) (args : List VRef)
  | Return (vs : List Value)
  deriving DecidableEq, Repr

/-- The interpreter's immutable part: the environment, plus the
reconstruct-and-compile pipeline invoked at `trace_end`
(`FunctionReconstructor::build` followed by `FunctionRunner::compile`,
which ends in the external native code generator) taken as an oracle. -/
structure Interp : Type where
  env : Environment
  compileTrace : Trace → Environment → Except String CompiledCode

/-- The interpreter's mutable state: the trace being recorded and the store
of compiled traces (the two `RefCell` fields). -/
structure IState : Type where
  trace : Trace
  traces : TraceStore

/-- `first_result` (interpreter.rs lines 326–328): `dfg.first_result`
panics when the instruction has no results. -/
def firstResult (i : Inst) : Option VRef := i.results.head?

/-- `function_name_of_func_ref` (interpreter.rs lines 336–344); the
`expect` panics when the reference is not in the table. -/
def functionNameOfFuncRef (funcRef : Nat) (f : Func) : Option String :=
  f.extFuncs.get? funcRef

mutual

/-- `Interpreter::call_by_name` (interpreter.rs lines 64–70). -/
def callByName (I : Interp) (st : IState) (fuel : Nat) (funcName : String)
    (args : List Value) : IState × Except RunErr ControlFlow :=
  match fuel with
  | 0 => (st, .error .fuel)
  | fuel + 1 =>
    match I.env.getFuncRefByName funcName with
    | none => (st, .error (.trap (.invalidFunctionName funcName)))
    | some fr => callByIndex I st fuel fr args

/-- `Interpreter::call_by_index` (interpreter.rs lines 72–98): observe
`EnterFunction`, bind parameters into a fresh frame, run the first block,
observe `ExitFunction` (also when a `Trap` is returned, but not past a
panic, which unwinds), and yield the block's result. -/
def callByIndex (I : Interp) (st : IState) (fuel : Nat) (fr : FuncRefId)
    (args : List Value) : IState × Except RunErr ControlFlow :=
  match fuel with
  | 0 => (st, .error .fuel)
  | fuel + 1 =>
    match I.env.getByFuncRef fr with
    | none => (st, .error (.trap (.invalidFunctionReference fr)))
    | some fn =>
      let st1 : IState := { st with trace := st.trace.observe (.enterFunction fr) }
      match fn.blocks.head? with
      | none => (st1, .error (.panic "to have a first block"))
      | some firstBlock =>
        match Frame.withParameters ⟨fr, fn, []⟩ firstBlock.params args with
        | none => (st1, .error (.panic "parameter count mismatch"))
        | some frame =>
          match interpInsts I st1 fuel frame firstBlock.insts with
          | (st2, .error (.panic m)) => (st2, .error (.panic m))
          | (st2, .error .fuel) => (st2, .error .fuel)
          | (st2, r) => ({ st2 with trace := st2.trace.observe .exitFunction }, r)

/-- `Interpreter::block` (interpreter.rs lines 100–114), the per-block
instruction loop: `Continue` steps on, `ContinueAt` renames and transfers,
`Return` returns; falling off the end of the list is `Trap::Unreachable`. -/
def interpInsts (I : Interp) (st : IState) (fuel : Nat) (frame : Frame)
    (insts : List Inst) : IState × Except RunErr ControlFlow :=
  match fuel with
  | 0 => (st, .error .fuel)
  | fuel + 1 =>
    match insts with
    | [] => (st, .error (.trap .unreachable))
    | inst :: rest =>
      match instStep I st fuel frame inst with
      | (st', .error e) => (st', .error e)
      | (st', .ok (.Continue, frame')) => interpInsts I st' fuel frame' rest
      | (st', .ok (.ContinueAt b olds, frame')) => interpBlockAt I st' fuel frame' b olds
      | (st', .ok (.Return rs, _)) => (st', .ok (.Return rs))

/-- The `ControlFlow::ContinueAt` arm of `Interpreter::block`: look up the
destination block, rename the old argument values to its parameters, and
continue with its instruction list. -/
def interpBlockAt (I : Interp) (st : IState) (fuel : Nat) (frame : Frame)
    (b : BlockId) (olds : List VRef) : IState × Except RunErr ControlFlow :=
  match fuel with
  | 0 => (st, .error .fuel)
  | fuel + 1 =>
    match frame.func.blocks.get? b with
    | none => (st, .error (.panic "invalid block reference"))
    | some blk =>
      match frame.rename olds blk.params with
      | none => (st, .error (.panic "rename failed"))
      | some frame' => interpInsts I st fuel frame' blk.insts

/-- `Interpreter::inst` (interpreter.rs lines 153–323): observe the
instruction (while tracing), then dispatch on the instruction data.  The
returned frame carries the register writes of the step. -/
def instStep (I : Interp) (st0 : IState) (fuel : Nat) (frame : Frame)
    (inst : Inst) : IState × Except RunErr (ControlFlow × Frame) :=
  match fuel with
  | 0 => (st0, .error .fuel)
  | fuel + 1 =>
  let st : IState := { st0 with trace := st0.trace.observe (.instruction inst) }
  match inst.data with
  | .iadd a b =>
    match firstResult inst with
    | none => (st, .error (.panic "no first result"))
    | some res =>
      match frame.get a, frame.get b with
      | some va, some vb =>
        match Value.add va vb with
        | some c => (st, .ok (.Continue, frame.set res c))
        | none => (st, .error (.panic "not implemented"))
      | _, _ => (st, .error (.panic "unbound value"))
  | .isub a b =>
    match firstResult inst with
    | none => (st, .error (.panic "no first result"))
    | some res =>
      match frame.get a, frame.get b with
      | some va, some vb =>
        match Value.sub va vb with
        | some c => (st, .ok (.Continue, frame.set res c))
        | none => (st, .error (.panic "not implemented"))
      | _, _ => (st, .error (.panic "unbound value"))
  | .irsubImm arg imm =>
    -- BinaryImm/IrsubImm: the source computes `Sub::sub(arg, imm)`.
    match firstResult inst with
    | none => (st, .error (.panic "no first result"))
    | some res =>
      match frame.get arg with
      | some va =>
        match Value.sub va (.int imm) with
        | some c => (st, .ok (.Continue, frame.set res c))
        | none => (st, .error (.panic "not implemented"))
      | none => (st, .error (.panic "unbound value"))
  | .brnz args dest =>
    -- Branch/Brnz: `args.remove(0)` is the condition (panics on an empty
    -- list); `Bool(true)` transfers, `Bool(false)` falls through, anything
    -- else traps with `InvalidType` reported against `args[0]` — which,
    -- after the removal, is the first *remaining* argument (and panics when
    -- there is none).
    match args with
    | [] => (st, .error (.panic "removal index (is 0) should be < len (is 0)"))
    | first :: rest =>
      match frame.get first with
      | none => (st, .error (.panic "unbound value"))
      | some (.bool true) => (st, .ok (.ContinueAt dest rest, frame))
      | some (.bool false) => (st, .ok (.Continue, frame))
      | some _ =>
        match rest.head? with
        | none => (st, .error (.panic "index out of bounds"))
        | some v => (st, .error (.trap (.invalidType "bool" v)))
  | .call funcRef args =>
    match functionNameOfFuncRef funcRef frame.func with
    | none => (st, .error (.panic "function to exist"))
    | some funcName =>
      match frame.getAll args with
      | none => (st, .error (.panic "unbound value"))
      | some argVals =>
        match callByName I st fuel funcName argVals with
        | (st', .error e) => (st', .error e)
        | (st', .ok (.Return returned)) =>
          if inst.results.length = returned.length then
            (st', .ok (.Continue, frame.setAll inst.results returned))
          else
            (st', .error (.panic "expected result length to match SSA values length"))
        | (st', .ok _) =>
          (st', .error (.trap (.invalidControlFlow "did not return from call")))
  | .jump dest args => (st, .ok (.ContinueAt dest args, frame))
  | .fallthrough dest args => (st, .ok (.ContinueAt dest args, frame))
  | .icmpImm cond arg imm =>
    match frame.get arg with
    | none => (st, .error (.panic "unbound value"))
    | some (.int a) =>
      let r : Bool := match cond with
        | .unsignedLessThanOrEqual => a ≤ imm
        | .equal => a = imm
      match firstResult inst with
      | none => (st, .error (.panic "no first result"))
      | some res => (st, .ok (.Continue, frame.set res (.bool r)))
    | some _ => (st, .error (.trap (.invalidType "int" arg)))
  | .ret args =>
    match frame.getAll args with
    | none => (st, .error (.panic "unbound value"))
    | some vs => (st, .ok (.Return vs, frame))
  | .traceStart id args =>
    if st.traces.contains id then
      match frame.getAll args with
      | none => (st, .error (.panic "unbound value"))
      | some argVals =>
        -- `let _results = self.traces.borrow().execute(id, &args[..]);`
        -- the returned `Result` is discarded; only a panic escapes.
        match st.traces.execute id argVals with
        | .error p => (st, .error p)
        | .ok _ => (st, .ok (.Continue, frame))
    else
      match st.trace.start id frame.funcRef with
      | none => (st, .error (.panic "should not be currently tracing"))
      | some t' => ({ st with trace := t' }, .ok (.Continue, frame))
  | .nop => (st, .ok (.Continue, frame))
  | .iconst imm =>
    match firstResult inst with
    | none => (st, .error (.panic "no first result"))
    | some res => (st, .ok (.Continue, frame.set res (.int imm)))
  | .traceEnd _ =>
    -- the `imm` of `trace_end` is ignored: `Trace::end` returns whatever id
    -- is active.  The trailing `TraceEnd` observation is removed, the trace
    -- is reconstructed and compiled (oracle), and the code is stored.
    match st.trace.finish with
    | none => (st, .error (.panic "tracing should have been started"))
    | some (id, t') =>
      let t'' := t'.removeLast
      let st' : IState := { st with trace := t'' }
      match I.compileTrace t'' I.env with
      | .error e => (st', .error (.trap (.traceError (.compilationFailed e))))
      | .ok code => ({ st' with traces := st'.traces.insert id code }, .ok (.Continue, frame))
  | .bconst imm =>
    match firstResult inst with
    | none => (st, .error (.panic "no first result"))
    | some res => (st, .ok (.Continue, frame.set res (.bool imm)))
  | .unimplementedOp => (st, .error (.panic "not implemented"))

end

/-! ## Claim C1 — the `brnz` condition -/

/-- A trivial interpreter (empty environment, failing codegen oracle) for
concrete evaluations. -/
def trivialInterp : Interp := ⟨⟨[]⟩, fun _ _ => .error "no codegen"⟩

/-- A function body that is irrelevant to a single `instStep`. -/
def dummyFunc : Func := ⟨"%dummy", [], []⟩

/-- A frame binding `v0 ↦ Int 1` — a nonzero integer condition. -/
def brnzIntFrame : Frame := ⟨0, dummyFunc, [(0, .int 1)]⟩

/-- The instruction `brnz v0, block2(v1)`. -/
def brnzIntInst : Inst := ⟨.brnz [0, 1] 2, []⟩

/-- **C1, counterexample.**  The claim says a nonzero integer condition
(here `Int 1`) makes `brnz` yield `ContinueAt(block2, [v1])`.  The code
instead fails with `Trap::InvalidType`: the `Brnz` arm accepts only
`Value::Bool` conditions (and reports the trap against `args[0]` *after*
the condition has been removed, i.e. against the first destination
argument `v1`). -/
theorem brnz_int_condition_C1_counterexample :
    (instStep trivialInterp ⟨⟨none, []⟩, ⟨[]⟩⟩ 5 brnzIntFrame brnzIntInst).2
      = .error (.trap (.invalidType "bool" 1)) := rfl

/-- **C1, amended.**  For an interpreted `brnz` whose condition value is
bound: a boolean-true condition yields `ContinueAt(destination, remaining
args)`; a boolean-false condition yields `Continue`; *any* non-boolean
condition value — including every integer, zero or not — fails with
`Trap::InvalidType` (reported against the first remaining argument; when
there is no remaining argument the indexing panics). -/
theorem brnz_semantics_C1 (I : Interp) (st : IState) (fuel : Nat) (frame : Frame)
    (first : VRef) (rest : List VRef) (dest : BlockId) (results : List VRef)
    (v : Value) (hv : frame.get first = some v) :
    (v = .bool true →
      (instStep I st (fuel + 1) frame ⟨.brnz (first :: rest) dest, results⟩).2 =
        .ok (.ContinueAt dest rest, frame)) ∧
    (v = .bool false →
      (instStep I st (fuel + 1) frame ⟨.brnz (first :: rest) dest, results⟩).2 =
        .ok (.Continue, frame)) ∧
    (∀ i : Int, v = .int i → ∀ w ws, rest = w :: ws →
      (instStep I st (fuel + 1) frame ⟨.brnz (first :: rest) dest, results⟩).2 =
        .error (.trap (.invalidType "bool" w))) := by
  refine ⟨fun h => ?_, fun h => ?_, fun i h w ws hr => ?_⟩ <;>
    subst h <;> simp [instStep, hv]
  subst hr; simp

/-- **C1, witness** for `brnz_semantics_C1` at concrete inputs. -/
theorem brnz_semantics_C1_witness :
    ((Frame.get ⟨0, dummyFunc, [(0, .bool true)]⟩ 0 = some (.bool true)) ∧
      (instStep trivialInterp ⟨⟨none, []⟩, ⟨[]⟩⟩ 5
        ⟨0, dummyFunc, [(0, .bool true)]⟩ ⟨.brnz [0, 1] 2, []⟩).2 =
        .ok (.ContinueAt 2 [1], ⟨0, dummyFunc, [(0, .bool true)]⟩)) :=
  ⟨rfl, (brnz_semantics_C1 trivialInterp ⟨⟨none, []⟩, ⟨[]⟩⟩ 4
    ⟨0, dummyFunc, [(0, .bool true)]⟩ 0 [1] 2 [] (.bool true) rfl).1 rfl⟩

/-! ## Claims C2 and C3 — `trace_start` dispatch -/

/-- `FunctionRunner::execute` panics for every argument arity: each of its
three dispatch arms is `unimplemented!()`. -/
theorem runner_execute_panics (code : List Nat) (args : List Value) :
    FunctionRunner.execute code args = .error (.panic "not implemented") := by
  unfold FunctionRunner.execute
  rcases args with _ | ⟨a, as⟩
  · rfl
  · rcases as with _ | ⟨b, bs⟩ <;> rfl

/-- `TraceStore::execute` on a present id panics (it reaches the
unimplemented dispatch). -/
theorem store_execute_panics (ts : TraceStore) (id : Int) (code : CompiledCode)
    (hf : ts.find id = some code) (args : List Value) :
    ts.execute id args = .error (.panic "not implemented") := by
  simp [TraceStore.execute, hf, runner_execute_panics]

/-- A store whose trace id `7` is populated. -/
def storeWith7 : TraceStore := ⟨[(7, ⟨[1, 2, 3]⟩)]⟩

/-- **C2, counterexample.**  The claim says that when the TraceStore already
contains the id, the interpreter executes the compiled code, binds its
results, and continues with the next instruction.  At this concrete input
(id `7` present in the store) the step instead panics: the dispatch path
`FunctionRunner::execute` is `unimplemented!()` for every argument arity,
so interpretation does not continue (and no results are ever bound — the
call site discards the dispatch `Result` into `let _results`). -/
theorem trace_start_present_C2_counterexample :
    (instStep trivialInterp ⟨⟨none, []⟩, storeWith7⟩ 5 ⟨0, dummyFunc, []⟩
      ⟨.traceStart 7 [], []⟩).2 = .error (.panic "not implemented") := rfl

/-- **C2, amended.**  For an interpreted `trace_start` with immediate `id`:
if the TraceStore already contains `id`, the interpreter *attempts* to
dispatch the compiled code on the instruction's argument values, but the
dispatch panics unconditionally (`FunctionRunner::execute0/1` and the
catch-all are all `unimplemented!()`) and no results are bound (the call
site discards the dispatch `Result`); otherwise — when no trace is active —
it marks the Trace active with `id` and appends a `StartInFunction` record,
and interpretation continues with the next instruction. -/
theorem trace_start_semantics_C2 (I : Interp) (st : IState) (fuel : Nat)
    (frame : Frame) (id : Int) (args : List VRef) (results : List VRef) :
    (st.traces.contains id = true →
      ∀ argVals, frame.getAll args = some argVals →
        (instStep I st (fuel + 1) frame ⟨.traceStart id args, results⟩).2 =
          .error (.panic "not implemented")) ∧
    (st.traces.contains id = false → st.trace.tracing = none →
      instStep I st (fuel + 1) frame ⟨.traceStart id args, results⟩ =
        ({ st with trace :=
            ⟨some id, st.trace.observed ++ [.startInFunction frame.funcRef]⟩ },
          .ok (.Continue, frame))) := by
  constructor
  · intro hc argVals hargs
    have hfind : (st.traces.find id).isSome = true := hc
    match hf : st.traces.find id with
    | none => rw [hf] at hfind; simp at hfind
    | some code =>
      have hexec := store_execute_panics st.traces id code hf argVals
      simp [instStep, TraceStore.contains, hf, hargs, hexec]
  · intro hc ht
    have hfind : (st.traces.find id).isSome = false := hc
    match hf : st.traces.find id with
    | some code => rw [hf] at hfind; simp at hfind
    | none =>
      simp [instStep, TraceStore.contains, hf, Trace.observe, ht, Trace.start]

/-- **C2, witness** for `trace_start_semantics_C2` at concrete inputs:
both the present-id branch (id `7`) and the absent-id branch (id `9`). -/
theorem trace_start_semantics_C2_witness :
    ((⟨⟨none, []⟩, storeWith7⟩ : IState).traces.contains 7 = true ∧
      (instStep trivialInterp ⟨⟨none, []⟩, storeWith7⟩ 5 ⟨0, dummyFunc, []⟩
        ⟨.traceStart 7 [], []⟩).2 = .error (.panic "not implemented")) ∧
    ((⟨⟨none, []⟩, storeWith7⟩ : IState).traces.contains 9 = false ∧
      instStep trivialInterp ⟨⟨none, []⟩, storeWith7⟩ 5 ⟨2, dummyFunc, []⟩
        ⟨.traceStart 9 [], []⟩ =
        (⟨⟨some 9, [.startInFunction 2]⟩, storeWith7⟩,
          .ok (.Continue, ⟨2, dummyFunc, []⟩))) :=
  ⟨⟨rfl, (trace_start_semantics_C2 trivialInterp ⟨⟨none, []⟩, storeWith7⟩ 4
      ⟨0, dummyFunc, []⟩ 7 [] []).1 rfl [] rfl⟩,
    ⟨rfl, (trace_start_semantics_C2 trivialInterp ⟨⟨none, []⟩, storeWith7⟩ 4
      ⟨2, dummyFunc, []⟩ 9 [] []).2 rfl rfl⟩⟩

/-- Recognize an `ExecutionFailed` trace-error result. -/
def isExecutionFailed : Except RunErr (ControlFlow × Frame) → Bool
  | .error (.trap (.traceError (.executionFailed _))) => true
  | _ => false

/-- **C3, counterexample.**  The claim says a failing dispatch of stored
compiled code surfaces as `Err(Trap::TraceError(ExecutionFailed))`.  At
this concrete input (id `3` present in the store) the dispatch does fail —
but as a panic (`unimplemented!()`), not as the claimed error return; the
`ExecutionFailed` mapping at `TraceStore::execute` is unreachable, and the
interpreter's call site discards the `Result` anyway. -/
theorem trace_start_fail_C3_counterexample :
    (instStep trivialInterp ⟨⟨none, []⟩, ⟨[(3, ⟨[9]⟩)]⟩⟩ 5 ⟨0, dummyFunc, []⟩
      ⟨.traceStart 3 [], []⟩).2 = .error (.panic "not implemented") ∧
    isExecutionFailed (instStep trivialInterp ⟨⟨none, []⟩, ⟨[(3, ⟨[9]⟩)]⟩⟩ 5
      ⟨0, dummyFunc, []⟩ ⟨.traceStart 3 [], []⟩).2 = false := ⟨rfl, rfl⟩

/-- **C3, amended.**  An interpreted `trace_start` never returns
`Err(Trap::TraceError(ExecutionFailed(..)))`, for any state: when the id is
present the dispatch panics inside `FunctionRunner::execute` before any
error could be constructed, and the call site (`let _results = …`) would
discard an error `Result` and continue anyway; when the id is absent no
dispatch happens. -/
theorem trace_start_no_execution_failed_C3 (I : Interp) (st : IState)
    (fuel : Nat) (frame : Frame) (id : Int) (args : List VRef)
    (results : List VRef) :
    isExecutionFailed
      (instStep I st fuel frame ⟨.traceStart id args, results⟩).2 = false := by
  match fuel with
  | 0 => rfl
  | fuel + 1 =>
    simp only [instStep]
    split
    · match hargs : frame.getAll args with
      | none => simp [hargs, isExecutionFailed]
      | some argVals =>
        match hf : st.traces.find id with
        | none => simp [hargs, TraceStore.execute, hf, isExecutionFailed]
        | some code =>
          simp [hargs, store_execute_panics st.traces id code hf argVals,
            isExecutionFailed]
    · split <;> simp [isExecutionFailed]

/-! ## Claim C9 — top-level calls only return `ControlFlow::Return` -/

/-- Auxiliary induction for C9: a successful (`Ok`) outcome of the block
loop, or of a block transfer, is always `ControlFlow::Return`: the loop
only returns `Ok` through its `Return` arm, recursing on `Continue` and
`ContinueAt`. -/
theorem interp_ok_is_return_aux (fuel : Nat) :
    (∀ (I : Interp) (st : IState) (frame : Frame) (insts : List Inst) st' cf,
      interpInsts I st fuel frame insts = (st', .ok cf) → ∃ vs, cf = .Return vs) ∧
    (∀ (I : Interp) (st : IState) (frame : Frame) (b : BlockId) (olds : List VRef) st' cf,
      interpBlockAt I st fuel frame b olds = (st', .ok cf) → ∃ vs, cf = .Return vs) := by
  induction fuel with
  | zero =>
    constructor
    · intro I st frame insts st' cf h
      simp [interpInsts] at h
    · intro I st frame b olds st' cf h
      simp [interpBlockAt] at h
  | succ fuel ih =>
    obtain ⟨ihInsts, ihBlock⟩ := ih
    constructor
    · intro I st frame insts st' cf h
      match insts with
      | [] => simp [interpInsts] at h
      | inst :: rest =>
        rw [interpInsts] at h
        rcases hstep : instStep I st fuel frame inst with ⟨st1, r⟩
        rw [hstep] at h
        match r with
        | .error e => simp at h
        | .ok (.Continue, frame') => exact ihInsts I st1 frame' rest st' cf h
        | .ok (.ContinueAt b olds, frame') => exact ihBlock I st1 frame' b olds st' cf h
        | .ok (.Return rs, frame') =>
          simp at h
          exact ⟨rs, h.2.symm⟩
    · intro I st frame b olds st' cf h
      rw [interpBlockAt] at h
      split at h
      · simp at h
      · split at h
        · simp at h
        · exact ihInsts _ _ _ _ _ _ h

/-- **C9.**  For every call through `call_by_name` or `call_by_index`, a
non-error result is always `ControlFlow::Return(values)`; `Continue` and
`ContinueAt` are never returned to the top-level caller.  And if execution
of a block reaches the end of the block's instruction list without a
terminator transferring control, the result is `Trap::Unreachable`. -/
theorem calls_return_only_C9 :
    (∀ (I : Interp) (st : IState) (fuel : Nat) (name : String) (args : List Value) st' cf,
      callByName I st fuel name args = (st', .ok cf) → ∃ vs, cf = .Return vs) ∧
    (∀ (I : Interp) (st : IState) (fuel : Nat) (fr : FuncRefId) (args : List Value) st' cf,
      callByIndex I st fuel fr args = (st', .ok cf) → ∃ vs, cf = .Return vs) ∧
    (∀ (I : Interp) (st : IState) (fuel : Nat) (frame : Frame),
      interpInsts I st (fuel + 1) frame [] = (st, .error (.trap .unreachable))) := by
  have hidx : ∀ (I : Interp) (st : IState) (fuel : Nat) (fr : FuncRefId)
      (args : List Value) st' cf,
      callByIndex I st fuel fr args = (st', .ok cf) → ∃ vs, cf = .Return vs := by
    intro I st fuel fr args st' cf h
    match fuel with
    | 0 => simp [callByIndex] at h
    | fuel + 1 =>
      rw [callByIndex] at h
      match hf : I.env.getByFuncRef fr with
      | none => simp [hf] at h
      | some fn =>
        simp only [hf] at h
        match hblk : fn.blocks.head? with
        | none => simp [hblk] at h
        | some firstBlock =>
          simp only [hblk] at h
          match hp : Frame.withParameters ⟨fr, fn, []⟩ firstBlock.params args with
          | none => simp [hp] at h
          | some frame =>
            simp only [hp] at h
            rcases hrun : interpInsts I { st with trace := st.trace.observe (.enterFunction fr) }
                fuel frame firstBlock.insts with ⟨st2, r⟩
            simp only [hrun] at h
            match r with
            | .error (.panic m) => simp at h
            | .error .fuel => simp at h
            | .error (.trap t) => simp at h
            | .ok cf0 =>
              simp at h
              obtain ⟨rs, hrs⟩ := (interp_ok_is_return_aux fuel).1 _ _ _ _ _ _ hrun
              exact ⟨rs, h.2.symm ▸ hrs⟩
  refine ⟨?_, hidx, ?_⟩
  · intro I st fuel name args st' cf h
    match fuel with
    | 0 => simp [callByName] at h
    | fuel + 1 =>
      rw [callByName] at h
      match hn : I.env.getFuncRefByName name with
      | none => simp [hn] at h
      | some fr => simp only [hn] at h; exact hidx I st fuel fr args st' cf h
  · intro I st fuel frame
    rfl

/-- The S2 scenario function `%add(i32, i32) -> i32`. -/
def addFunc : Func := ⟨"%add", [⟨[0, 1], [⟨.iadd 0 1, [2]⟩, ⟨.ret [2], []⟩]⟩], []⟩

/-- An interpreter over an environment containing only `%add`. -/
def addInterp : Interp := ⟨⟨[("%add", addFunc)]⟩, fun _ _ => .error "no codegen"⟩

/-- **C9, witness**: `call_by_name("%add", [3, 4])` completes with
`Return([7])`, and the theorem applies to that concrete run. -/
theorem calls_return_only_C9_witness :
    ∃ vs, (ControlFlow.Return [Value.int 7]) = ControlFlow.Return vs :=
  calls_return_only_C9.1 addInterp ⟨⟨none, []⟩, ⟨[]⟩⟩ 10 "%add"
    [.int 3, .int 4] ⟨⟨none, []⟩, ⟨[]⟩⟩ (.Return [.int 7]) rfl

/-! ## Claim C7 — trace stack balance between matched markers -/

/-- Count the `StartInFunction` records of a trace. -/
def countStart (l : List TracedInstruction) : Nat :=
  l.countP (fun t => match t with | .startInFunction _ => true | _ => false)

/-- Count the `EnterFunction` records of a trace. -/
def countEnter (l : List TracedInstruction) : Nat :=
  l.countP (fun t => match t with | .enterFunction _ => true | _ => false)

/-- Count the `ExitFunction` records of a trace. -/
def countExit (l : List TracedInstruction) : Nat :=
  l.countP (fun t => match t with | .exitFunction => true | _ => false)

/-- `%f`: starts trace 99 and returns. -/
def traceeFunc : Func := ⟨"%f", [⟨[], [⟨.traceStart 99 [], []⟩, ⟨.ret [], []⟩]⟩], []⟩

/-- `%g`: calls `%f` (which starts the trace), then ends trace 99 itself —
a matched `trace_start 99` / `trace_end 99` pair whose markers execute in
different activations. -/
def tracerFunc : Func :=
  ⟨"%g", [⟨[], [⟨.call 0 [], []⟩, ⟨.traceEnd 99, []⟩, ⟨.ret [], []⟩]⟩], ["%f"]⟩

/-- Environment and interpreter for the C7 run; the compile oracle succeeds
so that `trace_end` completes and interpretation runs to the end. -/
def c7Interp : Interp :=
  ⟨⟨[("%g", tracerFunc), ("%f", traceeFunc)]⟩, fun _ _ => .ok ⟨[0]⟩⟩

/-- The complete interpretation: `call_by_name("%g", [])`. -/
def c7Run : IState × Except RunErr ControlFlow :=
  callByName c7Interp ⟨⟨none, []⟩, ⟨[]⟩⟩ 30 "%g" []

/-- **C7.**  Evaluating the interpreter at the failing input: `%g` calls
`%f`, `%f` executes `trace_start 99`, and back in `%g` a `trace_end 99`
ends the trace.  The run completes normally, and the recorded trace (the
trailing `trace_end` record already removed by `remove_last`) is
`[StartInFunction(%f), Instruction(return), ExitFunction]`: it does contain
exactly one `StartInFunction`, but it has one `ExitFunction` and zero
`EnterFunction` records — the call-stack balance is `-1`, not zero as the
claim requires.  `EnterFunction(%f)` was observed before the trace became
active and was therefore dropped, while `%f`'s `ExitFunction` was observed
while active; the reconstruction pipeline (`TraceIterator`,
`FunctionReconstructor`) pops its function stack on `ExitFunction` and
`.expect`s it nonempty, i.e. the rest of the code assumes the balance that
the interpreter fails to maintain. -/
theorem trace_unbalanced_C7 :
    c7Run.2 = .ok (.Return []) ∧
    c7Run.1.trace.observed =
      [.startInFunction 1, .instruction ⟨.ret [], []⟩, .exitFunction] ∧
    countStart c7Run.1.trace.observed = 1 ∧
    countEnter c7Run.1.trace.observed = 0 ∧
    countExit c7Run.1.trace.observed = 1 :=
  ⟨rfl, rfl, rfl, rfl, rfl⟩

/-! ## Claim C10 — `FunctionRunner::compile` and the calling convention

`FunctionRunner::compile` (function_runner.rs lines 62–94) first compares
the function signature's calling convention with `isa.default_call_conv()`
and returns an error string without doing anything else when they differ;
only otherwise does it set up a `Context`, run the external code generator
(`context.compile`), map an anonymous page, emit into it and make it
executable.  Everything from `Context::for_function` on is the external
code-generation path, modelled as an oracle producing either an error
string or the emitted bytes. -/

/-- The calling conventions of `cranelift_codegen::isa::CallConv`. -/
inductive CallConv : Type
  | fast
  | cold
  | systemV
  | windowsFastcall
  | baldrdashSystemV
  | baldrdashWindows
  | probestack
  deriving DecidableEq, Repr

/-- The error string from the calling-convention check. -/
def callConvErr : String :=
  "Functions only run on the host's default calling convention; remove the specified calling convention in the function signature to use the host's default."

/-- `FunctionRunner::compile`, generic in the codegen function type `F`:
`callConvOf` reads `function.signature.call_conv`, `isaDefault` is
`self.isa.default_call_conv()`, and `codegen` is the external
compile-and-emit path (everything after the check). -/
def FunctionRunner.compile {F : Type} (callConvOf : F → CallConv)
    (codegen : F → Except String (List Nat)) (function : F)
    (isaDefault : CallConv) : Except String CompiledCode :=
  if callConvOf function ≠ isaDefault then
    .error callConvErr
  else
    match codegen function with
    | .error e => .error e
    | .ok bytes => .ok ⟨bytes⟩

/-- **C10.**  When the function's calling convention differs from the host
ISA's default, `FunctionRunner::compile` returns an error and never
attempts code generation — its result is the fixed error string,
independent of the codegen oracle; compilation proceeds (the result is
exactly the codegen path's result) only when the calling convention equals
the host default. -/
theorem compile_checks_call_conv_C10 {F : Type} (callConvOf : F → CallConv)
    (codegen codegen' : F → Except String (List Nat)) (function : F)
    (isaDefault : CallConv) :
    (callConvOf function ≠ isaDefault →
      FunctionRunner.compile callConvOf codegen function isaDefault =
        .error callConvErr ∧
      FunctionRunner.compile callConvOf codegen function isaDefault =
        FunctionRunner.compile callConvOf codegen' function isaDefault) ∧
    (callConvOf function = isaDefault →
      FunctionRunner.compile callConvOf codegen function isaDefault =
        (codegen function).map (fun bytes => ⟨bytes⟩)) := by
  constructor
  · intro hne
    constructor <;> simp [FunctionRunner.compile, hne]
  · intro heq
    simp only [FunctionRunner.compile, heq]
    simp only [ne_eq, not_true_eq_false, if_false]
    match codegen function with
    | .error e => rfl
    | .ok bytes => rfl

/-- **C10, witness**: a function declared `windows_fastcall` on a host
whose default is `system_v` is rejected with the fixed error string under
two different codegen oracles, and a matching convention proceeds. -/
theorem compile_checks_call_conv_C10_witness :
    (FunctionRunner.compile (fun _ : Unit => CallConv.windowsFastcall)
        (fun _ => .ok [1, 2]) () CallConv.systemV = .error callConvErr ∧
      FunctionRunner.compile (fun _ : Unit => CallConv.windowsFastcall)
        (fun _ => .ok [1, 2]) () CallConv.systemV =
      FunctionRunner.compile (fun _ : Unit => CallConv.windowsFastcall)
        (fun _ => .error "codegen exploded") () CallConv.systemV) ∧
    FunctionRunner.compile (fun _ : Unit => CallConv.systemV)
        (fun _ => .ok [1, 2]) () CallConv.systemV =
      (Except.ok [1, 2]).map (fun bytes => (⟨bytes⟩ : CompiledCode)) :=
  ⟨(compile_checks_call_conv_C10 (fun _ : Unit => CallConv.windowsFastcall)
      (fun _ => .ok [1, 2]) (fun _ => .error "codegen exploded") ()
      CallConv.systemV).1 (by decide),
    (compile_checks_call_conv_C10 (fun _ : Unit => CallConv.systemV)
      (fun _ => .ok [1, 2]) (fun _ => .ok [1, 2]) ()
      CallConv.systemV).2 rfl⟩

/-! ## The constant folder (`cranelift/preopt/src/constant_folding.rs`)

The folder works on a different function view than the interpreter: the
data-flow graph (`insts`, indexed by instruction id, mutated in place by
`dfg.replace`) plus the layout (`blocks`).  The instruction subset below is
the subset exercised by the folder's helpers: constants
(`iconst`/`bconst`/`f32const`/`f64const`), integer binary ops, branches
(`brnz`), jumps (`jump`/`fallthrough`), branch tables
(`br_table`/`indirect_jump_table_br`), `load`-class instructions (the
`can_load` / `Bottom` case of the setup), `return` and `nop`. -/

/-- Instruction id into the folder's data-flow graph. -/
abbrev FInstId := Nat

/-- The CLIF types the folded subset mentions. -/
inductive FTy : Type
  | b1
  | b8
  | i8
  | i16
  | i32
  | i64
  | f32
  | f64
  deriving DecidableEq, Repr

def FTy.isInt : FTy → Bool
  | .i8 | .i16 | .i32 | .i64 => true
  | _ => false

def FTy.isBool : FTy → Bool
  | .b1 | .b8 => true
  | _ => false

/-- Instruction data for the folder's subset.  Each arithmetic or constant
instruction carries its controlling type variable (`dfg.ctrl_typevar`). -/
inductive FInstData : Type
  | iconst (ty : FTy) (imm : Int)
  | bconst (ty : FTy) (imm : Bool)
  | f32const (bits : Nat)
  | f64const (bits : Nat)
  | iadd (ty : FTy) (a b : VRef)
  | isub (ty : FTy) (a b : VRef)
  | brnz (args : List VRef) (dest : BlockId)
  | jump (dest : BlockId) (args : List VRef)
  | fallthrough (dest : BlockId) (args : List VRef)
  | brTable (arg : VRef)
  | indirectJumpTableBr (arg : VRef)
  | load (ty : FTy) (arg : VRef)
  | ret (args : List VRef)
  | nop
  deriving DecidableEq, Repr

/-- `Opcode::is_branch()`: true for conditional branches, branch tables and
the unconditional `jump`/`fallthrough`. -/
def FInstData.isBranch : FInstData → Bool
  | .brnz _ _ | .jump _ _ | .fallthrough _ _
  | .brTable _ | .indirectJumpTableBr _ => true
  | _ => false

/-- `Opcode::can_load()`. -/
def FInstData.canLoad : FInstData → Bool
  | .load _ _ => true
  | _ => false

/-- `InstructionData::branch_destination()`: `None` for branch tables. -/
def FInstData.branchDestination : FInstData → Option BlockId
  | .brnz _ dest => some dest
  | .jump dest _ => some dest
  | .fallthrough dest _ => some dest
  | _ => none

/-- `InstructionData::arguments`: every value operand. -/
def FInstData.arguments : FInstData → List VRef
  | .iconst _ _ | .bconst _ _ | .f32const _ | .f64const _ | .nop => []
  | .iadd _ a b | .isub _ a b => [a, b]
  | .brnz args _ => args
  | .jump _ args | .fallthrough _ args => args
  | .brTable a | .indirectJumpTableBr a => [a]
  | .load _ a => [a]
  | .ret args => args

/-- `dfg.ctrl_typevar`: the controlling type variable of an instruction,
for those instructions that have one. -/
def FInstData.ctrlTypevar : FInstData → Option FTy
  | .iconst ty _ | .bconst ty _ | .iadd ty _ _ | .isub ty _ _ | .load ty _ => some ty
  | .f32const _ => some .f32
  | .f64const _ => some .f64
  | _ => none

/-- A folder instruction: its data plus its result list. -/
structure FInst : Type where
  data : FInstData
  results : List VRef
  deriving DecidableEq, Repr

/-- A layout block: parameters and the instruction-id sequence. -/
structure FBlock : Type where
  params : List VRef
  body : List FInstId
  deriving DecidableEq, Repr

/-- The folder's function view: the data-flow graph (`insts`), the layout
(`blocks`) and `dfg.num_values()`. -/
structure FFunc : Type where
  insts : List FInst
  blocks : List FBlock
  numValues : Nat
  deriving DecidableEq, Repr

/-- Signed two's-complement wrap of an integer to `w` bits. -/
def wrapInt (w : Nat) (i : Int) : Int :=
  (i + 2 ^ (w - 1)) % 2 ^ w - 2 ^ (w - 1)

/-- `DataValue::from_integer` / the `Exact` conversion of an `Imm64` to an
integer controlling type (run_command.rs lines 126–134): wrap the `i64`
payload to the target width; a non-integer target is a cast failure
(`none`, which the setup's `expect` turns into a panic). -/
def dvFromImm (imm : Int) (ty : FTy) : Option DataValue :=
  match ty with
  | .i8 => some (.I8 (wrapInt 8 imm))
  | .i16 => some (.I16 (wrapInt 16 imm))
  | .i32 => some (.I32 (wrapInt 32 imm))
  | .i64 => some (.I64 (wrapInt 64 imm))
  | _ => none

/-- `DataValue::into_int`. -/
def DataValue.intoInt : DataValue → Option Int
  | .I8 i | .I16 i | .I32 i | .I64 i => some i
  | _ => none

/-- `DataValue::ty().is_int()`. -/
def DataValue.isInt : DataValue → Bool
  | .I8 _ | .I16 _ | .I32 _ | .I64 _ => true
  | _ => false

/-- Modelled from the spec (§4.1): same-width typed integer addition on
`DataValue` with two's-complement wrap; any other combination is a
`TypeMismatch` error (the `DataValue` arithmetic layer lives in the
`cranelift-codegen`/`cranelift-interpreter` crates, which are not under
src/; float and vector arithmetic is a declared non-goal and is modelled
as an error). -/
def DataValue.addDv : DataValue → DataValue → Option DataValue
  | .I8 a, .I8 b => some (.I8 (wrapInt 8 (a + b)))
  | .I16 a, .I16 b => some (.I16 (wrapInt 16 (a + b)))
  | .I32 a, .I32 b => some (.I32 (wrapInt 32 (a + b)))
  | .I64 a, .I64 b => some (.I64 (wrapInt 64 (a + b)))
  | _, _ => none

/-- Modelled from the spec (§4.1): typed integer subtraction, as
`DataValue.addDv`. -/
def DataValue.subDv : DataValue → DataValue → Option DataValue
  | .I8 a, .I8 b => some (.I8 (wrapInt 8 (a - b)))
  | .I16 a, .I16 b => some (.I16 (wrapInt 16 (a - b)))
  | .I32 a, .I32 b => some (.I32 (wrapInt 32 (a - b)))
  | .I64 a, .I64 b => some (.I64 (wrapInt 64 (a - b)))
  | _, _ => none

/-- The `binary` helper of the `Value` impl for `LatticeValue`
(constant_folding.rs lines 536–548): Bottom absorbs, two constants compute
over `DataValue` (propagating its error), anything else is Top. -/
def latBinary (op : DataValue → DataValue → Option DataValue) :
    LatticeValue → LatticeValue → Option LatticeValue
  | .bottom, _ => some .bottom
  | _, .bottom => some .bottom
  | .constant a, .constant b => (op a b).map .constant
  | _, _ => some .top

/-- Association-list lookup (the `HashMap` lookups of the folder). -/
def lookupList {α : Type} (l : List (VRef × α)) (v : VRef) : Option α :=
  (l.find? (fun p => p.1 = v)).map (·.2)

/-- `Values::get`: `none` models the out-of-bounds panic. -/
def valuesGet (values : List LatticeValue) (v : VRef) : Option LatticeValue :=
  values.get? v

/-- `Values::set`. -/
def valuesSet (values : List LatticeValue) (v : VRef) (lv : LatticeValue) :
    List LatticeValue :=
  values.set v lv

/-- `dfg.value_def`: the (unique, for well-formed SSA) instruction whose
result list contains `v`; `none` is `ValueDef::Param`.  `resolve_aliases`
is the identity here — the embedding creates no aliases. -/
def FFunc.valueDef (f : FFunc) (v : VRef) : Option FInstId :=
  f.insts.findIdx? (fun i => v ∈ i.results)

/-- `is_value_unknowable` (constant_folding.rs lines 170–180): the value is
the result of a `can_load` instruction. -/
def isValueUnknowable (f : FFunc) (v : VRef) : Bool :=
  match f.valueDef v with
  | some i =>
    match f.insts.get? i with
    | some inst => inst.data.canLoad
    | none => false
  | none => false

/-- `resolve_value_to_imm` (constant_folding.rs lines 182–209).  The outer
`none` models the `expect` panic on a constant with an invalid controlling
type; the inner option is `Some(imm)` / `None` as in the source. -/
def resolveValueToImm (f : FFunc) (v : VRef) : Option (Option DataValue) :=
  match f.valueDef v with
  | none => some none
  | some i =>
    match f.insts.get? i with
    | none => some none
    | some inst =>
      match inst.data with
      | .iconst ty imm => (dvFromImm imm ty).map some
      | .bconst ty imm => if ty.isBool then some (some (.B imm)) else none
      | .f32const bits => some (some (.F32 bits))
      | .f64const bits => some (some (.F64 bits))
      | _ => some none

/-- `Values::setup` (constant_folding.rs lines 214–230): assign every SSA
name its initial lattice value (`Bottom` for loads, `Constant` for
constants, `Top` otherwise) and push every non-Top name onto the worklist.
The worklist is a Rust `Vec` used as a stack; it is modelled head-first
(push = cons, pop = head), which matches push/pop at the `Vec`'s end. -/
def valuesSetup (f : FFunc) : Option (List LatticeValue × List VRef) :=
  (List.range f.numValues).foldlM
    (fun (acc : List LatticeValue × List VRef) name => do
      let lv ←
        if isValueUnknowable f name then some LatticeValue.bottom
        else do
          let r ← resolveValueToImm f name
          pure (match r with
            | some c => LatticeValue.constant c
            | none => LatticeValue.top)
      pure (acc.1 ++ [lv], if lv ≠ LatticeValue.top then name :: acc.2 else acc.2))
    ([], [])

/-- Append a use to a use map entry (`HashMap::entry(..).or_insert(..)`
followed by `push`). -/
def addUse (m : List (VRef × List FInstId)) (v : VRef) (i : FInstId) :
    List (VRef × List FInstId) :=
  if (lookupList m v).isSome then
    m.map (fun p => if p.1 = v then (p.1, p.2 ++ [i]) else p)
  else m ++ [(v, [i])]

/-- `SsaNameUses::new` (constant_folding.rs lines 305–327): walk the layout
and record, per SSA name, the instructions that read it (one entry per
occurrence). -/
def ssaNameUses (f : FFunc) : List (VRef × List FInstId) :=
  f.blocks.foldl
    (fun acc blk =>
      blk.body.foldl
        (fun acc instId =>
          match f.insts.get? instId with
          | none => acc
          | some inst => inst.data.arguments.foldl (fun acc v => addUse acc v instId) acc)
        acc)
    []

/-- `SsaNameUses::get`: an absent name has no uses (the default empty
slice). -/
def usesGet (m : List (VRef × List FInstId)) (v : VRef) : List FInstId :=
  (lookupList m v).getD []

/-- Map a block parameter to a fresh empty input list (`HashMap::insert`). -/
def phiInit (m : List (VRef × List VRef)) (p : VRef) : List (VRef × List VRef) :=
  (p, []) :: m.filter (fun q => q.1 ≠ p)

/-- Append an input to a block parameter's entry; `none` models the
`expect("to be filled in setup")` panic on an unregistered parameter. -/
def phiAppend (m : List (VRef × List VRef)) (toName fromName : VRef) :
    Option (List (VRef × List VRef)) :=
  if (lookupList m toName).isSome then
    some (m.map (fun p => if p.1 = toName then (p.1, p.2 ++ [fromName]) else p))
  else none

/-- `branch_arguments` (constant_folding.rs lines 347–353): all operands of
a `jump`/`fallthrough`, the operands after the condition for any other
branch.  (The source panics on a non-branch; all call sites are guarded by
`is_branch`, as here.) -/
def branchArguments : FInstData → List VRef
  | .jump _ args => args
  | .fallthrough _ args => args
  | d => d.arguments.tail

/-- `PhiValues::new` (constant_folding.rs lines 250–291): pre-populate
every block parameter, then for every branch in the layout pair its branch
arguments with the destination's parameters.  The `none` cases model the
panics: a branch with no destination (`branch_destination().expect`, hit
by branch tables) and a missing map entry. -/
def phiValues (f : FFunc) : Option (List (VRef × List VRef)) := do
  let init := f.blocks.foldl
    (fun acc blk => blk.params.foldl (fun acc p => phiInit acc p) acc) []
  f.blocks.foldlM
    (fun acc blk =>
      blk.body.foldlM
        (fun acc instId => do
          let inst ← f.insts.get? instId
          if inst.data.isBranch then do
            let toBlock ← inst.data.branchDestination
            let blkTo ← f.blocks.get? toBlock
            ((branchArguments inst.data).zip blkTo.params).foldlM
              (fun acc pr => phiAppend acc pr.2 pr.1) acc
          else pure acc)
        acc)
    init

/-- `find_block_parameter_for_branch_argument` (constant_folding.rs lines
329–345): pair the branch arguments with the destination block's
parameters and return the parameter fed by `arg`.  The outer `none` models
the `expect` panics (no destination / invalid destination block). -/
def findBlockParam (f : FFunc) (d : FInstData) (arg : VRef) :
    Option (Option VRef) := do
  let destBlock ← d.branchDestination
  let blk ← f.blocks.get? destBlock
  pure ((((branchArguments d).zip blk.params).find? (fun pr => pr.1 = arg)).map (·.2))

/-- The fold inside `meet` (constant_folding.rs lines 94–99): meet the
current lattice values of all inputs, starting from Top. -/
def foldMeet (ins : List VRef) (values : List LatticeValue) :
    Option LatticeValue :=
  ins.foldlM (fun acc name => (valuesGet values name).map acc.meet) LatticeValue.top

/-- `meet` (constant_folding.rs lines 90–105): `Some folded` when the
folded value differs (under Rust `==`) from the previously recorded one. -/
def meetChanged (inputs : List (VRef × List VRef)) (values : List LatticeValue)
    (paramName : VRef) : Option (Option LatticeValue) := do
  let previous ← valuesGet values paramName
  let ins ← lookupList inputs paramName
  let folded ← foldMeet ins values
  pure (if latBeq folded previous then none else some folded)

/-! ### The symbolic step -/

/-- The control-flow outcomes of the symbolic step the folder consumes. -/
inductive FFlow : Type
  | assign (vals : List LatticeValue)
  | continueAt (b : BlockId)
  | continueFlow
  | returnFlow
  deriving DecidableEq, Repr

/-- Modelled from the spec: `cranelift_interpreter::step::step` over
`LatticeValue` (the `step` module is not under src/; §4.8: "Implement the
same instruction semantics as the Interpreter but over LatticeValue
inputs", with the binary rule of the in-src `binary` helper; "Unknown ops
fail silently").  `none` is a step error, treated by `interpret` as "no
new information"; constants assign themselves; binary ops use `latBinary`;
a `brnz` whose condition is a constant boolean decides the branch and
anything else is an `into_bool` error; jumps always decide; loads and
branch tables are unimplemented.  `finterpretData` is the per-instruction
dispatch; `finterpret` looks the instruction up in the dfg. -/
def finterpretData (d : FInstData) (values : List LatticeValue) : Option FFlow :=
  match d with
  | .iconst ty imm => (dvFromImm imm ty).map (fun c => .assign [.constant c])
  | .bconst ty imm =>
    if ty.isBool then some (.assign [.constant (.B imm)]) else none
  | .f32const bits => some (.assign [.constant (.F32 bits)])
  | .f64const bits => some (.assign [.constant (.F64 bits)])
  | .iadd _ a b => do
    let va ← valuesGet values a
    let vb ← valuesGet values b
    let r ← latBinary DataValue.addDv va vb
    pure (.assign [r])
  | .isub _ a b => do
    let va ← valuesGet values a
    let vb ← valuesGet values b
    let r ← latBinary DataValue.subDv va vb
    pure (.assign [r])
  | .brnz args dest => do
    let c ← args.head?
    let vc ← valuesGet values c
    match vc with
    | .constant (.B true) => pure (.continueAt dest)
    | .constant (.B false) => pure .continueFlow
    | _ => none
  | .jump dest _ => some (.continueAt dest)
  | .fallthrough dest _ => some (.continueAt dest)
  | .brTable _ => none
  | .indirectJumpTableBr _ => none
  | .load _ _ => none
  | .ret _ => some .returnFlow
  | .nop => some .continueFlow

def finterpret (f : FFunc) (instId : FInstId) (values : List LatticeValue) :
    Option FFlow :=
  (f.insts.get? instId).bind (fun inst => finterpretData inst.data values)

/-! ### Rewrites -/

/-- `replace_inst` (constant_folding.rs lines 356–380): materialize a
constant over the instruction, keeping its result list: integers through
`into_int` and an `iconst` of the controlling type, floats through the
exact immediate, booleans through `bconst`; anything else (`V128`) is
`unimplemented!()` (`none`). -/
def replaceInst (f : FFunc) (instId : FInstId) (c : DataValue) :
    Option FFunc := do
  let inst ← f.insts.get? instId
  if c.isInt then do
    let tv ← inst.data.ctrlTypevar
    let i ← c.intoInt
    pure { f with insts := f.insts.set instId ⟨.iconst tv i, inst.results⟩ }
  else
    match c with
    | .F32 bits =>
      pure { f with insts := f.insts.set instId ⟨.f32const bits, inst.results⟩ }
    | .F64 bits =>
      pure { f with insts := f.insts.set instId ⟨.f64const bits, inst.results⟩ }
    | .B b => do
      let tv ← inst.data.ctrlTypevar
      pure { f with insts := f.insts.set instId ⟨.bconst tv b, inst.results⟩ }
    | _ => none

/-- Keep a block body up to and including instruction `x`. -/
def takeUntilIncl (x : FInstId) : List FInstId → List FInstId
  | [] => []
  | y :: ys => if y = x then [y] else y :: takeUntilIncl x ys

/-- The layout removal loop of `possibly_replace_branch_with_jump`: remove
every instruction after `instId` in its block (`layout.next_inst` /
`layout.remove_inst`). -/
def truncateAfter (f : FFunc) (instId : FInstId) : FFunc :=
  { f with blocks := f.blocks.map (fun blk =>
      if instId ∈ blk.body then { blk with body := takeUntilIncl instId blk.body }
      else blk) }

/-- `possibly_replace_branch_with_jump` (constant_folding.rs lines
108–148): unconditional jumps and branch tables are skipped (`None`, the
function unchanged); any other branch is replaced by `jump block` carrying
its branch arguments, and the rest of its block is removed. -/
def possiblyReplaceBranchWithJump (f : FFunc) (instId : FInstId)
    (block : BlockId) : Option (FFunc × Option (List VRef)) := do
  let inst ← f.insts.get? instId
  match inst.data with
  | .jump _ _ => pure (f, none)
  | .fallthrough _ _ => pure (f, none)
  | .indirectJumpTableBr _ => pure (f, none)
  | .brTable _ => pure (f, none)
  | _ =>
    let params := branchArguments inst.data
    let f1 : FFunc :=
      { f with insts := f.insts.set instId ⟨.jump block params, inst.results⟩ }
    pure (truncateAfter f1 instId, some params)

/-! ### The worklist loop -/

/-- The folder's mutable state: the function being rewritten, the lattice
value of every SSA name, and the worklist. -/
structure FoldState : Type where
  func : FFunc
  values : List LatticeValue
  worklist : List VRef
  deriving DecidableEq, Repr

/-- The `match interpret(..)` of the loop body (constant_folding.rs lines
56–85): `Assign` replaces single-constant instructions and records changed
result values; `ContinueAt` rewrites the branch; `Continue` on a branch
becomes `nop`; everything else — including a step error — changes
nothing. -/
def applyInterpretRewrite (instId : FInstId)
    (s : FoldState) : Option FoldState :=
  match finterpret s.func instId s.values with
  | some (.assign resultVals) => do
    let s2 ←
      if resultVals.length = 1 then
        match resultVals.head? with
        | some (.constant c) =>
          (replaceInst s.func instId c).map (fun f' => { s with func := f' })
        | _ => some s
      else some s
    let inst ← s2.func.insts.get? instId
    (inst.results.zip resultVals).foldlM
      (fun (acc : FoldState) pr => do
        let prev ← valuesGet acc.values pr.1
        if latBeq prev pr.2 then pure acc
        else pure { acc with values := valuesSet acc.values pr.1 pr.2,
                             worklist := pr.1 :: acc.worklist })
      s2
  | some (.continueAt block) =>
    (possiblyReplaceBranchWithJump s.func instId block).map
      (fun pr => { s with func := pr.1 })
  | some .continueFlow => do
    let inst ← s.func.insts.get? instId
    if inst.data.isBranch then
      pure { s with func :=
        { s.func with insts := s.func.insts.set instId ⟨.nop, inst.results⟩ } }
    else pure s
  | _ => some s

/-- One use of the popped value `v` (the body of the `for &inst in
uses.get(v)` loop): possibly meet at the fed block parameter, then
symbolically interpret and rewrite. -/
def processUse (inputs : List (VRef × List VRef)) (v : VRef) (instId : FInstId)
    (s : FoldState) : Option FoldState := do
  let inst ← s.func.insts.get? instId
  let s1 ←
    if inst.data.isBranch then do
      let found ← findBlockParam s.func inst.data v
      match found with
      | some blockName => do
        let changed ← meetChanged inputs s.values blockName
        match changed with
        | some folded =>
          pure { s with values := valuesSet s.values blockName folded,
                        worklist := blockName :: s.worklist }
        | none => pure s
      | none => pure s
    else pure s
  applyInterpretRewrite instId s1

/-- One iteration of `while let Some(v) = worklist.pop()`: `some none` when
the worklist is empty (the loop exits), `some (some s')` for a completed
iteration, `none` for a panic. -/
def foldStep (uses : List (VRef × List FInstId)) (inputs : List (VRef × List VRef))
    (s : FoldState) : Option (Option FoldState) :=
  match s.worklist with
  | [] => some none
  | v :: wl =>
    ((usesGet uses v).foldlM (fun acc instId => processUse inputs v instId acc)
      { s with worklist := wl }).map some

/-- Iterate `foldStep` under fuel; `none` is a panic or fuel exhaustion
(the latter an embedding artifact — the source loop's termination rests on
lattice monotonicity). -/
def foldLoop (uses : List (VRef × List FInstId)) (inputs : List (VRef × List VRef)) :
    Nat → FoldState → Option FFunc
  | 0, _ => none
  | fuel + 1, s =>
    match foldStep uses inputs s with
    | none => none
    | some none => some s.func
    | some (some s') => foldLoop uses inputs fuel s'

/-- `fold_constants` (constant_folding.rs lines 22–88): set up the lattice
values and worklist, precompute the use and phi-input maps, and run the
worklist loop. -/
def foldConstants (fuel : Nat) (f : FFunc) : Option FFunc := do
  let (values, worklist) ← valuesSetup f
  let uses := ssaNameUses f
  let inputs ← phiValues f
  foldLoop uses inputs fuel ⟨f, values, worklist⟩

/-! ## Claim C8 — branch replacement -/

/-- The opcodes `possibly_replace_branch_with_jump` refuses to rewrite:
unconditional `jump`/`fallthrough` and the branch-table opcodes. -/
def FInstData.isSkippedAtBranchSite : FInstData → Bool
  | .jump _ _ | .fallthrough _ _ | .brTable _ | .indirectJumpTableBr _ => true
  | _ => false

/-- **C8.**  (1) Branch-table opcodes (`br_table`,
`indirect_jump_table_br`) and unconditional `jump`/`fallthrough` are never
rewritten at the branch site: `possibly_replace_branch_with_jump` returns
the function unchanged for them.  (2) A conditional branch (`brnz`) is
replaced by an unconditional jump to the decided block carrying the
branch's block arguments (its operands after the condition), and every
instruction after it in its block is removed from the layout.  (3) In the
worklist loop, the `ContinueAt(block, _)` outcome of symbolic
interpretation does exactly that rewrite and touches neither the lattice
values nor the worklist. -/
theorem branch_rewrite_C8 :
    (∀ (f : FFunc) (instId : FInstId) (block : BlockId) (inst : FInst),
      f.insts.get? instId = some inst →
      inst.data.isSkippedAtBranchSite = true →
      possiblyReplaceBranchWithJump f instId block = some (f, none)) ∧
    (∀ (f : FFunc) (instId : FInstId) (block : BlockId) (inst : FInst)
      (args : List VRef) (dest : BlockId),
      f.insts.get? instId = some inst → inst.data = .brnz args dest →
      possiblyReplaceBranchWithJump f instId block =
        some (truncateAfter
          { f with insts := f.insts.set instId ⟨.jump block args.tail, inst.results⟩ }
          instId, some args.tail)) ∧
    (∀ (s : FoldState) (instId : FInstId) (block : BlockId),
      finterpret s.func instId s.values = some (.continueAt block) →
      applyInterpretRewrite instId s =
        (possiblyReplaceBranchWithJump s.func instId block).map
          (fun pr => { s with func := pr.1 })) := by
  refine ⟨fun f instId block inst hi hskip => ?_,
          fun f instId block inst args dest hi hd => ?_,
          fun s instId block hint => ?_⟩
  · rw [List.get?_eq_getElem?] at hi
    cases hdata : inst.data <;> simp [FInstData.isSkippedAtBranchSite, hdata] at hskip <;>
      simp [possiblyReplaceBranchWithJump, hi, hdata]
  · rw [List.get?_eq_getElem?] at hi
    simp [possiblyReplaceBranchWithJump, hi, hd, branchArguments, FInstData.arguments]
  · simp [applyInterpretRewrite, hint]

/-- A two-instruction function: `brnz [v0, v1] → block0` followed by a
`nop`, for the C8 witness. -/
def c8Func : FFunc := ⟨[⟨.brnz [0, 1] 0, []⟩, ⟨.nop, []⟩], [⟨[], [0, 1]⟩], 2⟩

/-- **C8, witness**: at concrete inputs, the skipped-opcode part (a
`jump`), the `brnz`-replacement part (the branch becomes `jump block0(v1)`
and the trailing `nop` is removed from the block), and the loop-arm part
(a state whose `brnz` condition is the constant `true`). -/
theorem branch_rewrite_C8_witness :
    possiblyReplaceBranchWithJump ⟨[⟨.jump 0 [], []⟩], [⟨[], [0]⟩], 0⟩ 0 0 =
      some (⟨[⟨.jump 0 [], []⟩], [⟨[], [0]⟩], 0⟩, none) ∧
    possiblyReplaceBranchWithJump c8Func 0 0 =
      some (truncateAfter
        { c8Func with insts := c8Func.insts.set 0 ⟨.jump 0 [1], []⟩ } 0,
        some [1]) ∧
    applyInterpretRewrite 0 ⟨c8Func, [.constant (.B true), .top], []⟩ =
      (possiblyReplaceBranchWithJump c8Func 0 0).map
        (fun pr => { (⟨c8Func, [.constant (.B true), .top], []⟩ : FoldState) with
          func := pr.1 }) :=
  ⟨branch_rewrite_C8.1 ⟨[⟨.jump 0 [], []⟩], [⟨[], [0]⟩], 0⟩ 0 0 ⟨.jump 0 [], []⟩
      rfl rfl,
    branch_rewrite_C8.2.1 c8Func 0 0 ⟨.brnz [0, 1] 0, []⟩ [0, 1] 0 rfl rfl,
    branch_rewrite_C8.2.2 ⟨c8Func, [.constant (.B true), .top], []⟩ 0 0 rfl⟩

/-! ## Claim C6 — idempotence of `fold_constants`

The function below corresponds to the CLIF

```
block0:
  v0 = iconst.i32 1
  v1 = bconst.b1 true
  brnz v1, block1(v0)
  v2 = iconst.i32 2
  jump block1(v2)
block1(v3: i32):
  v4 = iadd.i32 v3, v3
  return v4
```

The first run meets `v3`'s two inputs (`v0 = 1` via the `brnz`, `v2 = 2`
via the `jump`) to `Bottom`, then decides the `brnz` (its condition is the
constant `true`) into `jump block1(v0)` and removes the two instructions
after it from the layout.  Its precomputed phi-input map still lists both
inputs, so `v3` stays `Bottom` and `v4 = v3 + v3` is not folded.  A second
run precomputes the phi-input map from the rewritten layout, where `v3`'s
only input is `v0 = 1`: it propagates `v3 = 1`, `v4 = 2`, and materializes
the `iadd` as `iconst.i32 2` — the second run changes the function. -/

def c6Func : FFunc :=
  ⟨[⟨.iconst .i32 1, [0]⟩,
    ⟨.bconst .b1 true, [1]⟩,
    ⟨.brnz [1, 0] 1, []⟩,
    ⟨.iconst .i32 2, [2]⟩,
    ⟨.jump 1 [2], []⟩,
    ⟨.iadd .i32 3 3, [4]⟩,
    ⟨.ret [4], []⟩],
   [⟨[], [0, 1, 2, 3, 4]⟩, ⟨[3], [5, 6]⟩],
   5⟩

/-- `fold_constants c6Func`: the `brnz` has become `jump block1(v0)` and
the layout of `block0` is truncated after it (the dfg keeps the detached
`iconst`/`jump`). -/
def c6Once : FFunc :=
  ⟨[⟨.iconst .i32 1, [0]⟩,
    ⟨.bconst .b1 true, [1]⟩,
    ⟨.jump 1 [0], []⟩,
    ⟨.iconst .i32 2, [2]⟩,
    ⟨.jump 1 [2], []⟩,
    ⟨.iadd .i32 3 3, [4]⟩,
    ⟨.ret [4], []⟩],
   [⟨[], [0, 1, 2]⟩, ⟨[3], [5, 6]⟩],
   5⟩

/-- `fold_constants c6Once`: the second run additionally folds the `iadd`
into `iconst.i32 2`. -/
def c6Twice : FFunc :=
  ⟨[⟨.iconst .i32 1, [0]⟩,
    ⟨.bconst .b1 true, [1]⟩,
    ⟨.jump 1 [0], []⟩,
    ⟨.iconst .i32 2, [2]⟩,
    ⟨.jump 1 [2], []⟩,
    ⟨.iconst .i32 2, [4]⟩,
    ⟨.ret [4], []⟩],
   [⟨[], [0, 1, 2]⟩, ⟨[3], [5, 6]⟩],
   5⟩

/-- **C6, counterexample.**  `fold_constants` is not idempotent: on
`c6Func`, the second application changes the function that the first
application produced (it folds the `iadd` to `iconst.i32 2`), so the claim
"the second run yields a function equal to its input" is false at this
concrete input. -/
theorem fold_not_idempotent_C6_counterexample :
    foldConstants 50 c6Func = some c6Once ∧
    foldConstants 50 c6Once = some c6Twice ∧
    c6Twice ≠ c6Once :=
  ⟨rfl, rfl, by decide⟩

/-- **C6, amended.**  `fold_constants` is not idempotent in general: there
is a function (with a decidable branch feeding a block parameter that also
has a second, unreachable input) on which a second application of
`fold_constants` changes the output of the first.  The first run's branch
rewrite shrinks the block-parameter input sets, but only a later run's
freshly precomputed phi-input map observes this; reaching a syntactic
fixpoint can require more than one application. -/
theorem fold_not_idempotent_C6 :
    ∃ (f f1 f2 : FFunc) (fuel : Nat),
      foldConstants fuel f = some f1 ∧
      foldConstants fuel f1 = some f2 ∧ f2 ≠ f1 :=
  ⟨c6Func, c6Once, c6Twice, 50, rfl, rfl, by decide⟩

/-! ## Claim C5 — lattice monotonicity of the worklist loop

The downward order on the three-point lattice: `latLe x y` says `x` is the
same point as `y` or strictly below it (`Top → Constant`, `Top → Bottom`,
`Constant → Bottom`); distinct constants are incomparable.  `latLeB`
additionally allows constants the Rust `PartialEq` identifies (float ±0),
which the source's change guards (`!=`) can never tell apart. -/

def latLe (x y : LatticeValue) : Prop :=
  x = y ∨ x = .bottom ∨ y = .top

def latLeB (x y : LatticeValue) : Prop :=
  latLe x y ∨ latBeq x y = true

theorem latLe_refl (x : LatticeValue) : latLe x x := Or.inl rfl

theorem latLe_trans {x y z : LatticeValue} (h1 : latLe x y) (h2 : latLe y z) :
    latLe x z := by
  rcases h1 with h1 | h1 | h1
  · subst h1; exact h2
  · exact Or.inr (Or.inl h1)
  · subst h1
    rcases h2 with h2 | h2 | h2
    · exact Or.inr (Or.inr h2.symm)
    · simp at h2
    · exact Or.inr (Or.inr h2)

theorem latLeB_refl (x : LatticeValue) : latLeB x x := Or.inl (latLe_refl x)

theorem latBeq_symm (x y : LatticeValue) : latBeq x y = latBeq y x := by
  cases x <;> cases y <;> simp [latBeq, dvBeq_symm]

theorem latBeq_trans {x y z : LatticeValue} (h1 : latBeq x y = true)
    (h2 : latBeq y z = true) : latBeq x z = true := by
  cases x <;> cases y <;> cases z <;> simp_all [latBeq]
  exact dvBeq_trans h1 h2

theorem latBeq_bottom {x : LatticeValue} (h : latBeq x .bottom = true) :
    x = .bottom := by
  cases x <;> simp_all [latBeq]

theorem latBeq_top {x : LatticeValue} (h : latBeq x .top = true) : x = .top := by
  cases x <;> simp_all [latBeq]

theorem latLe_bottom (x : LatticeValue) : latLe .bottom x := Or.inr (Or.inl rfl)

theorem latLe_top (x : LatticeValue) : latLe x .top := Or.inr (Or.inr rfl)

theorem latLeB_trans {x y z : LatticeValue} (h1 : latLeB x y) (h2 : latLeB y z) :
    latLeB x z := by
  rcases h1 with h1 | h1
  · rcases h1 with h1 | h1 | h1
    · subst h1; exact h2
    · subst h1; exact Or.inl (latLe_bottom z)
    · subst h1
      rcases h2 with h2 | h2
      · rcases h2 with h2 | h2 | h2
        · rw [← h2]; exact Or.inl (latLe_top x)
        · simp at h2
        · rw [h2]; exact Or.inl (latLe_top x)
      · rw [latBeq_symm] at h2
        rw [latBeq_top h2]; exact Or.inl (latLe_top x)
  · rcases h2 with h2 | h2
    · rcases h2 with h2 | h2 | h2
      · subst h2; exact Or.inr h1
      · subst h2
        rw [latBeq_bottom h1]; exact Or.inl (latLe_bottom z)
      · exact Or.inl (Or.inr (Or.inr h2))
    · exact Or.inr (latBeq_trans h1 h2)

/-- `meet x y` is below (or `==`-equal to) its right operand. -/
theorem meet_le_right (x y : LatticeValue) : latLeB (x.meet y) y := by
  cases x <;> cases y <;>
    first
      | exact Or.inl (latLe_refl _)
      | exact Or.inl (latLe_bottom _)
      | exact Or.inl (latLe_top _)
      | (rename_i a b
         by_cases h : dvBeq a b = true <;> simp only [LatticeValue.meet, h, if_true, if_false]
         · exact Or.inr (by simpa [latBeq] using h)
         · exact Or.inl (latLe_bottom _))

/-- `meet x y` is below (or `==`-equal to) its left operand. -/
theorem meet_le_left (x y : LatticeValue) : latLeB (x.meet y) x := by
  cases x <;> cases y <;>
    first
      | exact Or.inl (latLe_refl _)
      | exact Or.inl (latLe_bottom _)
      | exact Or.inl (latLe_top _)
      | (rename_i a b
         by_cases h : dvBeq a b = true <;> simp only [LatticeValue.meet, h, if_true, if_false]
         · exact latLeB_refl _
         · exact Or.inl (latLe_bottom _))

/-- Meet is monotone in its left operand. -/
theorem meet_mono_left {x' x : LatticeValue} (h : latLeB x' x) (y : LatticeValue) :
    latLeB (x'.meet y) (x.meet y) := by
  rcases h with (h | h | h) | h
  · subst h; exact latLeB_refl _
  · subst h; rw [meet_bottom]; exact Or.inl (latLe_bottom _)
  · subst h; rw [meet_top]; exact meet_le_right x' y
  · match x', x, h with
    | .top, .top, _ => exact latLeB_refl _
    | .bottom, .bottom, _ => exact latLeB_refl _
    | .constant a', .constant a, h =>
      cases y with
      | top => exact Or.inr (by simpa [latBeq] using h)
      | bottom => exact latLeB_refl _
      | constant b =>
        by_cases hb : dvBeq a b = true
        · have hb' : dvBeq a' b = true := dvBeq_trans h hb
          simp only [LatticeValue.meet, hb, hb', if_true]
          exact Or.inr (by simpa [latBeq] using h)
        · have hb' : ¬ dvBeq a' b = true := fun hc =>
            hb (dvBeq_trans (dvBeq_symm a a' ▸ h) hc)
          simp only [LatticeValue.meet, hb, hb', if_false]
          exact latLeB_refl _

/-- Meet is monotone in its right operand. -/
theorem meet_mono_right (x : LatticeValue) {y' y : LatticeValue} (h : latLeB y' y) :
    latLeB (x.meet y') (x.meet y) := by
  rcases h with (h | h | h) | h
  · subst h; exact latLeB_refl _
  · subst h
    cases x <;> exact Or.inl (latLe_bottom _)
  · subst h
    cases x with
    | top => rw [meet_top, meet_top]; exact Or.inl (latLe_top y')
    | bottom => rw [meet_bottom, meet_bottom]; exact latLeB_refl _
    | constant a =>
      have hr : LatticeValue.meet (.constant a) .top = .constant a := rfl
      rw [hr]
      exact meet_le_left (.constant a) y'
  · match y', y, h with
    | .top, .top, _ => exact latLeB_refl _
    | .bottom, .bottom, _ => exact latLeB_refl _
    | .constant b', .constant b, h =>
      cases x with
      | top => exact Or.inr (by simpa [latBeq] using h)
      | bottom => exact latLeB_refl _
      | constant a =>
        by_cases hb : dvBeq a b = true
        · have hb' : dvBeq a b' = true := dvBeq_trans hb (dvBeq_symm b' b ▸ h)
          simp only [LatticeValue.meet, hb, hb', if_true]
          exact latLeB_refl _
        · have hb' : ¬ dvBeq a b' = true := fun hc => hb (dvBeq_trans hc h)
          simp only [LatticeValue.meet, hb, hb', if_false]
          exact latLeB_refl _

/-- Meet is monotone in both operands w.r.t. the below-or-`==` preorder. -/
theorem meet_mono {x' x y' y : LatticeValue} (hx : latLeB x' x) (hy : latLeB y' y) :
    latLeB (x'.meet y') (x.meet y) :=
  latLeB_trans (meet_mono_left hx y') (meet_mono_right x hy)

/-- Pointwise downward evolution of the value table: every entry is
unchanged or strictly dropped. -/
def valuesEvolve (old new : List LatticeValue) : Prop :=
  old.length = new.length ∧
  ∀ i x y, old.get? i = some x → new.get? i = some y → latLe y x

theorem valuesEvolve_refl (v : List LatticeValue) : valuesEvolve v v :=
  ⟨rfl, fun _ x y hx hy => by rw [hx] at hy; cases hy; exact latLe_refl x⟩

theorem valuesEvolve_get {old new : List LatticeValue} (h : valuesEvolve old new)
    {i : Nat} {x : LatticeValue} (hx : old.get? i = some x) :
    ∃ y, new.get? i = some y ∧ latLe y x := by
  have hi : i < new.length := h.1 ▸ (List.get?_eq_some.mp hx).1
  exact ⟨new.get ⟨i, hi⟩, List.get?_eq_get hi, h.2 i x _ hx (List.get?_eq_get hi)⟩

theorem valuesEvolve_get_rev {old new : List LatticeValue} (h : valuesEvolve old new)
    {i : Nat} {y : LatticeValue} (hy : new.get? i = some y) :
    ∃ x, old.get? i = some x ∧ latLe y x := by
  have hi : i < old.length := h.1.symm ▸ (List.get?_eq_some.mp hy).1
  exact ⟨old.get ⟨i, hi⟩, List.get?_eq_get hi, h.2 i _ y (List.get?_eq_get hi) hy⟩

theorem valuesEvolve_trans {a b c : List LatticeValue} (h1 : valuesEvolve a b)
    (h2 : valuesEvolve b c) : valuesEvolve a c := by
  refine ⟨h1.1.trans h2.1, fun i x z hx hz => ?_⟩
  obtain ⟨y, hy, hyx⟩ := valuesEvolve_get h1 hx
  obtain ⟨y', hy', hzy⟩ := valuesEvolve_get_rev h2 hz
  rw [hy] at hy'
  cases hy'
  exact latLe_trans hzy hyx

theorem valuesEvolve_set {vals : List LatticeValue} {r : VRef}
    {prev nv : LatticeValue} (hprev : vals.get? r = some prev) (hle : latLe nv prev) :
    valuesEvolve vals (vals.set r nv) := by
  refine ⟨(List.length_set vals r nv).symm, fun i x y hx hy => ?_⟩
  by_cases hir : i = r
  · subst hir
    rw [hx] at hprev; cases hprev
    have hi : i < vals.length := (List.get?_eq_some.mp hx).1
    rw [List.get?_eq_getElem?, List.getElem?_set_eq_of_lt _ hi] at hy
    cases hy
    exact hle
  · rw [List.get?_eq_getElem?, List.getElem?_set_ne (fun h => hir h.symm),
      ← List.get?_eq_getElem?, hx] at hy
    cases hy
    exact latLe_refl x

/-- `foldMeet` is monotone: over a dropped value table the fold yields a
result below (or `==`-equal to) the original, for any pair of related
accumulators. -/
theorem foldMeet_go_evolve {old new : List LatticeValue}
    (hev : valuesEvolve old new) :
    ∀ (ins : List VRef) (acc' acc : LatticeValue), latLeB acc' acc →
      ∀ fo, ins.foldlM (fun a name => (valuesGet old name).map a.meet) acc = some fo →
      ∃ fn, ins.foldlM (fun a name => (valuesGet new name).map a.meet) acc' = some fn ∧
        latLeB fn fo := by
  intro ins
  induction ins with
  | nil =>
    intro acc' acc hacc fo hfo
    simp only [List.foldlM] at hfo ⊢
    cases hfo
    exact ⟨acc', rfl, hacc⟩
  | cons q rest ih =>
    intro acc' acc hacc fo hfo
    simp only [List.foldlM_cons, Option.bind_eq_bind] at hfo ⊢
    match hq : valuesGet old q with
    | none => rw [hq] at hfo; simp at hfo
    | some xq =>
      rw [hq] at hfo
      simp only [Option.map_some', Option.some_bind] at hfo
      obtain ⟨yq, hyq, hle⟩ := valuesEvolve_get hev hq
      have hyq' : valuesGet new q = some yq := hyq
      rw [hyq']
      simp only [Option.map_some', Option.some_bind]
      exact ih (acc'.meet yq) (acc.meet xq) (meet_mono hacc (Or.inl hle)) fo hfo

theorem foldMeet_evolve {old new : List LatticeValue} (hev : valuesEvolve old new)
    {ins : List VRef} {fo : LatticeValue} (hfo : foldMeet ins old = some fo) :
    ∃ fn, foldMeet ins new = some fn ∧ latLeB fn fo :=
  foldMeet_go_evolve hev ins .top .top (latLeB_refl _) fo hfo

/-- The fold over a dropped table is defined whenever the fold over the
original is, and vice versa (the tables have equal lengths). -/
theorem foldMeet_defined {old new : List LatticeValue} (hlen : old.length = new.length) :
    ∀ (ins : List VRef) (acc acc' : LatticeValue) fn,
      ins.foldlM (fun a name => (valuesGet new name).map a.meet) acc = some fn →
      ∃ fo, ins.foldlM (fun a name => (valuesGet old name).map a.meet) acc' = some fo := by
  intro ins
  induction ins with
  | nil => intro acc acc' fn _; exact ⟨acc', rfl⟩
  | cons q rest ih =>
    intro acc acc' fn h
    simp only [List.foldlM_cons, Option.bind_eq_bind] at h ⊢
    match hq : valuesGet new q with
    | none => rw [hq] at h; simp at h
    | some yq =>
      rw [hq] at h
      simp only [Option.map_some', Option.some_bind] at h
      have hqlt : q < old.length := by
        rw [hlen]; exact (List.get?_eq_some.mp hq).1
      have hxq : valuesGet old q = some (old.get ⟨q, hqlt⟩) := List.get?_eq_get hqlt
      rw [hxq]
      simp only [Option.map_some', Option.some_bind]
      exact ih _ _ fn h

theorem foldMeet_evolve_rev {old new : List LatticeValue} (hev : valuesEvolve old new)
    {ins : List VRef} {fn : LatticeValue} (hfn : foldMeet ins new = some fn) :
    ∃ fo, foldMeet ins old = some fo ∧ latLeB fn fo := by
  obtain ⟨fo, hfo⟩ := foldMeet_defined hev.1 ins .top .top fn hfn
  obtain ⟨fn', hfn', hle⟩ := foldMeet_evolve hev hfo
  unfold foldMeet at hfn hfn'
  rw [hfn] at hfn'
  cases hfn'
  exact ⟨fo, hfo, hle⟩

/-- A constant produced by `foldMeet` is the recorded value of one of the
inputs. -/
theorem foldMeet_const_source :
    ∀ (ins : List VRef) (values : List LatticeValue) (acc : LatticeValue) (d : DataValue),
      ins.foldlM (fun a name => (valuesGet values name).map a.meet) acc =
        some (.constant d) →
      acc = .constant d ∨ ∃ q ∈ ins, valuesGet values q = some (.constant d) := by
  intro ins
  induction ins with
  | nil =>
    intro values acc d h
    simp only [List.foldlM] at h
    cases h
    exact Or.inl rfl
  | cons q rest ih =>
    intro values acc d h
    simp only [List.foldlM_cons, Option.bind_eq_bind] at h
    match hq : valuesGet values q with
    | none => rw [hq] at h; simp at h
    | some xq =>
      rw [hq] at h
      simp only [Option.map_some', Option.some_bind] at h
      rcases ih values (acc.meet xq) d h with hacc | ⟨q', hq', hv⟩
      · by_cases hxa : acc.meet xq = xq
        · exact Or.inr ⟨q, List.mem_cons_self q rest, by rw [hq, ← hxa, hacc]⟩
        · left
          cases acc with
          | top => exact absurd (meet_top xq) hxa
          | bottom => rw [meet_bottom] at hacc; exact absurd hacc (by simp)
          | constant a =>
            cases xq with
            | top => exact hacc
            | bottom => exact absurd hacc (by simp [LatticeValue.meet])
            | constant b =>
              by_cases hab : dvBeq a b = true
              · simpa [LatticeValue.meet, hab] using hacc
              · simp [LatticeValue.meet, hab] at hacc
      · exact Or.inr ⟨q', List.mem_cons_of_mem q hq', hv⟩

/-! ### Typing of data values and instructions -/

/-- A data value inhabits a CLIF type. -/
def dvTyped : DataValue → FTy → Bool
  | .B _, ty => ty.isBool
  | .I8 _, .i8 => true
  | .I16 _, .i16 => true
  | .I32 _, .i32 => true
  | .I64 _, .i64 => true
  | .F32 _, .f32 => true
  | .F64 _, .f64 => true
  | _, _ => false

/-- The integer payloads of a data value are in range for their width (as
they are by construction in the Rust `DataValue`, whose payloads are `i8`,
`i16`, `i32`, `i64`). -/
def dvWf : DataValue → Prop
  | .I8 i => -128 ≤ i ∧ i < 128
  | .I16 i => -32768 ≤ i ∧ i < 32768
  | .I32 i => -2147483648 ≤ i ∧ i < 2147483648
  | .I64 i => -9223372036854775808 ≤ i ∧ i < 9223372036854775808
  | _ => True

theorem wrapInt_wf_8 (i : Int) : -128 ≤ wrapInt 8 i ∧ wrapInt 8 i < 128 := by
  unfold wrapInt; omega

theorem wrapInt_wf_16 (i : Int) : -32768 ≤ wrapInt 16 i ∧ wrapInt 16 i < 32768 := by
  unfold wrapInt; omega

theorem wrapInt_wf_32 (i : Int) :
    -2147483648 ≤ wrapInt 32 i ∧ wrapInt 32 i < 2147483648 := by
  unfold wrapInt; omega

theorem wrapInt_wf_64 (i : Int) :
    -9223372036854775808 ≤ wrapInt 64 i ∧ wrapInt 64 i < 9223372036854775808 := by
  unfold wrapInt; omega

theorem wrapInt_id_8 {i : Int} (h1 : -128 ≤ i) (h2 : i < 128) : wrapInt 8 i = i := by
  unfold wrapInt; omega

theorem wrapInt_id_16 {i : Int} (h1 : -32768 ≤ i) (h2 : i < 32768) :
    wrapInt 16 i = i := by
  unfold wrapInt; omega

theorem wrapInt_id_32 {i : Int} (h1 : -2147483648 ≤ i) (h2 : i < 2147483648) :
    wrapInt 32 i = i := by
  unfold wrapInt; omega

theorem wrapInt_id_64 {i : Int} (h1 : -9223372036854775808 ≤ i)
    (h2 : i < 9223372036854775808) : wrapInt 64 i = i := by
  unfold wrapInt; omega

/-- `dvFromImm` produces a well-formed value of the requested type. -/
theorem dvFromImm_typed {imm : Int} {ty : FTy} {c : DataValue}
    (h : dvFromImm imm ty = some c) : dvWf c ∧ dvTyped c ty = true := by
  cases ty <;> simp [dvFromImm] at h <;> subst h <;>
    simp [dvWf, dvTyped, wrapInt_wf_8, wrapInt_wf_16, wrapInt_wf_32, wrapInt_wf_64]

/-- Round trip of `replace_inst`'s integer path: a well-formed, well-typed
integer constant survives `into_int` followed by the immediate cast back to
its controlling type. -/
theorem replace_roundtrip {c : DataValue} {ty : FTy} (ht : dvTyped c ty = true)
    (hw : dvWf c) (hi : c.isInt = true) :
    ∃ iv, c.intoInt = some iv ∧ dvFromImm iv ty = some c := by
  cases c <;> simp [DataValue.isInt] at hi <;> cases ty <;>
    simp [dvTyped] at ht <;>
    simp_all [DataValue.intoInt, dvFromImm, dvWf, wrapInt_id_8, wrapInt_id_16,
      wrapInt_id_32, wrapInt_id_64]

/-- `DataValue` addition preserves typing and well-formedness. -/
theorem addDv_typed {a b d : DataValue} {ty : FTy}
    (h : DataValue.addDv a b = some d) (hta : dvTyped a ty = true) :
    dvWf d ∧ dvTyped d ty = true := by
  cases a <;> cases b <;> simp [DataValue.addDv] at h <;> subst h <;>
    cases ty <;> simp [dvTyped] at hta <;>
    simp [dvWf, dvTyped, wrapInt_wf_8, wrapInt_wf_16, wrapInt_wf_32, wrapInt_wf_64]

/-- `DataValue` subtraction preserves typing and well-formedness. -/
theorem subDv_typed {a b d : DataValue} {ty : FTy}
    (h : DataValue.subDv a b = some d) (hta : dvTyped a ty = true) :
    dvWf d ∧ dvTyped d ty = true := by
  cases a <;> cases b <;> simp [DataValue.subDv] at h <;> subst h <;>
    cases ty <;> simp [dvTyped] at hta <;>
    simp [dvWf, dvTyped, wrapInt_wf_8, wrapInt_wf_16, wrapInt_wf_32, wrapInt_wf_64]

/-- `latBinary` under dropped operands: the new result is below-or-equal
the old result, or is `Bottom`. -/
theorem latBinary_evolve {op : DataValue → DataValue → Option DataValue}
    {va' va vb' vb : LatticeValue} (ha : latLe va' va) (hb : latLe vb' vb)
    {r' : LatticeValue} (h' : latBinary op va' vb' = some r') :
    r' = .bottom ∨ ∃ r, latBinary op va vb = some r ∧ latLeB r' r := by
  cases va' with
  | bottom =>
    left
    have hb' : latBinary op .bottom vb' = some .bottom := by cases vb' <;> rfl
    rw [hb'] at h'; cases h'; rfl
  | top =>
    cases vb' with
    | bottom =>
      left
      have hx : latBinary op .top .bottom = some .bottom := rfl
      rw [hx] at h'; cases h'; rfl
    | top =>
      have hva : va = .top := by
        rcases ha with h | h | h
        exacts [h.symm, absurd h (by simp), h]
      have hvb : vb = .top := by
        rcases hb with h | h | h
        exacts [h.symm, absurd h (by simp), h]
      have hr' : r' = .top := by
        have hx : latBinary op .top .top = some .top := rfl
        rw [hx] at h'; cases h'; rfl
      subst hva; subst hvb; subst hr'
      exact Or.inr ⟨.top, rfl, latLeB_refl _⟩
    | constant b' =>
      have hva : va = .top := by
        rcases ha with h | h | h
        exacts [h.symm, absurd h (by simp), h]
      have hr' : r' = .top := by
        have hx : latBinary op .top (.constant b') = some .top := rfl
        rw [hx] at h'; cases h'; rfl
      subst hva; subst hr'
      rcases hb with h | h | h
      · rw [← h]; exact Or.inr ⟨.top, rfl, latLeB_refl _⟩
      · simp at h
      · subst h; exact Or.inr ⟨.top, rfl, latLeB_refl _⟩
  | constant a' =>
    cases vb' with
    | bottom =>
      left
      have hx : latBinary op (.constant a') .bottom = some .bottom := rfl
      rw [hx] at h'; cases h'; rfl
    | top =>
      have hvb : vb = .top := by
        rcases hb with h | h | h
        exacts [h.symm, absurd h (by simp), h]
      have hr' : r' = .top := by
        have hx : latBinary op (.constant a') .top = some .top := rfl
        rw [hx] at h'; cases h'; rfl
      subst hvb; subst hr'
      rcases ha with h | h | h
      · rw [← h]; exact Or.inr ⟨.top, rfl, latLeB_refl _⟩
      · simp at h
      · subst h; exact Or.inr ⟨.top, rfl, latLeB_refl _⟩
    | constant b' =>
      have ha' : va = .constant a' ∨ va = .top := by
        rcases ha with h | h | h
        · exact Or.inl h.symm
        · simp at h
        · exact Or.inr h
      have hb2 : vb = .constant b' ∨ vb = .top := by
        rcases hb with h | h | h
        · exact Or.inl h.symm
        · simp at h
        · exact Or.inr h
      rcases ha' with ha' | ha' <;> rcases hb2 with hb2 | hb2 <;>
        subst ha' <;> subst hb2
      · exact Or.inr ⟨r', h', latLeB_refl _⟩
      · exact Or.inr ⟨.top, rfl, Or.inl (latLe_top _)⟩
      · exact Or.inr ⟨.top, rfl, Or.inl (latLe_top _)⟩
      · exact Or.inr ⟨.top, rfl, Or.inl (latLe_top _)⟩

/-- A constant result of `latBinary` comes from two constant operands. -/
theorem latBinary_const_inv {op : DataValue → DataValue → Option DataValue}
    {va vb : LatticeValue} {d : DataValue}
    (h : latBinary op va vb = some (.constant d)) :
    ∃ da db, va = .constant da ∧ vb = .constant db ∧ op da db = some d := by
  cases va <;> cases vb <;> simp_all [latBinary]

/-! ### Instruction typing -/

/-- Static typing of a folder instruction under a type assignment `Γ` for
SSA names: constants and arithmetic are single-result with matching
controlling types; control instructions have no results. -/
def InstTyped (Γ : VRef → FTy) (inst : FInst) : Prop :=
  match inst.data with
  | .iconst ty _ => ty.isInt = true ∧ ∃ r, inst.results = [r] ∧ Γ r = ty
  | .bconst ty _ => ty.isBool = true ∧ ∃ r, inst.results = [r] ∧ Γ r = ty
  | .f32const _ => ∃ r, inst.results = [r] ∧ Γ r = .f32
  | .f64const _ => ∃ r, inst.results = [r] ∧ Γ r = .f64
  | .iadd ty a b =>
      ty.isInt = true ∧ Γ a = ty ∧ Γ b = ty ∧ ∃ r, inst.results = [r] ∧ Γ r = ty
  | .isub ty a b =>
      ty.isInt = true ∧ Γ a = ty ∧ Γ b = ty ∧ ∃ r, inst.results = [r] ∧ Γ r = ty
  | .load ty _ => ∃ r, inst.results = [r] ∧ Γ r = ty
  | _ => inst.results = []

/-- The phi-input map respects the typing: every input of a block
parameter has the parameter's type. -/
def inputsTyped (Γ : VRef → FTy) (inputs : List (VRef × List VRef)) : Prop :=
  ∀ p ins, lookupList inputs p = some ins → ∀ q ∈ ins, Γ q = Γ p

/-- Well-formedness of the folder's function under `Γ`: SSA uniqueness of
results, block parameters (the phi-input map's domain) are not
instruction results, and every instruction is well-typed. -/
structure FoldWF (Γ : VRef → FTy) (inputs : List (VRef × List VRef))
    (f : FFunc) : Prop where
  ssaUnique : ∀ i j insti instj r, f.insts.get? i = some insti →
      f.insts.get? j = some instj → r ∈ insti.results → r ∈ instj.results → i = j
  paramNotResult : ∀ p l, lookupList inputs p = some l →
      ∀ i inst, f.insts.get? i = some inst → p ∉ inst.results
  typed : ∀ i inst, f.insts.get? i = some inst → InstTyped Γ inst

/-! ### Shape lemmas for the symbolic step -/

theorem finterpret_some_inst {f : FFunc} {i : FInstId} {env : List LatticeValue}
    {flow : FFlow} (h : finterpret f i env = some flow) :
    ∃ inst, f.insts.get? i = some inst := by
  unfold finterpret at h
  match hi : f.insts.get? i with
  | none => rw [hi] at h; simp at h
  | some inst => exact ⟨inst, rfl⟩

theorem finterpret_congr {f f' : FFunc} {i : FInstId} (env : List LatticeValue)
    (h : f.insts.get? i = f'.insts.get? i) :
    finterpret f i env = finterpret f' i env := by
  unfold finterpret
  rw [h]

/-- Exhaustive characterization of the `Assign` outcomes of the symbolic
step. -/
theorem finterpret_assign_cases {f : FFunc} {i : FInstId} {env : List LatticeValue}
    {vs : List LatticeValue} (h : finterpret f i env = some (.assign vs)) :
    ∃ inst, f.insts.get? i = some inst ∧
      ((∃ ty imm c, inst.data = .iconst ty imm ∧ dvFromImm imm ty = some c ∧
          vs = [.constant c]) ∨
       (∃ ty imm, inst.data = .bconst ty imm ∧ ty.isBool = true ∧
          vs = [.constant (.B imm)]) ∨
       (∃ bits, inst.data = .f32const bits ∧ vs = [.constant (.F32 bits)]) ∨
       (∃ bits, inst.data = .f64const bits ∧ vs = [.constant (.F64 bits)]) ∨
       (∃ ty a b va vb r, inst.data = .iadd ty a b ∧ valuesGet env a = some va ∧
          valuesGet env b = some vb ∧ latBinary DataValue.addDv va vb = some r ∧
          vs = [r]) ∨
       (∃ ty a b va vb r, inst.data = .isub ty a b ∧ valuesGet env a = some va ∧
          valuesGet env b = some vb ∧ latBinary DataValue.subDv va vb = some r ∧
          vs = [r])) := by
  unfold finterpret at h
  match hi : f.insts.get? i with
  | none => rw [hi] at h; simp at h
  | some inst =>
    rw [hi] at h
    simp only [Option.some_bind] at h
    refine ⟨inst, rfl, ?_⟩
    cases hd : inst.data <;> rw [hd] at h <;> simp only [finterpretData] at h
    case iconst ty imm =>
      match hc : dvFromImm imm ty with
      | none => rw [hc] at h; simp at h
      | some c =>
        rw [hc] at h
        simp at h
        exact Or.inl ⟨ty, imm, c, rfl, hc, h.symm⟩
    case bconst ty imm =>
      by_cases hb : ty.isBool = true
      · simp [hb] at h
        exact Or.inr (Or.inl ⟨ty, imm, rfl, hb, h.symm⟩)
      · simp [hb] at h
    case f32const bits =>
      simp at h
      exact Or.inr (Or.inr (Or.inl ⟨bits, rfl, h.symm⟩))
    case f64const bits =>
      simp at h
      exact Or.inr (Or.inr (Or.inr (Or.inl ⟨bits, rfl, h.symm⟩)))
    case iadd ty a b =>
      match ha : valuesGet env a with
      | none => rw [ha] at h; simp at h
      | some va =>
        rw [ha] at h
        simp only [Option.bind_eq_bind, Option.some_bind] at h
        match hb : valuesGet env b with
        | none => rw [hb] at h; simp at h
        | some vb =>
          rw [hb] at h
          simp only [Option.bind_eq_bind, Option.some_bind] at h
          match hr : latBinary DataValue.addDv va vb with
          | none => rw [hr] at h; simp at h
          | some r =>
            rw [hr] at h
            simp at h
            exact Or.inr (Or.inr (Or.inr (Or.inr (Or.inl
              ⟨ty, a, b, va, vb, r, rfl, ha, hb, hr, h.symm⟩))))
    case isub ty a b =>
      match ha : valuesGet env a with
      | none => rw [ha] at h; simp at h
      | some va =>
        rw [ha] at h
        simp only [Option.bind_eq_bind, Option.some_bind] at h
        match hb : valuesGet env b with
        | none => rw [hb] at h; simp at h
        | some vb =>
          rw [hb] at h
          simp only [Option.bind_eq_bind, Option.some_bind] at h
          match hr : latBinary DataValue.subDv va vb with
          | none => rw [hr] at h; simp at h
          | some r =>
            rw [hr] at h
            simp at h
            exact Or.inr (Or.inr (Or.inr (Or.inr (Or.inr
              ⟨ty, a, b, va, vb, r, rfl, ha, hb, hr, h.symm⟩))))
    case brnz args dest =>
      match hc : args.head? with
      | none => rw [hc] at h; simp at h
      | some c =>
        rw [hc] at h
        simp only [Option.bind_eq_bind, Option.some_bind] at h
        match hv : valuesGet env c with
        | none => rw [hv] at h; simp at h
        | some vc =>
          rw [hv] at h
          simp only [Option.bind_eq_bind, Option.some_bind] at h
          match vc with
          | .constant (.B true) => simp at h
          | .constant (.B false) => simp at h
          | .top => simp at h
          | .bottom => simp at h
          | .constant (.I8 _) | .constant (.I16 _) | .constant (.I32 _)
          | .constant (.I64 _) | .constant (.F32 _) | .constant (.F64 _)
          | .constant (.V128 _) => simp at h
    case jump dest args => simp at h
    case fallthrough dest args => simp at h
    case brTable arg => simp at h
    case indirectJumpTableBr arg => simp at h
    case load ty arg => simp at h
    case ret args => simp at h
    case nop => simp at h

/-- Every `Assign` of the symbolic step carries exactly one value. -/
theorem finterpret_assign_single {f : FFunc} {i : FInstId}
    {env : List LatticeValue} {vs : List LatticeValue}
    (h : finterpret f i env = some (.assign vs)) : ∃ x, vs = [x] := by
  obtain ⟨inst, _, hc⟩ := finterpret_assign_cases h
  rcases hc with ⟨_, _, c, _, _, hv⟩ | ⟨_, _, _, _, hv⟩ | ⟨_, _, hv⟩ | ⟨_, _, hv⟩ |
    ⟨_, _, _, _, _, r, _, _, _, _, hv⟩ | ⟨_, _, _, _, _, r, _, _, _, _, hv⟩ <;>
    exact ⟨_, hv⟩

/-- The flow kind of the symbolic step is determined by the instruction:
constants and arithmetic assign; `brnz` decides or falls through; jumps
decide; `return` returns; `nop` falls through; the rest always error. -/
theorem finterpretData_kind {d : FInstData} {env : List LatticeValue}
    {flow : FFlow} (h : finterpretData d env = some flow) :
    match d with
    | .iconst _ _ | .bconst _ _ | .f32const _ | .f64const _
    | .iadd _ _ _ | .isub _ _ _ => ∃ x, flow = .assign [x]
    | .brnz _ _ => (∃ b, flow = .continueAt b) ∨ flow = .continueFlow
    | .jump dest _ => flow = .continueAt dest
    | .fallthrough dest _ => flow = .continueAt dest
    | .brTable _ | .indirectJumpTableBr _ | .load _ _ => False
    | .ret _ => flow = .returnFlow
    | .nop => flow = .continueFlow := by
  cases d <;> simp only [finterpretData] at h
  case iconst ty imm =>
    match hc : dvFromImm imm ty with
    | none => rw [hc] at h; simp at h
    | some c => rw [hc] at h; simp at h; exact ⟨_, h.symm⟩
  case bconst ty imm =>
    by_cases hb : ty.isBool = true <;> simp [hb] at h
    exact ⟨_, h.symm⟩
  case f32const bits => simp at h; exact ⟨_, h.symm⟩
  case f64const bits => simp at h; exact ⟨_, h.symm⟩
  case iadd ty a b =>
    match ha : valuesGet env a with
    | none => rw [ha] at h; simp at h
    | some va =>
      rw [ha] at h
      simp only [Option.bind_eq_bind, Option.some_bind] at h
      match hb : valuesGet env b with
      | none => rw [hb] at h; simp at h
      | some vb =>
        rw [hb] at h
        simp only [Option.bind_eq_bind, Option.some_bind] at h
        match hr : latBinary DataValue.addDv va vb with
        | none => rw [hr] at h; simp at h
        | some r => rw [hr] at h; simp at h; exact ⟨_, h.symm⟩
  case isub ty a b =>
    match ha : valuesGet env a with
    | none => rw [ha] at h; simp at h
    | some va =>
      rw [ha] at h
      simp only [Option.bind_eq_bind, Option.some_bind] at h
      match hb : valuesGet env b with
      | none => rw [hb] at h; simp at h
      | some vb =>
        rw [hb] at h
        simp only [Option.bind_eq_bind, Option.some_bind] at h
        match hr : latBinary DataValue.subDv va vb with
        | none => rw [hr] at h; simp at h
        | some r => rw [hr] at h; simp at h; exact ⟨_, h.symm⟩
  case brnz args dest =>
    match hc : args.head? with
    | none => rw [hc] at h; simp at h
    | some c =>
      rw [hc] at h
      simp only [Option.bind_eq_bind, Option.some_bind] at h
      match hv : valuesGet env c with
      | none => rw [hv] at h; simp at h
      | some vc =>
        rw [hv] at h
        simp only [Option.bind_eq_bind, Option.some_bind] at h
        match vc with
        | .constant (.B true) => simp at h; exact Or.inl ⟨dest, h.symm⟩
        | .constant (.B false) => simp at h; exact Or.inr h.symm
        | .top => simp at h
        | .bottom => simp at h
        | .constant (.I8 _) | .constant (.I16 _) | .constant (.I32 _)
        | .constant (.I64 _) | .constant (.F32 _) | .constant (.F64 _)
        | .constant (.V128 _) => simp at h
  case jump dest args => simp at h; exact h.symm
  case fallthrough dest args => simp at h; exact h.symm
  case brTable arg => simp at h
  case indirectJumpTableBr arg => simp at h
  case load ty arg => simp at h
  case ret args => simp at h; exact h.symm
  case nop => simp at h; exact h.symm

/-- A `ContinueAt` outcome comes from a `brnz`, `jump` or `fallthrough`. -/
theorem finterpret_continueAt_cases {f : FFunc} {i : FInstId}
    {env : List LatticeValue} {b : BlockId}
    (h : finterpret f i env = some (.continueAt b)) :
    ∃ inst, f.insts.get? i = some inst ∧
      ((∃ args dest, inst.data = .brnz args dest) ∨
       (∃ dest args, inst.data = .jump dest args) ∨
       (∃ dest args, inst.data = .fallthrough dest args)) := by
  unfold finterpret at h
  match hi : f.insts.get? i with
  | none => rw [hi] at h; simp at h
  | some inst =>
    rw [hi] at h
    simp only [Option.some_bind] at h
    refine ⟨inst, rfl, ?_⟩
    cases hd : inst.data <;> rw [hd] at h <;> have hk := finterpretData_kind h <;>
      simp at hk
    case brnz args dest => exact Or.inl ⟨args, dest, rfl⟩
    case jump dest args => exact Or.inr (Or.inl ⟨dest, args, rfl⟩)
    case fallthrough dest args => exact Or.inr (Or.inr ⟨dest, args, rfl⟩)

/-- A `Continue` outcome comes from a `brnz` or a `nop`; in particular the
only branch opcode that can yield `Continue` is `brnz`. -/
theorem finterpret_continueFlow_cases {f : FFunc} {i : FInstId}
    {env : List LatticeValue}
    (h : finterpret f i env = some .continueFlow) :
    ∃ inst, f.insts.get? i = some inst ∧
      ((∃ args dest, inst.data = .brnz args dest) ∨ inst.data = .nop) := by
  unfold finterpret at h
  match hi : f.insts.get? i with
  | none => rw [hi] at h; simp at h
  | some inst =>
    rw [hi] at h
    simp only [Option.some_bind] at h
    refine ⟨inst, rfl, ?_⟩
    cases hd : inst.data <;> rw [hd] at h <;> have hk := finterpretData_kind h <;>
      simp at hk
    case brnz args dest => exact Or.inl ⟨args, dest, rfl⟩
    case nop => exact Or.inr rfl

/-! ### Order and table helper lemmas -/

theorem latLeB_bottom (x : LatticeValue) : latLeB .bottom x :=
  Or.inl (latLe_bottom x)

theorem latLe_of_latLeB_not_beq {x y : LatticeValue} (h : latLeB x y)
    (hne : latBeq x y = false) : latLe x y := by
  rcases h with h | h
  · exact h
  · rw [h] at hne; cases hne

theorem valuesGet_set_eq {vals : List LatticeValue} {r : VRef}
    (hr : r < vals.length) (nv : LatticeValue) :
    valuesGet (valuesSet vals r nv) r = some nv := by
  unfold valuesGet valuesSet
  rw [List.get?_eq_getElem?, List.getElem?_set_eq_of_lt _ hr]

theorem valuesGet_set_ne {vals : List LatticeValue} {q r : VRef} (h : q ≠ r)
    (nv : LatticeValue) :
    valuesGet (valuesSet vals r nv) q = valuesGet vals q := by
  unfold valuesGet valuesSet
  rw [List.get?_eq_getElem?, List.getElem?_set_ne (fun e => h e.symm),
    ← List.get?_eq_getElem?]

/-- The symbolic step only reads the instruction list of the function. -/
theorem finterpret_insts_eq {f g : FFunc} (h : g.insts = f.insts)
    (i : FInstId) (env : List LatticeValue) :
    finterpret g i env = finterpret f i env := by
  unfold finterpret
  rw [h]

/-- Monotonicity with a Bottom escape of the symbolic step in the value
table: over a dropped table, a defined `Assign` is Bottom or sits below an
`Assign` the original table already produced. -/
theorem finterpret_evolve {f : FFunc} {i : FInstId} {old new : List LatticeValue}
    (hev : valuesEvolve old new) {x' : LatticeValue}
    (h : finterpret f i new = some (.assign [x'])) :
    x' = .bottom ∨ ∃ x, finterpret f i old = some (.assign [x]) ∧ latLeB x' x := by
  obtain ⟨inst, hi, hc⟩ := finterpret_assign_cases h
  rcases hc with ⟨ty, imm, c, hd, hcc, hv⟩ | ⟨ty, imm, hd, hb, hv⟩ | ⟨bits, hd, hv⟩ |
    ⟨bits, hd, hv⟩ | ⟨ty, a, b, va', vb', r', hd, ha, hb, hr, hv⟩ |
    ⟨ty, a, b, va', vb', r', hd, ha, hb, hr, hv⟩
  · injection hv with h1 _
    refine Or.inr ⟨x', ?_, latLeB_refl _⟩
    unfold finterpret
    rw [hi]
    simp only [Option.some_bind, hd, finterpretData, hcc, Option.map_some', h1]
  · injection hv with h1 _
    refine Or.inr ⟨x', ?_, latLeB_refl _⟩
    unfold finterpret
    rw [hi]
    simp only [Option.some_bind, hd, finterpretData, hb, if_true, h1]
  · injection hv with h1 _
    refine Or.inr ⟨x', ?_, latLeB_refl _⟩
    unfold finterpret
    rw [hi]
    simp only [Option.some_bind, hd, finterpretData, h1]
  · injection hv with h1 _
    refine Or.inr ⟨x', ?_, latLeB_refl _⟩
    unfold finterpret
    rw [hi]
    simp only [Option.some_bind, hd, finterpretData, h1]
  · injection hv with h1 _
    subst h1
    obtain ⟨va, hva, hlea⟩ := valuesEvolve_get_rev hev ha
    obtain ⟨vb, hvb, hleb⟩ := valuesEvolve_get_rev hev hb
    rcases latBinary_evolve hlea hleb hr with hbot | ⟨r, hrold, hle⟩
    · exact Or.inl hbot
    · refine Or.inr ⟨r, ?_, hle⟩
      unfold finterpret
      rw [hi]
      simp only [Option.some_bind, hd, finterpretData, Option.bind_eq_bind]
      have hva2 : valuesGet old a = some va := hva
      have hvb2 : valuesGet old b = some vb := hvb
      rw [hva2]
      simp only [Option.some_bind]
      rw [hvb2]
      simp only [Option.some_bind]
      rw [hrold]
      simp only [Option.some_bind]
      rfl
  · injection hv with h1 _
    subst h1
    obtain ⟨va, hva, hlea⟩ := valuesEvolve_get_rev hev ha
    obtain ⟨vb, hvb, hleb⟩ := valuesEvolve_get_rev hev hb
    rcases latBinary_evolve hlea hleb hr with hbot | ⟨r, hrold, hle⟩
    · exact Or.inl hbot
    · refine Or.inr ⟨r, ?_, hle⟩
      unfold finterpret
      rw [hi]
      simp only [Option.some_bind, hd, finterpretData, Option.bind_eq_bind]
      have hva2 : valuesGet old a = some va := hva
      have hvb2 : valuesGet old b = some vb := hvb
      rw [hva2]
      simp only [Option.some_bind]
      rw [hvb2]
      simp only [Option.some_bind]
      rw [hrold]
      simp only [Option.some_bind]
      rfl

/-- An integer-typed, well-typed constant is an integer `DataValue`. -/
theorem dvTyped_int_isInt {c : DataValue} {ty : FTy} (hty : ty.isInt = true)
    (h : dvTyped c ty = true) : c.isInt = true := by
  cases c <;> cases ty <;> simp_all [dvTyped, FTy.isInt, FTy.isBool, DataValue.isInt]

/-- Shape of a successful `replace_inst`: the instruction is overwritten in
place, its result list kept, by a constant instruction matching the
materialized `DataValue`. -/
theorem replaceInst_shape {f : FFunc} {i : FInstId} {c : DataValue} {f' : FFunc}
    (h : replaceInst f i c = some f') :
    ∃ inst d', f.insts.get? i = some inst ∧
      f' = { f with insts := f.insts.set i ⟨d', inst.results⟩ } ∧
      ((∃ tv iv, inst.data.ctrlTypevar = some tv ∧ c.intoInt = some iv ∧
          c.isInt = true ∧ d' = .iconst tv iv) ∨
       (∃ bits, c = .F32 bits ∧ d' = .f32const bits) ∨
       (∃ bits, c = .F64 bits ∧ d' = .f64const bits) ∨
       (∃ tv bv, inst.data.ctrlTypevar = some tv ∧ c = .B bv ∧
          d' = .bconst tv bv)) := by
  unfold replaceInst at h
  match hi : f.insts.get? i with
  | none => rw [hi] at h; simp at h
  | some inst =>
    rw [hi] at h
    simp only [Option.bind_eq_bind, Option.some_bind] at h
    by_cases hc : c.isInt = true
    · rw [if_pos hc] at h
      match htv : inst.data.ctrlTypevar with
      | none => rw [htv] at h; simp at h
      | some tv =>
        rw [htv] at h
        simp only [Option.bind_eq_bind, Option.some_bind] at h
        match hii : c.intoInt with
        | none => rw [hii] at h; simp at h
        | some iv =>
          rw [hii] at h
          simp only [Option.bind_eq_bind, Option.some_bind] at h
          cases h
          exact ⟨inst, .iconst tv iv, rfl, rfl,
            Or.inl ⟨tv, iv, htv, rfl, hc, rfl⟩⟩
    · rw [if_neg hc] at h
      match c with
      | .F32 bits =>
        cases h
        exact ⟨inst, .f32const bits, rfl, rfl, Or.inr (Or.inl ⟨bits, rfl, rfl⟩)⟩
      | .F64 bits =>
        cases h
        exact ⟨inst, .f64const bits, rfl, rfl,
          Or.inr (Or.inr (Or.inl ⟨bits, rfl, rfl⟩))⟩
      | .B bv =>
        match htv : inst.data.ctrlTypevar with
        | none => rw [htv] at h; simp at h
        | some tv =>
          rw [htv] at h
          simp only [Option.bind_eq_bind, Option.some_bind] at h
          cases h
          exact ⟨inst, .bconst tv bv, rfl, rfl,
            Or.inr (Or.inr (Or.inr ⟨tv, bv, htv, rfl, rfl⟩))⟩
      | .I8 _ | .I16 _ | .I32 _ | .I64 _ => simp [DataValue.isInt] at hc
      | .V128 _ => simp at h

/-- `FoldWF` only reads the instruction list. -/
theorem FoldWF_insts_eq {Γ : VRef → FTy} {inputs : List (VRef × List VRef)}
    {f g : FFunc} (hwf : FoldWF Γ inputs f) (h : g.insts = f.insts) :
    FoldWF Γ inputs g := by
  constructor
  · intro i j insti instj r hi hj hri hrj
    rw [h] at hi hj
    exact hwf.ssaUnique i j insti instj r hi hj hri hrj
  · intro p l hp i inst hi
    rw [h] at hi
    exact hwf.paramNotResult p l hp i inst hi
  · intro i inst hi
    rw [h] at hi
    exact hwf.typed i inst hi

/-- `FoldWF` is preserved by overwriting one instruction with a well-typed
instruction that keeps the result list. -/
theorem FoldWF_set {Γ : VRef → FTy} {inputs : List (VRef × List VRef)}
    {f : FFunc} (hwf : FoldWF Γ inputs f) {i : FInstId} {inst : FInst}
    (hi : f.insts.get? i = some inst) {d' : FInstData}
    (hty : InstTyped Γ ⟨d', inst.results⟩) :
    FoldWF Γ inputs { f with insts := f.insts.set i ⟨d', inst.results⟩ } := by
  have hlen : i < f.insts.length := by
    have := List.get?_eq_some.mp hi
    exact this.1
  have hget : ∀ j, (f.insts.set i ⟨d', inst.results⟩).get? j =
      if j = i then some ⟨d', inst.results⟩ else f.insts.get? j := by
    intro j
    by_cases hj : j = i
    · subst hj
      rw [if_pos rfl, List.get?_eq_getElem?, List.getElem?_set_eq_of_lt _ hlen]
    · rw [if_neg hj, List.get?_eq_getElem?, List.getElem?_set_ne (fun e => hj e.symm),
        ← List.get?_eq_getElem?]
  constructor
  · intro a b insta instb r ha hb hra hrb
    rw [hget] at ha hb
    by_cases hai : a = i <;> by_cases hbi : b = i
    · rw [hai, hbi]
    · rw [if_pos hai] at ha
      rw [if_neg hbi] at hb
      cases ha
      exact absurd (hwf.ssaUnique i b inst instb r hi hb hra hrb).symm hbi
    · rw [if_neg hai] at ha
      rw [if_pos hbi] at hb
      cases hb
      exact absurd (hwf.ssaUnique a i insta inst r ha hi hra hrb) hai
    · rw [if_neg hai] at ha
      rw [if_neg hbi] at hb
      exact hwf.ssaUnique a b insta instb r ha hb hra hrb
  · intro p l hp j instj hj
    rw [hget] at hj
    by_cases hji : j = i
    · rw [if_pos hji] at hj
      cases hj
      exact hwf.paramNotResult p l hp i inst hi
    · rw [if_neg hji] at hj
      exact hwf.paramNotResult p l hp j instj hj
  · intro j instj hj
    rw [hget] at hj
    by_cases hji : j = i
    · rw [if_pos hji] at hj
      cases hj
      exact hty
    · rw [if_neg hji] at hj
      exact hwf.typed j instj hj

theorem dvTyped_f32 {b : Nat} {ty : FTy} (h : dvTyped (.F32 b) ty = true) :
    ty = .f32 := by
  cases ty <;> simp_all [dvTyped]

theorem dvTyped_f64 {b : Nat} {ty : FTy} (h : dvTyped (.F64 b) ty = true) :
    ty = .f64 := by
  cases ty <;> simp_all [dvTyped]

theorem dvTyped_isInt_ty {c : DataValue} {ty : FTy} (hc : c.isInt = true)
    (h : dvTyped c ty = true) : ty.isInt = true := by
  cases c <;> cases ty <;> simp_all [dvTyped, FTy.isInt, DataValue.isInt]

/-- Typing of a single `Assign` outcome: the instruction has exactly one
result, the result's type is the controlling type variable, and a constant
outcome is well-formed and typed at the result's type. -/
theorem assign_result_typed {Γ : VRef → FTy} {f : FFunc} {i : FInstId}
    {env : List LatticeValue} {x : LatticeValue} {inst : FInst}
    (hins : f.insts.get? i = some inst) (hty : InstTyped Γ inst)
    (htvals : ∀ v d, valuesGet env v = some (.constant d) →
      dvWf d ∧ dvTyped d (Γ v) = true)
    (hfi : finterpret f i env = some (.assign [x])) :
    ∃ r, inst.results = [r] ∧
      (∀ tv, inst.data.ctrlTypevar = some tv → Γ r = tv) ∧
      ∀ d, x = .constant d → dvWf d ∧ dvTyped d (Γ r) = true := by
  obtain ⟨inst', hins', hc⟩ := finterpret_assign_cases hfi
  rw [hins] at hins'
  injection hins' with he
  subst he
  rcases hc with ⟨ty, imm, c, hd, hcc, hv⟩ | ⟨ty, imm, hd, hbo, hv⟩ | ⟨bits, hd, hv⟩ |
    ⟨bits, hd, hv⟩ | ⟨ty, a, b, va, vb, rr, hd, ha, hb, hr, hv⟩ |
    ⟨ty, a, b, va, vb, rr, hd, ha, hb, hr, hv⟩
  · unfold InstTyped at hty
    rw [hd] at hty
    obtain ⟨hint, r, hres, hg⟩ := hty
    injection hv with hx _
    refine ⟨r, hres, ?_, ?_⟩
    · intro tv htv
      rw [hd] at htv
      injection htv with he2
      rw [hg, he2]
    · intro d hxd
      rw [hxd] at hx
      injection hx with he3
      obtain ⟨hw, ht⟩ := dvFromImm_typed hcc
      rw [← he3] at ht hw
      exact ⟨hw, by rw [hg]; exact ht⟩
  · unfold InstTyped at hty
    rw [hd] at hty
    obtain ⟨hbool, r, hres, hg⟩ := hty
    injection hv with hx _
    refine ⟨r, hres, ?_, ?_⟩
    · intro tv htv
      rw [hd] at htv
      injection htv with he2
      rw [hg, he2]
    · intro d hxd
      rw [hxd] at hx
      injection hx with he3
      subst he3
      refine ⟨trivial, ?_⟩
      rw [hg]
      simpa [dvTyped] using hbool
  · unfold InstTyped at hty
    rw [hd] at hty
    obtain ⟨r, hres, hg⟩ := hty
    injection hv with hx _
    refine ⟨r, hres, ?_, ?_⟩
    · intro tv htv
      rw [hd] at htv
      injection htv with he2
      rw [hg, he2]
    · intro d hxd
      rw [hxd] at hx
      injection hx with he3
      subst he3
      exact ⟨trivial, by rw [hg]; rfl⟩
  · unfold InstTyped at hty
    rw [hd] at hty
    obtain ⟨r, hres, hg⟩ := hty
    injection hv with hx _
    refine ⟨r, hres, ?_, ?_⟩
    · intro tv htv
      rw [hd] at htv
      injection htv with he2
      rw [hg, he2]
    · intro d hxd
      rw [hxd] at hx
      injection hx with he3
      subst he3
      exact ⟨trivial, by rw [hg]; rfl⟩
  · unfold InstTyped at hty
    rw [hd] at hty
    obtain ⟨hint, hga, hgb, r, hres, hg⟩ := hty
    injection hv with hx _
    refine ⟨r, hres, ?_, ?_⟩
    · intro tv htv
      rw [hd] at htv
      injection htv with he2
      rw [hg, he2]
    · intro d hxd
      rw [hxd] at hx
      rw [← hx] at hr
      obtain ⟨da, db, hva, hvb, hop⟩ := latBinary_const_inv hr
      rw [hva] at ha
      obtain ⟨hwa, hta⟩ := htvals a da ha
      rw [hga] at hta
      obtain ⟨hw, ht⟩ := addDv_typed hop hta
      exact ⟨hw, by rw [hg]; exact ht⟩
  · unfold InstTyped at hty
    rw [hd] at hty
    obtain ⟨hint, hga, hgb, r, hres, hg⟩ := hty
    injection hv with hx _
    refine ⟨r, hres, ?_, ?_⟩
    · intro tv htv
      rw [hd] at htv
      injection htv with he2
      rw [hg, he2]
    · intro d hxd
      rw [hxd] at hx
      rw [← hx] at hr
      obtain ⟨da, db, hva, hvb, hop⟩ := latBinary_const_inv hr
      rw [hva] at ha
      obtain ⟨hwa, hta⟩ := htvals a da ha
      rw [hga] at hta
      obtain ⟨hw, ht⟩ := subDv_typed hop hta
      exact ⟨hw, by rw [hg]; exact ht⟩

/-- Generic `List.set` lookup lemmas used for instruction overwrites. -/
theorem list_set_get_eq {α : Type} {l : List α} {i : Nat} (hi : i < l.length)
    (e : α) : (l.set i e).get? i = some e := by
  rw [List.get?_eq_getElem?, List.getElem?_set_eq_of_lt _ hi]

theorem list_set_get_ne {α : Type} {l : List α} {i j : Nat} (h : j ≠ i)
    (e : α) : (l.set i e).get? j = l.get? j := by
  rw [List.get?_eq_getElem?, List.getElem?_set_ne (fun e2 => h e2.symm),
    ← List.get?_eq_getElem?]

/-- After a successful `replace_inst`, the rewritten instruction
symbolically evaluates to the materialized constant under any value
table. -/
theorem replaceInst_interp {f : FFunc} {i : FInstId} {c : DataValue} {f' : FFunc}
    (hrep : replaceInst f i c = some f') (hw : dvWf c)
    {inst : FInst} (hins : f.insts.get? i = some inst)
    (hty : ∀ tv, inst.data.ctrlTypevar = some tv → dvTyped c tv = true) :
    ∀ env, finterpret f' i env = some (.assign [.constant c]) := by
  obtain ⟨inst0, d', hins0, hfeq, hshape⟩ := replaceInst_shape hrep
  rw [hins] at hins0
  injection hins0 with he
  subst he
  have hlen : i < f.insts.length := (List.get?_eq_some.mp hins).1
  have hget : f'.insts.get? i = some ⟨d', inst.results⟩ := by
    rw [hfeq]
    exact list_set_get_eq hlen _
  intro env
  unfold finterpret
  rw [hget]
  simp only [Option.some_bind]
  rcases hshape with ⟨tv, iv, htv, hii, hci, hde⟩ | ⟨bits, hce, hde⟩ |
    ⟨bits, hce, hde⟩ | ⟨tv, bv, htv, hce, hde⟩
  · subst hde
    obtain ⟨iv2, hii2, hback⟩ :=
      replace_roundtrip (hty tv htv) hw hci
    rw [hii] at hii2
    injection hii2 with he2
    subst he2
    simp only [finterpretData, hback, Option.map_some']
  · subst hde
    subst hce
    rfl
  · subst hde
    subst hce
    rfl
  · subst hde
    subst hce
    have hb : tv.isBool = true := hty tv htv
    simp only [finterpretData, hb, if_true]

/-- Preservation of the per-instruction lattice bound under a rewrite of
one instruction together with a downward move of the value table, provided
the rewritten function's own step is bounded and only the rewritten
instruction's results changed in the table. -/
theorem instLe_preserved {f f2 : FFunc} {vals vals2 : List LatticeValue}
    {instId : FInstId} {inst0 : FInst}
    (hins0 : f.insts.get? instId = some inst0)
    (hIL : ∀ i inst r, f.insts.get? i = some inst → r ∈ inst.results →
      ∀ x prev, finterpret f i vals = some (.assign [x]) →
      valuesGet vals r = some prev → latLeB x prev)
    (hUniq : ∀ i j insti instj r, f.insts.get? i = some insti →
      f.insts.get? j = some instj → r ∈ insti.results → r ∈ instj.results → i = j)
    (hB : ∀ j, j ≠ instId → f2.insts.get? j = f.insts.get? j)
    (hev : valuesEvolve vals vals2)
    (hC : ∀ v, v ∉ inst0.results → valuesGet vals2 v = valuesGet vals v)
    (hE : ∀ inst2, f2.insts.get? instId = some inst2 →
      inst2.results = inst0.results)
    (hD : ∀ x, finterpret f2 instId vals2 = some (.assign [x]) →
      ∀ r prev2, r ∈ inst0.results → valuesGet vals2 r = some prev2 →
      latLeB x prev2) :
    ∀ j inst2 r2, f2.insts.get? j = some inst2 → r2 ∈ inst2.results →
      ∀ x2 prev2, finterpret f2 j vals2 = some (.assign [x2]) →
      valuesGet vals2 r2 = some prev2 → latLeB x2 prev2 := by
  intro j inst2 r2 hj hr2 x2 prev2 hfi2 hprev2
  by_cases hji : j = instId
  · subst hji
    exact hD x2 hfi2 r2 prev2 (by rw [← hE inst2 hj]; exact hr2) hprev2
  · have hj0 : f.insts.get? j = some inst2 := by rw [← hB j hji]; exact hj
    rw [finterpret_congr vals2 ((hB j hji).symm ▸ rfl : f2.insts.get? j = f.insts.get? j)] at hfi2
    rcases finterpret_evolve hev hfi2 with hbot | ⟨x0, hfi0, hle0⟩
    · rw [hbot]
      exact latLeB_bottom prev2
    · have hr2ne : r2 ∉ inst0.results := by
        intro hmem
        exact hji (hUniq j instId inst2 inst0 r2 hj0 hins0 hr2 hmem)
      have hprev2o : valuesGet vals r2 = some prev2 := by
        rw [← hC r2 hr2ne]; exact hprev2
      exact latLeB_trans hle0 (hIL j inst2 r2 hj0 hr2 x0 prev2 hfi0 hprev2o)

/-- Preservation of the block-parameter lattice bound under a downward move
of the value table that leaves every parameter's own entry unchanged. -/
theorem paramLe_preserved {inputs : List (VRef × List VRef)}
    {vals vals2 : List LatticeValue}
    (hPL : ∀ p ins, lookupList inputs p = some ins → ∀ folded prev,
      foldMeet ins vals = some folded → valuesGet vals p = some prev →
      latLeB folded prev)
    (hev : valuesEvolve vals vals2)
    (hparams : ∀ p ins, lookupList inputs p = some ins →
      valuesGet vals2 p = valuesGet vals p) :
    ∀ p ins, lookupList inputs p = some ins → ∀ folded prev,
      foldMeet ins vals2 = some folded → valuesGet vals2 p = some prev →
      latLeB folded prev := by
  intro p ins hp folded prev hfold hprev
  rw [hparams p ins hp] at hprev
  obtain ⟨fo, hfo, hle⟩ := foldMeet_evolve_rev hev hfold
  exact latLeB_trans hle (hPL p ins hp fo prev hfo hprev)

/-- The loop invariant of `fold_constants`: the function stays well-formed,
constants in the table are well-typed, every block parameter's recorded
value dominates the meet of its inputs, and every recorded result value
dominates what its defining instruction currently evaluates to. -/
structure FoldInv (Γ : VRef → FTy) (inputs : List (VRef × List VRef))
    (s : FoldState) : Prop where
  wf : FoldWF Γ inputs s.func
  typedVals : ∀ v d, valuesGet s.values v = some (.constant d) →
      dvWf d ∧ dvTyped d (Γ v) = true
  paramLe : ∀ p ins, lookupList inputs p = some ins → ∀ folded prev,
      foldMeet ins s.values = some folded → valuesGet s.values p = some prev →
      latLeB folded prev
  instLe : ∀ i inst r, s.func.insts.get? i = some inst → r ∈ inst.results →
      ∀ x prev, finterpret s.func i s.values = some (.assign [x]) →
      valuesGet s.values r = some prev → latLeB x prev

/-- `FoldInv` only reads the instruction list and the value table. -/
theorem FoldInv_blocks {Γ : VRef → FTy} {inputs : List (VRef × List VRef)}
    {s s' : FoldState} (h : FoldInv Γ inputs s)
    (hf : s'.func.insts = s.func.insts) (hv : s'.values = s.values) :
    FoldInv Γ inputs s' := by
  refine ⟨FoldWF_insts_eq h.wf hf, ?_, ?_, ?_⟩
  · intro v d hvd
    rw [hv] at hvd
    exact h.typedVals v d hvd
  · intro p ins hp folded prev hfold hprev
    rw [hv] at hfold hprev
    exact h.paramLe p ins hp folded prev hfold hprev
  · intro i inst r hi hr x prev hfi hprev
    rw [hf] at hi
    rw [hv] at hprev
    rw [finterpret_insts_eq hf, hv] at hfi
    exact h.instLe i inst r hi hr x prev hfi hprev

/-- A successful `replace_inst` of a well-typed constant keeps the function
well-formed, leaves other instructions unchanged and keeps the result
list. -/
theorem replace_wf {Γ : VRef → FTy} {inputs : List (VRef × List VRef)}
    {f : FFunc} {instId : FInstId} {c : DataValue} {f' : FFunc} {inst : FInst}
    {r : VRef} (hwf : FoldWF Γ inputs f)
    (hrep : replaceInst f instId c = some f')
    (hins : f.insts.get? instId = some inst)
    (hres : inst.results = [r])
    (hw : dvWf c) (ht : dvTyped c (Γ r) = true)
    (hctrl : ∀ tv, inst.data.ctrlTypevar = some tv → Γ r = tv) :
    FoldWF Γ inputs f' ∧ (∀ j, j ≠ instId → f'.insts.get? j = f.insts.get? j) ∧
      ∀ inst2, f'.insts.get? instId = some inst2 →
        inst2.results = inst.results := by
  obtain ⟨inst0, d', hins0, hfeq, hshape⟩ := replaceInst_shape hrep
  rw [hins] at hins0
  injection hins0 with he
  subst he
  have hlen : instId < f.insts.length := (List.get?_eq_some.mp hins).1
  have hty' : InstTyped Γ ⟨d', inst.results⟩ := by
    rcases hshape with ⟨tv, iv, htv, hii, hci, hde⟩ | ⟨bits, hce, hde⟩ |
      ⟨bits, hce, hde⟩ | ⟨tv, bv, htv, hce, hde⟩
    · subst hde
      have hgr : Γ r = tv := hctrl tv htv
      have htc : dvTyped c tv = true := by rw [← hgr]; exact ht
      exact ⟨dvTyped_isInt_ty hci htc, r, hres, hgr⟩
    · subst hde
      subst hce
      exact ⟨r, hres, dvTyped_f32 ht⟩
    · subst hde
      subst hce
      exact ⟨r, hres, dvTyped_f64 ht⟩
    · subst hde
      subst hce
      have hgr : Γ r = tv := hctrl tv htv
      have hb : tv.isBool = true := by rw [← hgr]; exact ht
      exact ⟨hb, r, hres, hgr⟩
  subst hfeq
  refine ⟨FoldWF_set hwf hins hty', ?_, ?_⟩
  · intro j hj
    exact list_set_get_ne hj _
  · intro inst2 h2
    rw [show (({ f with insts := f.insts.set instId ⟨d', inst.results⟩ } :
      FFunc)).insts.get? instId = some ⟨d', inst.results⟩ from
      list_set_get_eq hlen _] at h2
    injection h2 with he2
    rw [← he2]

/-- Overwriting one instruction with a well-typed instruction that never
assigns (a `jump` or a `nop`) preserves the invariant, for any worklist. -/
theorem rewrite_inst_inv {Γ : VRef → FTy} {inputs : List (VRef × List VRef)}
    {s : FoldState} (hinv : FoldInv Γ inputs s) {instId : FInstId}
    {inst : FInst} {d' : FInstData}
    (hins : s.func.insts.get? instId = some inst)
    (hty' : InstTyped Γ ⟨d', inst.results⟩)
    (hnoassign : ∀ env vs, finterpretData d' env ≠ some (.assign vs))
    (wl : List VRef) :
    FoldInv Γ inputs
      ⟨{ s.func with insts := s.func.insts.set instId ⟨d', inst.results⟩ },
        s.values, wl⟩ := by
  have hlen : instId < s.func.insts.length := (List.get?_eq_some.mp hins).1
  refine ⟨FoldWF_set hinv.wf hins hty', hinv.typedVals, hinv.paramLe, ?_⟩
  refine instLe_preserved hins hinv.instLe hinv.wf.ssaUnique ?_
    (valuesEvolve_refl _) (fun v _ => rfl) ?_ ?_
  · intro j hj
    exact list_set_get_ne hj _
  · intro inst2 h2
    rw [show (s.func.insts.set instId ⟨d', inst.results⟩).get? instId =
      some ⟨d', inst.results⟩ from list_set_get_eq hlen _] at h2
    injection h2 with he2
    rw [← he2]
  · intro x hfi2 r prev2 hr hprev2
    exfalso
    unfold finterpret at hfi2
    rw [show (s.func.insts.set instId ⟨d', inst.results⟩).get? instId =
      some ⟨d', inst.results⟩ from list_set_get_eq hlen _] at hfi2
    simp only [Option.some_bind] at hfi2
    exact hnoassign s.values [x] hfi2

/-- The pure value-table update of an `Assign` whose value is not a
constant: the table moves down at the single result and the invariant is
preserved, for any worklist. -/
theorem assign_noreplace_inv {Γ : VRef → FTy} {inputs : List (VRef × List VRef)}
    {s : FoldState} (hinv : FoldInv Γ inputs s) {instId : FInstId}
    {x : LatticeValue} {inst : FInst} {r : VRef} {prev : LatticeValue}
    (hfi : finterpret s.func instId s.values = some (.assign [x]))
    (hins : s.func.insts.get? instId = some inst)
    (hres : inst.results = [r])
    (hprev : valuesGet s.values r = some prev)
    (hbq : latBeq prev x = false)
    (hnc : ∀ d, x ≠ .constant d) (wl : List VRef) :
    valuesEvolve s.values (valuesSet s.values r x) ∧
      FoldInv Γ inputs ⟨s.func, valuesSet s.values r x, wl⟩ := by
  have hmem : r ∈ inst.results := by
    rw [hres]
    exact List.mem_singleton.mpr rfl
  have hxle : latLeB x prev := hinv.instLe instId inst r hins hmem x prev hfi hprev
  have hble : latBeq x prev = false := by rw [latBeq_symm]; exact hbq
  have hle : latLe x prev := latLe_of_latLeB_not_beq hxle hble
  have hlt : r < s.values.length := (List.get?_eq_some.mp hprev).1
  have hev : valuesEvolve s.values (valuesSet s.values r x) :=
    valuesEvolve_set hprev hle
  refine ⟨hev, hinv.wf, ?_, ?_, ?_⟩
  · intro v d hvd
    by_cases hvr : v = r
    · subst hvr
      rw [valuesGet_set_eq hlt] at hvd
      injection hvd with he
      exact absurd he (hnc d)
    · rw [valuesGet_set_ne hvr] at hvd
      exact hinv.typedVals v d hvd
  · refine paramLe_preserved hinv.paramLe hev ?_
    intro p ins hp
    have hpr : p ≠ r := by
      intro he
      exact hinv.wf.paramNotResult p ins hp instId inst hins (he ▸ hmem)
    exact valuesGet_set_ne hpr x
  · refine instLe_preserved hins hinv.instLe hinv.wf.ssaUnique
      (fun j _ => rfl) hev ?_ ?_ ?_
    · intro v hv
      have hvr : v ≠ r := by
        intro he
        exact hv (he ▸ hmem)
      exact valuesGet_set_ne hvr x
    · intro inst2 h2
      rw [hins] at h2
      injection h2 with he
      rw [← he]
    · intro x2 hfi2 r2 prev2 hr2 hprev2
      rcases finterpret_evolve hev hfi2 with hbot | ⟨x0, hfi0, hle0⟩
      · rw [hbot]
        exact latLeB_bottom prev2
      · rw [hfi] at hfi0
        injection hfi0 with he0
        injection he0 with he1
        injection he1 with he2
        have hr2r : r2 = r := by
          rw [hres] at hr2
          exact List.mem_singleton.mp hr2
        subst hr2r
        rw [valuesGet_set_eq hlt] at hprev2
        injection hprev2 with he3
        rw [← he3, he2]
        exact hle0

/-- An `Assign` of a constant that is `==`-equal to the recorded value:
the instruction is materialized but the table is unchanged; the invariant
is preserved, for any worklist. -/
theorem assign_replace_noupdate_inv {Γ : VRef → FTy}
    {inputs : List (VRef × List VRef)} {s : FoldState}
    (hinv : FoldInv Γ inputs s) {instId : FInstId} {c : DataValue} {f' : FFunc}
    {inst : FInst} {r : VRef} {prev : LatticeValue}
    (hrep : replaceInst s.func instId c = some f')
    (hins : s.func.insts.get? instId = some inst)
    (hres : inst.results = [r])
    (hprev : valuesGet s.values r = some prev)
    (hbq : latBeq prev (.constant c) = true)
    (hw : dvWf c) (ht : dvTyped c (Γ r) = true)
    (hctrl : ∀ tv, inst.data.ctrlTypevar = some tv → Γ r = tv)
    (wl : List VRef) :
    FoldInv Γ inputs ⟨f', s.values, wl⟩ := by
  obtain ⟨hwf', hB, hE⟩ := replace_wf hinv.wf hrep hins hres hw ht hctrl
  have hinterp := replaceInst_interp hrep hw hins
    (fun tv htv => by rw [← hctrl tv htv]; exact ht)
  refine ⟨hwf', hinv.typedVals, hinv.paramLe, ?_⟩
  refine instLe_preserved hins hinv.instLe hinv.wf.ssaUnique hB
    (valuesEvolve_refl _) (fun v _ => rfl)
    (fun inst2 h2 => by rw [← hE inst2 h2]) ?_
  · intro x2 hfi2 r2 prev2 hr2 hprev2
    rw [hinterp s.values] at hfi2
    injection hfi2 with he0
    injection he0 with he1
    injection he1 with he2
    have hr2r : r2 = r := by
      rw [hres] at hr2
      exact List.mem_singleton.mp hr2
    subst hr2r
    rw [hprev] at hprev2
    injection hprev2 with he3
    rw [← he2, ← he3]
    exact Or.inr (by rw [latBeq_symm]; exact hbq)

/-- An `Assign` of a constant that differs (under `==`) from the recorded
value: the instruction is materialized and the table moves down at the
single result; the invariant is preserved, for any worklist. -/
theorem assign_replace_update_inv {Γ : VRef → FTy}
    {inputs : List (VRef × List VRef)} {s : FoldState}
    (hinv : FoldInv Γ inputs s) {instId : FInstId} {c : DataValue} {f' : FFunc}
    {inst : FInst} {r : VRef} {prev : LatticeValue}
    (hfi : finterpret s.func instId s.values = some (.assign [.constant c]))
    (hrep : replaceInst s.func instId c = some f')
    (hins : s.func.insts.get? instId = some inst)
    (hres : inst.results = [r])
    (hprev : valuesGet s.values r = some prev)
    (hbq : latBeq prev (.constant c) = false)
    (hw : dvWf c) (ht : dvTyped c (Γ r) = true)
    (hctrl : ∀ tv, inst.data.ctrlTypevar = some tv → Γ r = tv)
    (wl : List VRef) :
    valuesEvolve s.values (valuesSet s.values r (.constant c)) ∧
      FoldInv Γ inputs ⟨f', valuesSet s.values r (.constant c), wl⟩ := by
  obtain ⟨hwf', hB, hE⟩ := replace_wf hinv.wf hrep hins hres hw ht hctrl
  have hinterp := replaceInst_interp hrep hw hins
    (fun tv htv => by rw [← hctrl tv htv]; exact ht)
  have hmem : r ∈ inst.results := by
    rw [hres]
    exact List.mem_singleton.mpr rfl
  have hxle : latLeB (.constant c) prev :=
    hinv.instLe instId inst r hins hmem (.constant c) prev hfi hprev
  have hble : latBeq (.constant c) prev = false := by rw [latBeq_symm]; exact hbq
  have hle : latLe (.constant c) prev := latLe_of_latLeB_not_beq hxle hble
  have hlt : r < s.values.length := (List.get?_eq_some.mp hprev).1
  have hev : valuesEvolve s.values (valuesSet s.values r (.constant c)) :=
    valuesEvolve_set hprev hle
  refine ⟨hev, hwf', ?_, ?_, ?_⟩
  · intro v d hvd
    by_cases hvr : v = r
    · subst hvr
      rw [valuesGet_set_eq hlt] at hvd
      injection hvd with he
      injection he with he1
      rw [← he1]
      exact ⟨hw, ht⟩
    · rw [valuesGet_set_ne hvr] at hvd
      exact hinv.typedVals v d hvd
  · refine paramLe_preserved hinv.paramLe hev ?_
    intro p ins hp
    have hpr : p ≠ r := by
      intro he
      exact hinv.wf.paramNotResult p ins hp instId inst hins (he ▸ hmem)
    exact valuesGet_set_ne hpr _
  · refine instLe_preserved hins hinv.instLe hinv.wf.ssaUnique hB hev ?_
      (fun inst2 h2 => by rw [← hE inst2 h2]) ?_
    · intro v hv
      have hvr : v ≠ r := by
        intro he
        exact hv (he ▸ hmem)
      exact valuesGet_set_ne hvr _
    · intro x2 hfi2 r2 prev2 hr2 hprev2
      rw [hinterp _] at hfi2
      injection hfi2 with he0
      injection he0 with he1
      injection he1 with he2
      have hr2r : r2 = r := by
        rw [hres] at hr2
        exact List.mem_singleton.mp hr2
      subst hr2r
      rw [valuesGet_set_eq hlt] at hprev2
      injection hprev2 with he3
      rw [← he2, ← he3]
      exact Or.inl (Or.inl rfl)

/-- The `match interpret(..)` arm of the worklist loop preserves the
invariant and only moves the value table downward. -/
theorem applyInterpretRewrite_inv {Γ : VRef → FTy}
    {inputs : List (VRef × List VRef)} {s s2 : FoldState}
    (hinv : FoldInv Γ inputs s) {instId : FInstId}
    (h : applyInterpretRewrite instId s = some s2) :
    valuesEvolve s.values s2.values ∧ FoldInv Γ inputs s2 := by
  unfold applyInterpretRewrite at h
  match hfi : finterpret s.func instId s.values with
  | none =>
    rw [hfi] at h
    cases h
    exact ⟨valuesEvolve_refl _, hinv⟩
  | some .returnFlow =>
    rw [hfi] at h
    cases h
    exact ⟨valuesEvolve_refl _, hinv⟩
  | some .continueFlow =>
    rw [hfi] at h
    match hins : s.func.insts.get? instId with
    | none => rw [hins] at h; simp at h
    | some inst =>
      rw [hins] at h
      simp only [Option.bind_eq_bind, Option.some_bind] at h
      by_cases hbr : inst.data.isBranch = true
      · rw [if_pos hbr] at h
        cases h
        obtain ⟨inst', hins', hcase⟩ := finterpret_continueFlow_cases hfi
        rw [hins] at hins'
        injection hins' with he
        subst he
        have htyI := hinv.wf.typed instId inst hins
        have hres0 : inst.results = [] := by
          rcases hcase with ⟨args, dest, hd⟩ | hd
          · unfold InstTyped at htyI
            rw [hd] at htyI
            exact htyI
          · unfold InstTyped at htyI
            rw [hd] at htyI
            exact htyI
        have hty' : InstTyped Γ (⟨.nop, inst.results⟩ : FInst) := by
          unfold InstTyped
          exact hres0
        exact ⟨valuesEvolve_refl _,
          rewrite_inst_inv hinv hins hty'
            (fun env vs hne => by simp [finterpretData] at hne) s.worklist⟩
      · rw [if_neg hbr] at h
        cases h
        exact ⟨valuesEvolve_refl _, hinv⟩
  | some (.continueAt block) =>
    rw [hfi] at h
    simp only [] at h
    match hpr : possiblyReplaceBranchWithJump s.func instId block with
    | none => rw [hpr] at h; simp at h
    | some pr =>
      rw [hpr] at h
      simp only [Option.map_some'] at h
      cases h
      unfold possiblyReplaceBranchWithJump at hpr
      obtain ⟨inst', hins', hcase⟩ := finterpret_continueAt_cases hfi
      rw [hins'] at hpr
      simp only [Option.bind_eq_bind, Option.some_bind] at hpr
      rcases hcase with ⟨args, dest, hd⟩ | ⟨dest, args, hd⟩ | ⟨dest, args, hd⟩
      · rw [hd] at hpr
        cases hpr
        have htyI := hinv.wf.typed instId inst' hins'
        have hres0 : inst'.results = [] := by
          unfold InstTyped at htyI
          rw [hd] at htyI
          exact htyI
        have hty' : InstTyped Γ
            (⟨.jump block (branchArguments (FInstData.brnz args dest)),
              inst'.results⟩ : FInst) := by
          unfold InstTyped
          exact hres0
        have hinv1 := rewrite_inst_inv hinv hins' hty'
          (fun env vs hne => by simp [finterpretData] at hne) s.worklist
        exact ⟨valuesEvolve_refl _, FoldInv_blocks hinv1 rfl rfl⟩
      · rw [hd] at hpr
        cases hpr
        exact ⟨valuesEvolve_refl _, hinv⟩
      · rw [hd] at hpr
        cases hpr
        exact ⟨valuesEvolve_refl _, hinv⟩
  | some (.assign resultVals) =>
    rw [hfi] at h
    simp only [] at h
    obtain ⟨x, hvs⟩ := finterpret_assign_single hfi
    subst hvs
    rw [if_pos (show ([x] : List LatticeValue).length = 1 from rfl)] at h
    simp only [List.head?_cons] at h
    cases hxc : x with
    | top =>
      subst hxc
      simp only [Option.bind_eq_bind, Option.some_bind] at h
      match hins : s.func.insts.get? instId with
      | none => rw [hins] at h; simp at h
      | some inst =>
        rw [hins] at h
        simp only [Option.some_bind] at h
        have htyI := hinv.wf.typed instId inst hins
        obtain ⟨r, hres, hctrl, htypc⟩ :=
          assign_result_typed hins htyI hinv.typedVals hfi
        rw [hres] at h
        simp only [List.zip_cons_cons, List.zip_nil_left, List.zip_nil_right,
          List.foldlM_cons, List.foldlM_nil, bind_pure, Option.bind_eq_bind,
          Option.some_bind] at h
        match hprev : valuesGet s.values r with
        | none => rw [hprev] at h; simp at h
        | some prev =>
          rw [hprev] at h
          simp only [Option.some_bind] at h
          by_cases hbq : latBeq prev .top = true
          · rw [if_pos hbq] at h
            cases h
            exact ⟨valuesEvolve_refl _, hinv⟩
          · rw [if_neg hbq] at h
            cases h
            have hbq2 : latBeq prev .top = false := by
              cases hb2 : latBeq prev .top
              · rfl
              · exact absurd hb2 hbq
            exact assign_noreplace_inv hinv hfi hins hres hprev hbq2
              (fun d hd => by cases hd) (r :: s.worklist)
    | bottom =>
      subst hxc
      simp only [Option.bind_eq_bind, Option.some_bind] at h
      match hins : s.func.insts.get? instId with
      | none => rw [hins] at h; simp at h
      | some inst =>
        rw [hins] at h
        simp only [Option.some_bind] at h
        have htyI := hinv.wf.typed instId inst hins
        obtain ⟨r, hres, hctrl, htypc⟩ :=
          assign_result_typed hins htyI hinv.typedVals hfi
        rw [hres] at h
        simp only [List.zip_cons_cons, List.zip_nil_left, List.zip_nil_right,
          List.foldlM_cons, List.foldlM_nil, bind_pure, Option.bind_eq_bind,
          Option.some_bind] at h
        match hprev : valuesGet s.values r with
        | none => rw [hprev] at h; simp at h
        | some prev =>
          rw [hprev] at h
          simp only [Option.some_bind] at h
          by_cases hbq : latBeq prev .bottom = true
          · rw [if_pos hbq] at h
            cases h
            exact ⟨valuesEvolve_refl _, hinv⟩
          · rw [if_neg hbq] at h
            cases h
            have hbq2 : latBeq prev .bottom = false := by
              cases hb2 : latBeq prev .bottom
              · rfl
              · exact absurd hb2 hbq
            exact assign_noreplace_inv hinv hfi hins hres hprev hbq2
              (fun d hd => by cases hd) (r :: s.worklist)
    | constant c =>
      subst hxc
      simp only [] at h
      match hrep : replaceInst s.func instId c with
      | none => rw [hrep] at h; simp at h
      | some f0 =>
        rw [hrep] at h
        simp only [Option.map_some', Option.bind_eq_bind, Option.some_bind] at h
        obtain ⟨inst, hins⟩ := finterpret_some_inst hfi
        have htyI := hinv.wf.typed instId inst hins
        obtain ⟨r, hres, hctrl, htypc⟩ :=
          assign_result_typed hins htyI hinv.typedVals hfi
        obtain ⟨hw, ht⟩ := htypc c rfl
        obtain ⟨inst0, d', hins0, hfeq, hshape⟩ := replaceInst_shape hrep
        rw [hins] at hins0
        injection hins0 with he
        subst he
        have hlen : instId < s.func.insts.length := (List.get?_eq_some.mp hins).1
        have hget0 : f0.insts.get? instId = some ⟨d', inst.results⟩ := by
          rw [hfeq]
          exact list_set_get_eq hlen _
        rw [hget0] at h
        simp only [Option.some_bind] at h
        rw [show (⟨d', inst.results⟩ : FInst).results = inst.results from rfl,
          hres] at h
        simp only [List.zip_cons_cons, List.zip_nil_left, List.zip_nil_right,
          List.foldlM_cons, List.foldlM_nil, bind_pure, Option.bind_eq_bind,
          Option.some_bind] at h
        match hprev : valuesGet s.values r with
        | none => rw [hprev] at h; simp at h
        | some prev =>
          rw [hprev] at h
          simp only [Option.some_bind] at h
          by_cases hbq : latBeq prev (.constant c) = true
          · rw [if_pos hbq] at h
            cases h
            exact ⟨valuesEvolve_refl _,
              assign_replace_noupdate_inv hinv hrep hins hres hprev hbq hw ht
                hctrl s.worklist⟩
          · rw [if_neg hbq] at h
            cases h
            have hbq2 : latBeq prev (.constant c) = false := by
              cases hb2 : latBeq prev (.constant c)
              · rfl
              · exact absurd hb2 hbq
            exact assign_replace_update_inv hinv hfi hrep hins hres hprev hbq2
              hw ht hctrl (r :: s.worklist)

/-- The `meet` update at a fed block parameter preserves the invariant and
moves the table downward, for any worklist. -/
theorem meet_update_inv {Γ : VRef → FTy} {inputs : List (VRef × List VRef)}
    (hin : inputsTyped Γ inputs) {s : FoldState} (hinv : FoldInv Γ inputs s)
    {p : VRef} {ins : List VRef} {previous folded : LatticeValue}
    (hins2 : lookupList inputs p = some ins)
    (hprev : valuesGet s.values p = some previous)
    (hfold : foldMeet ins s.values = some folded)
    (hbeq : latBeq folded previous = false) (wl : List VRef) :
    valuesEvolve s.values (valuesSet s.values p folded) ∧
      FoldInv Γ inputs ⟨s.func, valuesSet s.values p folded, wl⟩ := by
  have hfle : latLeB folded previous :=
    hinv.paramLe p ins hins2 folded previous hfold hprev
  have hle : latLe folded previous := latLe_of_latLeB_not_beq hfle hbeq
  have hlt : p < s.values.length := (List.get?_eq_some.mp hprev).1
  have hev : valuesEvolve s.values (valuesSet s.values p folded) :=
    valuesEvolve_set hprev hle
  refine ⟨hev, hinv.wf, ?_, ?_, ?_⟩
  · intro v d hvd
    by_cases hvp : v = p
    · subst hvp
      rw [valuesGet_set_eq hlt] at hvd
      injection hvd with he
      rw [he] at hfold
      rcases foldMeet_const_source ins s.values .top d hfold with htop | ⟨q, hq, hvq⟩
      · exact absurd htop (by simp)
      · obtain ⟨hw, ht⟩ := hinv.typedVals q d hvq
        rw [hin v ins hins2 q hq] at ht
        exact ⟨hw, ht⟩
    · rw [valuesGet_set_ne hvp] at hvd
      exact hinv.typedVals v d hvd
  · intro p2 ins2 hp2 folded2 prev2 hfold2 hprev2
    by_cases hp2p : p2 = p
    · subst hp2p
      rw [valuesGet_set_eq hlt] at hprev2
      injection hprev2 with he2
      rw [hins2] at hp2
      injection hp2 with he3
      rw [← he3] at hfold2
      obtain ⟨fn, hfn, hfnle⟩ := foldMeet_evolve hev hfold
      rw [hfold2] at hfn
      injection hfn with he4
      rw [← he2, he4]
      exact hfnle
    · rw [valuesGet_set_ne hp2p] at hprev2
      obtain ⟨fo, hfo, hfole⟩ := foldMeet_evolve_rev hev hfold2
      exact latLeB_trans hfole (hinv.paramLe p2 ins2 hp2 fo prev2 hfo hprev2)
  · intro j inst2 r2 hj hr2 x2 prev2 hfi2 hprev2
    rcases finterpret_evolve hev hfi2 with hbot | ⟨x0, hfi0, hle0⟩
    · rw [hbot]
      exact latLeB_bottom prev2
    · have hr2p : r2 ≠ p := by
        intro he
        exact hinv.wf.paramNotResult p ins hins2 j inst2 hj (he ▸ hr2)
      rw [valuesGet_set_ne hr2p] at hprev2
      exact latLeB_trans hle0 (hinv.instLe j inst2 r2 hj hr2 x0 prev2 hfi0 hprev2)

/-- One use-site visit of the worklist loop preserves the invariant and
moves the value table downward. -/
theorem processUse_inv {Γ : VRef → FTy} {inputs : List (VRef × List VRef)}
    (hin : inputsTyped Γ inputs) {s s' : FoldState}
    (hinv : FoldInv Γ inputs s) {v : VRef} {instId : FInstId}
    (h : processUse inputs v instId s = some s') :
    valuesEvolve s.values s'.values ∧ FoldInv Γ inputs s' := by
  unfold processUse at h
  match hins : s.func.insts.get? instId with
  | none => rw [hins] at h; simp at h
  | some inst =>
    rw [hins] at h
    simp only [Option.bind_eq_bind, Option.some_bind] at h
    by_cases hbr : inst.data.isBranch = true
    · rw [if_pos hbr] at h
      match hfo : findBlockParam s.func inst.data v with
      | none => rw [hfo] at h; simp at h
      | some found =>
        rw [hfo] at h
        simp only [Option.some_bind] at h
        cases found with
        | none =>
          simp only [] at h
          simp only [Option.pure_def, Option.some_bind] at h
          exact applyInterpretRewrite_inv hinv h
        | some blockName =>
          simp only [] at h
          match hch : meetChanged inputs s.values blockName with
          | none => rw [hch] at h; simp at h
          | some changed =>
            rw [hch] at h
            simp only [Option.bind_eq_bind, Option.some_bind] at h
            cases changed with
            | none =>
              simp only [] at h
              simp only [Option.pure_def, Option.some_bind] at h
              exact applyInterpretRewrite_inv hinv h
            | some folded =>
              simp only [] at h
              simp only [Option.pure_def, Option.some_bind] at h
              unfold meetChanged at hch
              match hprev : valuesGet s.values blockName with
              | none => rw [hprev] at hch; simp at hch
              | some previous =>
                rw [hprev] at hch
                simp only [Option.bind_eq_bind, Option.some_bind] at hch
                match hins2 : lookupList inputs blockName with
                | none => rw [hins2] at hch; simp at hch
                | some ins =>
                  rw [hins2] at hch
                  simp only [Option.some_bind] at hch
                  match hfold : foldMeet ins s.values with
                  | none => rw [hfold] at hch; simp at hch
                  | some folded0 =>
                    rw [hfold] at hch
                    simp only [Option.some_bind, Option.pure_def] at hch
                    by_cases hbeq : latBeq folded0 previous = true
                    · rw [if_pos hbeq] at hch
                      injection hch with hfalse
                      cases hfalse
                    · rw [if_neg hbeq] at hch
                      injection hch with he
                      injection he with he2
                      have hbeq2 : latBeq folded0 previous = false := by
                        cases hb2 : latBeq folded0 previous
                        · rfl
                        · exact absurd hb2 hbeq
                      rw [he2] at hbeq2
                      obtain ⟨hev1, hinv1⟩ := meet_update_inv hin hinv hins2
                        hprev (he2 ▸ hfold) hbeq2 (blockName :: s.worklist)
                      obtain ⟨hev2, hinv2⟩ := applyInterpretRewrite_inv hinv1 h
                      exact ⟨valuesEvolve_trans hev1 hev2, hinv2⟩
    · rw [if_neg hbr] at h
      simp only [Option.pure_def, Option.some_bind] at h
      exact applyInterpretRewrite_inv hinv h

/-- The inner `for &inst in uses.get(v)` loop preserves the invariant and
moves the value table downward. -/
theorem processUse_foldlM_inv {Γ : VRef → FTy} {inputs : List (VRef × List VRef)}
    (hin : inputsTyped Γ inputs) {v : VRef} :
    ∀ (l : List FInstId) (s s' : FoldState), FoldInv Γ inputs s →
      l.foldlM (fun acc instId => processUse inputs v instId acc) s = some s' →
      valuesEvolve s.values s'.values ∧ FoldInv Γ inputs s' := by
  intro l
  induction l with
  | nil =>
    intro s s' hinv h
    simp only [List.foldlM_nil, Option.pure_def] at h
    injection h with he
    rw [← he]
    exact ⟨valuesEvolve_refl _, hinv⟩
  | cons i rest ih =>
    intro s s' hinv h
    simp only [List.foldlM_cons, Option.bind_eq_bind] at h
    match hmid : processUse inputs v i s with
    | none => rw [hmid] at h; simp at h
    | some mid =>
      rw [hmid] at h
      simp only [Option.some_bind] at h
      obtain ⟨hev1, hinv1⟩ := processUse_inv hin hinv hmid
      obtain ⟨hev2, hinv2⟩ := ih mid s' hinv1 h
      exact ⟨valuesEvolve_trans hev1 hev2, hinv2⟩

/-- One iteration of `while let Some(v) = worklist.pop()` preserves the
loop invariant and only moves the value table downward. -/
theorem foldStep_inv {Γ : VRef → FTy} {inputs : List (VRef × List VRef)}
    {uses : List (VRef × List FInstId)} {s : FoldState} {s' : FoldState}
    (hin : inputsTyped Γ inputs) (hinv : FoldInv Γ inputs s)
    (h : foldStep uses inputs s = some (some s')) :
    valuesEvolve s.values s'.values ∧ FoldInv Γ inputs s' := by
  unfold foldStep at h
  match hwl : s.worklist with
  | [] =>
    rw [hwl] at h
    simp at h
  | v :: wl =>
    rw [hwl] at h
    simp only [] at h
    simp only [Option.map_eq_some'] at h
    obtain ⟨mid, hmid, he⟩ := h
    injection he with he2
    have hinv1 : FoldInv Γ inputs { s with worklist := wl } :=
      ⟨hinv.wf, hinv.typedVals, hinv.paramLe, hinv.instLe⟩
    obtain ⟨hev, hinv2⟩ :=
      processUse_foldlM_inv hin (usesGet uses v) { s with worklist := wl }
        mid hinv1 hmid
    rw [← he2]
    exact ⟨hev, hinv2⟩

/-- The per-name initial lattice value of `Values::setup`: `Bottom` for
results of load-class instructions, `Constant` for constants, `Top`
otherwise (`none` is the setup panic on an invalid constant type). -/
def setupValue (f : FFunc) (name : VRef) : Option LatticeValue :=
  if isValueUnknowable f name then some LatticeValue.bottom
  else
    (resolveValueToImm f name).map
      (fun r => match r with
        | some c => LatticeValue.constant c
        | none => LatticeValue.top)

theorem setup_step_eq (f : FFunc) (name : VRef) :
    (if isValueUnknowable f name then some LatticeValue.bottom
     else do
       let r ← resolveValueToImm f name
       pure (match r with
         | some c => LatticeValue.constant c
         | none => LatticeValue.top)) = setupValue f name := by
  unfold setupValue
  by_cases hunk : isValueUnknowable f name = true
  · rw [if_pos hunk, if_pos hunk]
  · rw [if_neg hunk, if_neg hunk]
    cases resolveValueToImm f name <;> rfl

/-- The loop body of `Values::setup`, named for reasoning; definitionally
equal to the lambda in `valuesSetup`. -/
def setupStep (f : FFunc) (acc : List LatticeValue × List VRef) (name : VRef) :
    Option (List LatticeValue × List VRef) := do
  let lv ←
    if isValueUnknowable f name then some LatticeValue.bottom
    else do
      let r ← resolveValueToImm f name
      pure (match r with
        | some c => LatticeValue.constant c
        | none => LatticeValue.top)
  pure (acc.1 ++ [lv], if lv ≠ LatticeValue.top then name :: acc.2 else acc.2)

theorem setupStep_char {f : FFunc} {acc : List LatticeValue × List VRef}
    {name : VRef} {acc1 : List LatticeValue × List VRef}
    (h : setupStep f acc name = some acc1) :
    ∃ lv W, setupValue f name = some lv ∧ acc1 = (acc.1 ++ [lv], W) := by
  unfold setupStep at h
  by_cases hunk : isValueUnknowable f name = true
  · rw [if_pos hunk] at h
    simp only [Option.bind_eq_bind, Option.some_bind, Option.pure_def] at h
    injection h with he
    refine ⟨.bottom, _, ?_, he.symm⟩
    unfold setupValue
    rw [if_pos hunk]
  · rw [if_neg hunk] at h
    match hres : resolveValueToImm f name with
    | none => rw [hres] at h; simp at h
    | some r =>
      rw [hres] at h
      simp only [Option.bind_eq_bind, Option.some_bind, Option.pure_def] at h
      injection h with he
      refine ⟨_, _, ?_, he.symm⟩
      unfold setupValue
      rw [if_neg hunk, hres]
      rfl

theorem valuesSetup_go (f : FFunc) :
    ∀ (n a : Nat) (accV : List LatticeValue) (accW : List VRef)
      (res : List LatticeValue × List VRef), accV.length = a →
      (List.range' a n).foldlM (setupStep f) (accV, accW) = some res →
      (∀ i x, accV.get? i = some x → res.1.get? i = some x) ∧
      res.1.length = a + n ∧
      ∀ v, a ≤ v → v < a + n → res.1.get? v = setupValue f v := by
  intro n
  induction n with
  | zero =>
    intro a accV accW res hacc h
    simp only [List.range', List.foldlM_nil, Option.pure_def] at h
    injection h with he
    rw [← he]
    exact ⟨fun i x hx => hx, by simpa using hacc, fun v hv1 hv2 => by omega⟩
  | succ n ih =>
    intro a accV accW res hacc h
    rw [List.range'_succ] at h
    simp only [List.foldlM_cons, Option.bind_eq_bind] at h
    match hstep : setupStep f (accV, accW) a with
    | none => rw [hstep] at h; simp at h
    | some acc1 =>
      rw [hstep] at h
      simp only [Option.some_bind] at h
      obtain ⟨lv, W, hsv, hacc1⟩ := setupStep_char hstep
      subst hacc1
      obtain ⟨ihpre, ihlen, ihval⟩ := ih (a + 1) (accV ++ [lv]) W res
        (by simp [hacc]) h
      refine ⟨?_, by rw [ihlen]; omega, ?_⟩
      · intro i x hx
        have hib : i < accV.length := (List.get?_eq_some.mp hx).1
        refine ihpre i x ?_
        rw [List.get?_append hib]
        exact hx
      · intro v hv1 hv2
        by_cases hva : v = a
        · subst hva
          have hgl := List.get?_concat_length accV lv
          rw [hacc] at hgl
          rw [ihpre v lv hgl]
          exact hsv.symm
        · exact ihval v (by omega) (by omega)

/-- Characterization of a successful `Values::setup`: the table has one
entry per SSA name and entry `v` holds `setupValue f v`. -/
theorem valuesSetup_char {f : FFunc} {values : List LatticeValue}
    {wl : List VRef} (h : valuesSetup f = some (values, wl)) :
    values.length = f.numValues ∧
      ∀ v, v < f.numValues → values.get? v = setupValue f v := by
  unfold valuesSetup at h
  rw [List.range_eq_range' f.numValues] at h
  have h2 : (List.range' 0 f.numValues).foldlM (setupStep f) ([], []) =
      some (values, wl) := h
  obtain ⟨hpre, hlen, hval⟩ :=
    valuesSetup_go f f.numValues 0 [] [] (values, wl) rfl h2
  exact ⟨by simpa using hlen, fun v hv => hval v (Nat.zero_le v) (by simpa using hv)⟩

theorem findIdx?_some_char {α : Type} (p : α → Bool) :
    ∀ (l : List α) (st i : Nat), List.findIdx? p l st = some i →
      ∃ k x, i = st + k ∧ l.get? k = some x ∧ p x = true := by
  intro l
  induction l with
  | nil =>
    intro st i h
    rw [List.findIdx?_nil] at h
    cases h
  | cons a rest ih =>
    intro st i h
    rw [List.findIdx?_cons] at h
    by_cases hp : p a = true
    · rw [if_pos hp] at h
      injection h with he
      exact ⟨0, a, by omega, rfl, hp⟩
    · rw [if_neg hp] at h
      obtain ⟨k, x, hik, hget, hpx⟩ := ih (st + 1) i h
      exact ⟨k + 1, x, by omega, by simpa using hget, hpx⟩

theorem findIdx?_none_char {α : Type} (p : α → Bool) :
    ∀ (l : List α) (st : Nat), List.findIdx? p l st = none →
      ∀ x ∈ l, p x = false := by
  intro l
  induction l with
  | nil =>
    intro st h x hx
    cases hx
  | cons a rest ih =>
    intro st h x hx
    rw [List.findIdx?_cons] at h
    by_cases hp : p a = true
    · rw [if_pos hp] at h
      cases h
    · rw [if_neg hp] at h
      rcases List.mem_cons.mp hx with he | hmem
      · subst he
        cases hpa : p x
        · rfl
        · exact absurd hpa hp
      · exact ih (st + 1) h x hmem

theorem valueDef_some {f : FFunc} {v : VRef} {i : FInstId}
    (h : f.valueDef v = some i) :
    ∃ inst, f.insts.get? i = some inst ∧ v ∈ inst.results := by
  unfold FFunc.valueDef at h
  obtain ⟨k, x, hik, hget, hpx⟩ := findIdx?_some_char _ f.insts 0 i h
  have hik2 : i = k := by simpa using hik
  subst hik2
  exact ⟨x, hget, by simpa using hpx⟩

theorem valueDef_none {f : FFunc} {v : VRef} (h : f.valueDef v = none) :
    ∀ i inst, f.insts.get? i = some inst → v ∉ inst.results := by
  unfold FFunc.valueDef at h
  intro i inst hi hmem
  have hmem2 : inst ∈ f.insts := List.get?_mem hi
  have := findIdx?_none_char _ f.insts 0 h inst hmem2
  simp at this
  exact this hmem

theorem isValueUnknowable_none {f : FFunc} {v : VRef}
    (h : f.valueDef v = none) : isValueUnknowable f v = false := by
  unfold isValueUnknowable
  rw [h]

theorem isValueUnknowable_eq {f : FFunc} {v : VRef} {i : FInstId} {inst : FInst}
    (h1 : f.valueDef v = some i) (h2 : f.insts.get? i = some inst) :
    isValueUnknowable f v = inst.data.canLoad := by
  unfold isValueUnknowable
  rw [h1]
  simp only []
  rw [h2]

theorem resolveValueToImm_none {f : FFunc} {v : VRef}
    (h : f.valueDef v = none) : resolveValueToImm f v = some none := by
  unfold resolveValueToImm
  rw [h]

theorem resolveValueToImm_eq {f : FFunc} {v : VRef} {i : FInstId} {inst : FInst}
    (h1 : f.valueDef v = some i) (h2 : f.insts.get? i = some inst) :
    resolveValueToImm f v =
      (match inst.data with
        | .iconst ty imm => (dvFromImm imm ty).map some
        | .bconst ty imm => if ty.isBool then some (some (.B imm)) else none
        | .f32const bits => some (some (.F32 bits))
        | .f64const bits => some (some (.F64 bits))
        | _ => some none) := by
  unfold resolveValueToImm
  rw [h1]
  simp only []
  rw [h2]

/-- The state `fold_constants` enters its worklist loop with satisfies the
loop invariant, for any worklist. -/
theorem setup_foldInv {Γ : VRef → FTy} {inputs : List (VRef × List VRef)}
    {f : FFunc} {values : List LatticeValue} {wl : List VRef}
    (hwf : FoldWF Γ inputs f)
    (hsetup : valuesSetup f = some (values, wl)) (wl2 : List VRef) :
    FoldInv Γ inputs ⟨f, values, wl2⟩ := by
  obtain ⟨hlen, hchar⟩ := valuesSetup_char hsetup
  refine ⟨hwf, ?_, ?_, ?_⟩
  · intro v d hvd
    have hv : v < f.numValues := by
      rw [← hlen]
      exact (List.get?_eq_some.mp hvd).1
    rw [show valuesGet values v = values.get? v from rfl, hchar v hv] at hvd
    unfold setupValue at hvd
    by_cases hunk : isValueUnknowable f v = true
    · rw [if_pos hunk] at hvd
      injection hvd with he
      cases he
    · rw [if_neg hunk] at hvd
      cases hvd2 : f.valueDef v with
      | none =>
        rw [resolveValueToImm_none hvd2] at hvd
        simp only [Option.map_some'] at hvd
        injection hvd with he
        cases he
      | some i =>
        obtain ⟨inst, hgi, hmem⟩ := valueDef_some hvd2
        rw [resolveValueToImm_eq hvd2 hgi] at hvd
        have hty := hwf.typed i inst hgi
        cases hd : inst.data <;> rw [hd] at hvd <;> (try simp only [] at hvd)
        next ty imm =>
          unfold InstTyped at hty
          rw [hd] at hty
          obtain ⟨hint, r0, hres0, hg⟩ := hty
          rw [hres0] at hmem
          have hvr0 : v = r0 := List.mem_singleton.mp hmem
          subst hvr0
          match hcc : dvFromImm imm ty with
          | none => rw [hcc] at hvd; simp at hvd
          | some c2 =>
            rw [hcc] at hvd
            simp only [Option.map_some'] at hvd
            injection hvd with hx
            injection hx with hx2
            obtain ⟨hwc, htc⟩ := dvFromImm_typed hcc
            rw [hx2] at hwc htc
            exact ⟨hwc, by rw [hg]; exact htc⟩
        next ty imm =>
          unfold InstTyped at hty
          rw [hd] at hty
          obtain ⟨hbool, r0, hres0, hg⟩ := hty
          rw [hres0] at hmem
          have hvr0 : v = r0 := List.mem_singleton.mp hmem
          subst hvr0
          rw [if_pos hbool] at hvd
          simp only [Option.map_some'] at hvd
          injection hvd with hx
          injection hx with hx2
          rw [← hx2]
          exact ⟨trivial, by rw [hg]; simpa [dvTyped] using hbool⟩
        next bits =>
          unfold InstTyped at hty
          rw [hd] at hty
          obtain ⟨r0, hres0, hg⟩ := hty
          rw [hres0] at hmem
          have hvr0 : v = r0 := List.mem_singleton.mp hmem
          subst hvr0
          simp only [Option.map_some'] at hvd
          injection hvd with hx
          injection hx with hx2
          rw [← hx2]
          exact ⟨trivial, by rw [hg]; rfl⟩
        next bits =>
          unfold InstTyped at hty
          rw [hd] at hty
          obtain ⟨r0, hres0, hg⟩ := hty
          rw [hres0] at hmem
          have hvr0 : v = r0 := List.mem_singleton.mp hmem
          subst hvr0
          simp only [Option.map_some'] at hvd
          injection hvd with hx
          injection hx with hx2
          rw [← hx2]
          exact ⟨trivial, by rw [hg]; rfl⟩
        all_goals simp at hvd
  · intro p ins hp folded prev hfold hprev
    have hvp : p < f.numValues := by
      rw [← hlen]
      exact (List.get?_eq_some.mp hprev).1
    rw [show valuesGet values p = values.get? p from rfl, hchar p hvp] at hprev
    have hnone : f.valueDef p = none := by
      cases hvd2 : f.valueDef p with
      | none => rfl
      | some i =>
        obtain ⟨inst, hgi, hmem⟩ := valueDef_some hvd2
        exact absurd hmem (hwf.paramNotResult p ins hp i inst hgi)
    unfold setupValue at hprev
    rw [isValueUnknowable_none hnone] at hprev
    rw [if_neg (by simp)] at hprev
    rw [resolveValueToImm_none hnone] at hprev
    simp only [Option.map_some'] at hprev
    injection hprev with he
    rw [← he]
    exact Or.inl (latLe_top _)
  · intro i inst r hi hr x prev hfi hprev
    have hvr : r < f.numValues := by
      rw [← hlen]
      exact (List.get?_eq_some.mp hprev).1
    rw [show valuesGet values r = values.get? r from rfl, hchar r hvr] at hprev
    have hfind : ∃ i2, f.valueDef r = some i2 := by
      cases hvd2 : f.valueDef r with
      | none => exact absurd hr (valueDef_none hvd2 i inst hi)
      | some i2 => exact ⟨i2, rfl⟩
    obtain ⟨i2, hvd2⟩ := hfind
    obtain ⟨inst2, hgi2, hmem2⟩ := valueDef_some hvd2
    have hii : i2 = i := hwf.ssaUnique i2 i inst2 inst r hgi2 hi hmem2 hr
    subst hii
    rw [hi] at hgi2
    injection hgi2 with he
    subst he
    obtain ⟨inst3, hi3, hcase⟩ := finterpret_assign_cases hfi
    rw [hi] at hi3
    injection hi3 with he3
    subst he3
    have hunk : isValueUnknowable f r = false := by
      rw [isValueUnknowable_eq hvd2 hi]
      rcases hcase with ⟨ty, imm, c, hd, _, _⟩ | ⟨ty, imm, hd, _, _⟩ |
        ⟨bits, hd, _⟩ | ⟨bits, hd, _⟩ | ⟨ty, a, b, va, vb, rr, hd, _, _, _, _⟩ |
        ⟨ty, a, b, va, vb, rr, hd, _, _, _, _⟩ <;> rw [hd] <;> rfl
    unfold setupValue at hprev
    rw [hunk] at hprev
    rw [if_neg (by simp)] at hprev
    rw [resolveValueToImm_eq hvd2 hi] at hprev
    rcases hcase with ⟨ty, imm, c, hd, hcc, hv⟩ | ⟨ty, imm, hd, hbo, hv⟩ |
      ⟨bits, hd, hv⟩ | ⟨bits, hd, hv⟩ |
      ⟨ty, a, b, va, vb, rr, hd, ha, hb, hlb, hv⟩ |
      ⟨ty, a, b, va, vb, rr, hd, ha, hb, hlb, hv⟩
    · rw [hd] at hprev
      simp only [] at hprev
      rw [hcc] at hprev
      simp only [Option.map_some'] at hprev
      injection hprev with he4
      injection hv with hv1
      rw [← he4, hv1]
      exact Or.inl (Or.inl rfl)
    · rw [hd] at hprev
      simp only [] at hprev
      rw [if_pos hbo] at hprev
      simp only [Option.map_some'] at hprev
      injection hprev with he4
      injection hv with hv1
      rw [← he4, hv1]
      exact Or.inl (Or.inl rfl)
    · rw [hd] at hprev
      simp only [] at hprev
      simp only [Option.map_some'] at hprev
      injection hprev with he4
      injection hv with hv1
      rw [← he4, hv1]
      exact Or.inl (Or.inl rfl)
    · rw [hd] at hprev
      simp only [] at hprev
      simp only [Option.map_some'] at hprev
      injection hprev with he4
      injection hv with hv1
      rw [← he4, hv1]
      exact Or.inl (Or.inl rfl)
    · rw [hd] at hprev
      simp only [] at hprev
      simp only [Option.map_some'] at hprev
      injection hprev with he4
      rw [← he4]
      exact Or.inl (latLe_top _)
    · rw [hd] at hprev
      simp only [] at hprev
      simp only [Option.map_some'] at hprev
      injection hprev with he4
      rw [← he4]
      exact Or.inl (latLe_top _)

/-- `n` completed iterations of the worklist loop. -/
def foldSteps (uses : List (VRef × List FInstId))
    (inputs : List (VRef × List VRef)) : Nat → FoldState → Option FoldState
  | 0, s => some s
  | n + 1, s =>
    match foldStep uses inputs s with
    | some (some s2) => foldSteps uses inputs n s2
    | _ => none

theorem foldSteps_inv {Γ : VRef → FTy} {inputs : List (VRef × List VRef)}
    {uses : List (VRef × List FInstId)} (hin : inputsTyped Γ inputs) :
    ∀ {n : Nat} {s s2 : FoldState}, FoldInv Γ inputs s →
      foldSteps uses inputs n s = some s2 →
      valuesEvolve s.values s2.values ∧ FoldInv Γ inputs s2 := by
  intro n
  induction n with
  | zero =>
    intro s s2 hinv h
    injection h with he
    rw [← he]
    exact ⟨valuesEvolve_refl _, hinv⟩
  | succ n ih =>
    intro s s2 hinv h
    unfold foldSteps at h
    match hstep : foldStep uses inputs s with
    | none =>
      rw [hstep] at h
      cases h
    | some none =>
      rw [hstep] at h
      cases h
    | some (some mid) =>
      rw [hstep] at h
      have h2 : foldSteps uses inputs n mid = some s2 := h
      obtain ⟨hev1, hinv1⟩ := foldStep_inv hin hinv hstep
      obtain ⟨hev2, hinv2⟩ := ih hinv1 h2
      exact ⟨valuesEvolve_trans hev1 hev2, hinv2⟩

/-- **C5.**  Lattice monotonicity across the worklist loop of
`fold_constants`: starting from `Values::setup` on a well-formed,
well-typed function, at every reachable iteration of `while let Some(v) =
worklist.pop()` each SSA name's recorded `LatticeValue` only moves
downward in the order Top → Constant → Bottom — Top to Constant, Top to
Bottom, Constant to Bottom, or unchanged; never Bottom back to Constant or
Top, never Constant back to Top, and never Constant(a) to Constant(b) with
a ≠ b (the `!=` guards skip `==`-equal rewrites, so a surviving update of
a Constant is a strict drop). -/
theorem fold_monotone_C5 {Γ : VRef → FTy} {inputs : List (VRef × List VRef)}
    {uses : List (VRef × List FInstId)} {f : FFunc}
    {values : List LatticeValue} {wl : List VRef} {n : Nat} {s s2 : FoldState}
    (hwf : FoldWF Γ inputs f) (hin : inputsTyped Γ inputs)
    (hsetup : valuesSetup f = some (values, wl))
    (hreach : foldSteps uses inputs n ⟨f, values, wl⟩ = some s)
    (hstep : foldStep uses inputs s = some (some s2)) :
    valuesEvolve s.values s2.values := by
  obtain ⟨-, hinv⟩ := foldSteps_inv hin (setup_foldInv hwf hsetup wl) hreach
  exact (foldStep_inv hin hinv hstep).1

/-- Concrete function for the C5 witness: `v0 = iconst.i32 3; v1 = iadd.i32
v0, v0; return v1`. -/
def c5Func : FFunc :=
  ⟨[⟨.iconst .i32 3, [0]⟩, ⟨.iadd .i32 0 0, [1]⟩, ⟨.ret [1], []⟩],
    [⟨[], [0, 1, 2]⟩], 2⟩

def c5Gamma : VRef → FTy := fun _ => .i32

/-- The fold state after `Values::setup` on `c5Func`: `v0` constant, `v1`
top, `v0` on the worklist. -/
def c5s : FoldState := ⟨c5Func, [.constant (.I32 3), .top], [0]⟩

/-- The fold state after one worklist iteration: the `iadd` is replaced by
`iconst.i32 6` and `v1` drops from Top to Constant 6. -/
def c5s2 : FoldState :=
  ⟨⟨[⟨.iconst .i32 3, [0]⟩, ⟨.iconst .i32 6, [1]⟩, ⟨.ret [1], []⟩],
      [⟨[], [0, 1, 2]⟩], 2⟩,
    [.constant (.I32 3), .constant (.I32 6)], [1]⟩

theorem c5_inputsTyped : inputsTyped c5Gamma [] := by
  intro p ins hp
  simp [lookupList] at hp

theorem c5_foldInv : FoldInv c5Gamma [] c5s := by
  refine ⟨⟨?_, ?_, ?_⟩, ?_, ?_, ?_⟩
  · intro i j insti instj r hi hj hri hrj
    have hi3 : i < 3 := by
      simpa [c5Func] using (List.get?_eq_some.mp hi).1
    have hj3 : j < 3 := by
      simpa [c5Func] using (List.get?_eq_some.mp hj).1
    interval_cases i <;> interval_cases j <;> simp_all [c5s, c5Func] <;>
      (try subst hi) <;> (try subst hj) <;> simp_all
  · intro p l hp
    simp [lookupList] at hp
  · intro i inst hi
    have hi3 : i < 3 := by
      simpa [c5Func] using (List.get?_eq_some.mp hi).1
    interval_cases i
    · rw [show c5s.func.insts.get? 0 = some ⟨.iconst .i32 3, [0]⟩ from rfl] at hi
      injection hi with he
      rw [← he]
      exact ⟨rfl, 0, rfl, rfl⟩
    · rw [show c5s.func.insts.get? 1 = some ⟨.iadd .i32 0 0, [1]⟩ from rfl] at hi
      injection hi with he
      rw [← he]
      exact ⟨rfl, rfl, rfl, 1, rfl, rfl⟩
    · rw [show c5s.func.insts.get? 2 = some ⟨.ret [1], []⟩ from rfl] at hi
      injection hi with he
      rw [← he]
      rfl
  · intro v d hvd
    have hv2 : v < 2 := by
      simpa [c5s] using (List.get?_eq_some.mp hvd).1
    interval_cases v
    · rw [show valuesGet c5s.values 0 = some (.constant (.I32 3)) from rfl] at hvd
      injection hvd with he
      injection he with he2
      rw [← he2]
      exact ⟨⟨by decide, by decide⟩, rfl⟩
    · rw [show valuesGet c5s.values 1 = some .top from rfl] at hvd
      injection hvd with he
      cases he
  · intro p ins hp
    simp [lookupList] at hp
  · intro i inst r hi hr x prev hfi hprev
    have hi3 : i < 3 := by
      simpa [c5Func] using (List.get?_eq_some.mp hi).1
    interval_cases i
    · rw [show finterpret c5s.func 0 c5s.values =
        some (.assign [.constant (.I32 3)]) from by decide] at hfi
      injection hfi with he
      injection he with he1
      injection he1 with he2
      rw [show c5s.func.insts.get? 0 = some ⟨.iconst .i32 3, [0]⟩ from rfl] at hi
      injection hi with he3
      rw [← he3] at hr
      have hr0 : r = 0 := by simpa using hr
      subst hr0
      rw [show valuesGet c5s.values 0 = some (.constant (.I32 3)) from rfl] at hprev
      injection hprev with he4
      rw [← he2, ← he4]
      exact Or.inl (Or.inl rfl)
    · rw [show finterpret c5s.func 1 c5s.values =
        some (.assign [.constant (.I32 6)]) from by decide] at hfi
      injection hfi with he
      injection he with he1
      injection he1 with he2
      rw [show c5s.func.insts.get? 1 = some ⟨.iadd .i32 0 0, [1]⟩ from rfl] at hi
      injection hi with he3
      rw [← he3] at hr
      have hr1 : r = 1 := by simpa using hr
      subst hr1
      rw [show valuesGet c5s.values 1 = some .top from rfl] at hprev
      injection hprev with he4
      rw [← he4]
      exact Or.inl (latLe_top _)
    · rw [show finterpret c5s.func 2 c5s.values = some .returnFlow from rfl] at hfi
      injection hfi with he
      cases he

/-- Witness for **C5**: on `c5Func` the setup state is `[Constant 3, Top]`
with worklist `[v0]`, and the first worklist iteration moves the table
down to `[Constant 3, Constant 6]`. -/
theorem fold_monotone_C5_witness :
    valuesEvolve c5s.values c5s2.values :=
  fold_monotone_C5 c5_foldInv.wf c5_inputsTyped
    (by decide :
      valuesSetup c5Func = some ([.constant (.I32 3), .top], [0]))
    (rfl : foldSteps (ssaNameUses c5Func) [] 0
      ⟨c5Func, [.constant (.I32 3), .top], [0]⟩ = some c5s)
    (by decide : foldStep (ssaNameUses c5Func) [] c5s = some (some c5s2))

end Clif
